import Mathlib

/-!
# MapReduce (`mapreduce.c`): partition trees, emit, drain

The C program keeps, per partition, a binary search tree of key nodes with parent
back-links; every key node owns a singly linked list of value cells.  The embedding
keeps the pointer structure: key nodes and value cells live in two heaps indexed by
address, `malloc` hands out the next unused address, `free` marks the address as
released, and every read of a released or unknown address is a fault.  The process-wide
arrays (`bst_heads`, `low_key`, `cur_values`, `new_key`) are lists indexed by the
partition number.

Loops of the C code are run with a fuel bound taken from the heap size; running out of
fuel is the fault `diverge` (the C loop would not terminate on such a heap).
-/

namespace MapReduce

/-- A C string: the bytes before the terminating NUL, each byte a number below 256. -/
abbrev Str := List Nat

/-- The ways in which an execution of the C code stops without a result: the call
`exit(1)`, or one of the ways to leave defined behaviour. -/
inductive Fault where
  | exit1
  | nullDeref
  | wildPointer
  | useAfterFree
  | doubleFree
  | outOfBounds
  | divByZero
  | diverge
  | signedOverflow
  | badArraySize
  deriving DecidableEq

/-- The struct `v_node`: one value of a key and the link to the next value cell. -/
structure v_node where
  value : Str
  next : Option Nat
  deriving DecidableEq

/-- The struct `bst_node`: a key, the head of its value list, both children and the
parent back-link. -/
structure bst_node where
  key : Str
  v_head : Option Nat
  left : Option Nat
  right : Option Nat
  parent : Option Nat
  deriving DecidableEq

/-- The process-wide state of the engine: both heaps (`none` marks a released address)
and the per-partition arrays allocated by `MR_Run`. -/
structure MR where
  nodes : List (Option bst_node)
  cells : List (Option v_node)
  bst_heads : List (Option Nat)
  low_key : List (Option Nat)
  cur_values : List (Option Nat)
  new_key : List Int
  deriving DecidableEq

/-- Read of `xs[i]` in a C array of known length. -/
def rd {α : Type} (xs : List α) (i : Nat) : Except Fault α :=
  match xs[i]? with
  | some x => .ok x
  | none => .error .outOfBounds

/-- Write `xs[i] = v` in a C array of known length. -/
def wr {α : Type} (xs : List α) (i : Nat) (v : α) : Except Fault (List α) :=
  if i < xs.length then .ok (xs.set i v) else .error .outOfBounds

/-- Dereference of a key-node pointer for reading. -/
def readNode (s : MR) (a : Nat) : Except Fault bst_node :=
  match s.nodes[a]? with
  | some (some n) => .ok n
  | some none => .error .useAfterFree
  | none => .error .wildPointer

/-- Dereference of a value-cell pointer for reading. -/
def readCell (s : MR) (c : Nat) : Except Fault v_node :=
  match s.cells[c]? with
  | some (some v) => .ok v
  | some none => .error .useAfterFree
  | none => .error .wildPointer

/-- Store through a key-node pointer (the node is live at every use). -/
def writeNode (s : MR) (a : Nat) (n : bst_node) : MR :=
  { s with nodes := s.nodes.set a (some n) }

/-- Dereference of a possibly NULL pointer. -/
def deref (p : Option Nat) : Except Fault Nat :=
  match p with
  | some a => .ok a
  | none => .error .nullDeref

/-- The call `free(c)` on a value cell. -/
def freeCell (s : MR) (c : Nat) : Except Fault MR :=
  match s.cells[c]? with
  | some (some _) => .ok { s with cells := s.cells.set c none }
  | some none => .error .doubleFree
  | none => .error .wildPointer

/-- The call `free(node)` on a key node (its key string goes with it). -/
def freeNodeMem (s : MR) (a : Nat) : Except Fault MR :=
  match s.nodes[a]? with
  | some (some _) => .ok { s with nodes := s.nodes.set a none }
  | some none => .error .doubleFree
  | none => .error .wildPointer

/-- The library function `strcmp` on NUL-free byte strings, up to the sign of its
result (the only part the C standard fixes): negative, zero or positive as the first
string is below, equal to or above the second in byte-lexicographic order. -/
def strcmp : Str → Str → Int
  | [], [] => 0
  | [], _ :: _ => -1
  | _ :: _, [] => 1
  | a :: as, b :: bs => if a < b then -1 else if b < a then 1 else strcmp as bs

/-- The state set up by `MR_Run` before the map phase (lines 116-125): empty heaps and,
for each of the `n` partitions, no tree, no current minimum, no value cursor and the
new-key flag raised. -/
def initState (n : Nat) : MR :=
  { nodes := [], cells := [],
    bst_heads := List.replicate n none,
    low_key := List.replicate n none,
    cur_values := List.replicate n none,
    new_key := List.replicate n 1 }

/-- The function `value_push`: allocate a cell for the value and make it the new head
of the node's value list. -/
def value_push (s : MR) (node : Nat) (value : Str) : Except Fault MR := do
  let new_value := s.cells.length
  let n ← readNode s node
  match n.v_head with
  | none =>
    let s1 : MR := { s with cells := s.cells ++ [some { value := value, next := none }] }
    pure (writeNode s1 node { n with v_head := some new_value })
  | some h =>
    let s1 : MR := { s with cells := s.cells ++ [some { value := value, next := some h }] }
    pure (writeNode s1 node { n with v_head := some new_value })

/-- The `while(1)` loop of `add_to_tree`, started at `parent_node`. -/
def add_loop (key value : Str) : Nat → MR → Nat → Except Fault MR
  | 0, _, _ => .error .diverge
  | fuel + 1, s, parent_node => do
    let pn ← readNode s parent_node
    let cmp := strcmp key pn.key
    if cmp = 0 then
      value_push s parent_node value
    else if cmp < 0 then
      match pn.left with
      | none =>
        let new_node := s.nodes.length
        let s1 : MR := { s with nodes := s.nodes ++
          [some { key := key, v_head := none, left := none, right := none,
                  parent := some parent_node }] }
        let s2 := writeNode s1 parent_node { pn with left := some new_node }
        value_push s2 new_node value
      | some l => add_loop key value fuel s l
    else
      match pn.right with
      | none =>
        let new_node := s.nodes.length
        let s1 : MR := { s with nodes := s.nodes ++
          [some { key := key, v_head := none, left := none, right := none,
                  parent := some parent_node }] }
        let s2 := writeNode s1 parent_node { pn with right := some new_node }
        value_push s2 new_node value
      | some r => add_loop key value fuel s r

/-- The function `add_to_tree`: add the pair to the tree of partition `part_num`. -/
def add_to_tree (s : MR) (part_num : Nat) (key value : Str) : Except Fault MR := do
  let parent_node ← rd s.bst_heads part_num
  match parent_node with
  | none =>
    let new_node := s.nodes.length
    let s1 : MR := { s with nodes := s.nodes ++
      [some { key := key, v_head := none, left := none, right := none, parent := none }] }
    let heads ← wr s1.bst_heads part_num (some new_node)
    let s2 : MR := { s1 with bst_heads := heads }
    value_push s2 new_node value
  | some p => add_loop key value s.nodes.length s p

/-- The loop of `free_node` releasing the value cells of a node one by one. -/
def free_values (node : Nat) : Nat → MR → Except Fault MR
  | 0, _ => .error .diverge
  | fuel + 1, s => do
    let n ← readNode s node
    match n.v_head with
    | none => pure s
    | some temp_node =>
      let c ← readCell s temp_node
      let s1 := writeNode s node { n with v_head := c.next }
      let s2 ← freeCell s1 temp_node
      free_values node fuel s2

/-- The function `free_node`: release the value list, then the node with its key. -/
def free_node (s : MR) (node : Nat) : Except Fault MR := do
  let s1 ← free_values node (s.cells.length + 1) s
  freeNodeMem s1 node

/-- The loops `while(p->left != NULL) p = p->left` of `get_low_key`. -/
def leftmost_loop : Nat → MR → Nat → Except Fault Nat
  | 0, _, _ => .error .diverge
  | fuel + 1, s, p => do
    let n ← readNode s p
    match n.left with
    | none => pure p
    | some l => leftmost_loop fuel s l

/-- The function `get_low_key`: the lowest key left in the partition (`none` is the
NULL result), releasing the node handed out by the previous call.  On the first call the
descent to the leftmost node is run first and `low_key` is stored once, at its end. -/
def get_low_key (s : MR) (partition_num : Nat) : Except Fault (Option Str × MR) := do
  let lk ← rd s.low_key partition_num
  match lk with
  | none =>
    let head ← rd s.bst_heads partition_num
    match head with
    | none => pure (none, s)
    | some h =>
      let low ← leftmost_loop s.nodes.length s h
      let lows ← wr s.low_key partition_num (some low)
      let n ← readNode s low
      pure (some n.key, { s with low_key := lows })
  | some delete_node =>
    let dn ← readNode s delete_node
    match dn.right, dn.parent with
    | none, none =>
      let heads ← wr s.bst_heads partition_num none
      let s0 : MR := { s with bst_heads := heads }
      let s1 ← free_node s0 delete_node
      pure (none, s1)
    | none, some par =>
      let lows ← wr s.low_key partition_num (some par)
      let s1 : MR := { s with low_key := lows }
      let pn ← readNode s1 par
      let s2 := writeNode s1 par { pn with left := none }
      let s3 ← free_node s2 delete_node
      let n ← readNode s3 par
      pure (some n.key, s3)
    | some temp_node, dpar =>
      let head ← rd s.bst_heads partition_num
      let s2 ← (if some delete_node = head then do
          let heads ← wr s.bst_heads partition_num (some temp_node)
          let s1 : MR := { s with bst_heads := heads }
          let tn ← readNode s1 temp_node
          pure (writeNode s1 temp_node { tn with parent := none })
        else do
          let par ← deref dpar
          let pn ← readNode s par
          let s1 := writeNode s par { pn with left := some temp_node }
          let tn ← readNode s1 temp_node
          pure (writeNode s1 temp_node { tn with parent := dpar }))
      let low ← leftmost_loop s2.nodes.length s2 temp_node
      let lows ← wr s2.low_key partition_num (some low)
      let s2b : MR := { s2 with low_key := lows }
      let s3 ← free_node s2b delete_node
      let n ← readNode s3 low
      pure (some n.key, s3)

/-- The function `get_next_value`: the next value of the current key of the partition
(`none` is the NULL result that ends the values of the key). -/
def get_next_value (s : MR) (_key : Str) (partition_num : Nat) :
    Except Fault (Option Str × MR) := do
  let nk ← rd s.new_key partition_num
  let s1 ← (if nk = 1 then do
      let flags ← wr s.new_key partition_num 0
      let lk ← rd s.low_key partition_num
      let a ← deref lk
      let n ← readNode s a
      let curs ← wr s.cur_values partition_num n.v_head
      pure { s with new_key := flags, cur_values := curs }
    else pure s)
  let cv ← rd s1.cur_values partition_num
  match cv with
  | none =>
    let flags ← wr s1.new_key partition_num 1
    pure (none, { s1 with new_key := flags })
  | some c =>
    let cell ← readCell s1 c
    let curs ← wr s1.cur_values partition_num cell.next
    pure (some cell.value, { s1 with cur_values := curs })


/-- A sequence of `add_to_tree` calls, each given as partition number, key and value. -/
def add_all (s : MR) : List (Nat × Str × Str) → Except Fault MR
  | [] => .ok s
  | (p, k, v) :: es => do
    let s1 ← add_to_tree s p k v
    add_all s1 es

/-- Repeated `get_low_key` calls on one partition until the call returns NULL,
collecting the keys handed out. -/
def drain_loop (partition_num : Nat) : Nat → MR → Except Fault (List Str × MR)
  | 0, _ => .error .diverge
  | fuel + 1, s => do
    let (k, s1) ← get_low_key s partition_num
    match k with
    | none => pure ([], s1)
    | some key =>
      let (ks, s2) ← drain_loop partition_num fuel s1
      pure (key :: ks, s2)

/-- The keys of a partition in the order in which `get_low_key` hands them out. -/
def drain_keys (s : MR) (partition_num : Nat) : Except Fault (List Str × MR) :=
  drain_loop partition_num (s.nodes.length + 1) s

/-- The value cells reachable from a value-list pointer: address and value. -/
def cell_list (s : MR) : Nat → Option Nat → List (Nat × Str)
  | 0, _ => []
  | _ + 1, none => []
  | fuel + 1, some c =>
    match s.cells[c]? with
    | some (some v) => (c, v.value) :: cell_list s fuel v.next
    | _ => []

/-- The key nodes reachable from a tree pointer, in order: address, key, value cells. -/
def tree_dump (s : MR) : Nat → Option Nat → List (Nat × Str × List (Nat × Str))
  | 0, _ => []
  | _ + 1, none => []
  | fuel + 1, some a =>
    match s.nodes[a]? with
    | some (some n) =>
      tree_dump s fuel n.left ++
        (a, n.key, cell_list s s.cells.length n.v_head) :: tree_dump s fuel n.right
    | _ => []

/-- The store of a partition: the key nodes of its tree in order, each with its
address, its key and its value cells from the head of the list. -/
def store (s : MR) (p : Nat) : List (Nat × Str × List (Nat × Str)) :=
  match s.bst_heads[p]? with
  | some r => tree_dump s s.nodes.length r
  | none => []

/-- The keys present in the store of a partition, in order. -/
def store_keys (s : MR) (p : Nat) : List Str := (store s p).map (fun e => e.2.1)

/-- What the reduce phase does on one partition, as seen from outside: a key handed to
the reduce callback, a value or the end-of-values answer of `get_next_value`, and the
release of a key node by `get_low_key`. -/
inductive Event where
  | key (k : Str)
  | value (v : Str)
  | endOfValues
  | destroyed (a : Nat)
  deriving DecidableEq

/-- The next action of a reduce callback: call `get_next_value` or return. -/
inductive Step (σ : Type) where
  | pull (st : σ)
  | ret (st : σ)

/-- A user reduce callback with its own state of type `σ`: `enter` is its start on a key
and a partition number, `resume` its continuation after `get_next_value` answered. -/
structure Reducer (σ : Type) where
  enter : σ → Str → Nat → Step σ
  resume : σ → Option Str → Step σ

/-- A reduce callback that pulls values until the first end-of-values answer and then
returns. -/
def PullsToEnd {σ : Type} (cb : Reducer σ) : Prop :=
  (∀ st k p, ∃ st', cb.enter st k p = .pull st') ∧
  (∀ st v, ∃ st', cb.resume st (some v) = .pull st') ∧
  (∀ st, ∃ st', cb.resume st none = .ret st')

/-- The answer of `get_next_value` as an event. -/
def Event.ofValue : Option Str → Event
  | some v => .value v
  | none => .endOfValues

/-- One invocation `reducer(key, get_next_value, local_part)`: the callback runs, every
`get_next_value` call it makes goes to its own partition, and the answers are recorded.
The fuel bounds the number of calls the callback makes. -/
def run_reducer {σ : Type} (cb : Reducer σ) (key : Str) (local_part : Nat) :
    Nat → Step σ → MR → Except Fault (σ × MR × List Event)
  | 0, _, _ => .error .diverge
  | _ + 1, .ret st, s => .ok (st, s, [])
  | fuel + 1, .pull st, s => do
    let (v, s1) ← get_next_value s key local_part
    let (st', s2, tr) ← run_reducer cb key local_part fuel (cb.resume st v) s1
    pure (st', s2, Event.ofValue v :: tr)

/-- The node a `get_low_key` call releases: the current minimum left by the previous
call, if there is one. -/
def released (old : Option Nat) : List Event :=
  match old with
  | some a => [.destroyed a]
  | none => []

/-- The loop of `reduce_thread`: get the next low key, stop when there is none, else
run the reduce callback on it.  The events of the run are recorded. -/
def reduce_loop {σ : Type} (cb : Reducer σ) (cbFuel : Nat) (local_part : Nat) :
    Nat → σ → MR → Except Fault (σ × MR × List Event)
  | 0, _, _ => .error .diverge
  | fuel + 1, st, s => do
    let old ← rd s.low_key local_part
    let (next_key, s1) ← get_low_key s local_part
    match next_key with
    | none => pure (st, s1, released old)
    | some key =>
      let (st1, s2, tr1) ← run_reducer cb key local_part cbFuel (cb.enter st key local_part) s1
      let (st2, s3, tr2) ← reduce_loop cb cbFuel local_part fuel st1 s2
      pure (st2, s3, released old ++ Event.key key :: (tr1 ++ tr2))

/-- The function `reduce_thread` for partition `local_part`. -/
def reduce_thread {σ : Type} (cb : Reducer σ) (cbFuel : Nat) (st : σ) (s : MR)
    (local_part : Nat) : Except Fault (σ × MR × List Event) :=
  reduce_loop cb cbFuel local_part (s.nodes.length + 1) st s

/-- The events of a complete drain of a store: for every key node in order the key, its
values from the head of the list, the end-of-values answer and then the release of the
node. -/
def trace_of (st : List (Nat × Str × List (Nat × Str))) : List Event :=
  st.flatMap (fun e => Event.key e.2.1 :: (e.2.2.map (fun c => Event.value c.2) ++
    [Event.endOfValues, Event.destroyed e.1]))

/-- The values emitted under key `k` to partition `p`, in emission order. -/
def emitted (es : List (Nat × Str × Str)) (p : Nat) (k : Str) : List Str :=
  (es.filter (fun e => e.1 = p ∧ e.2.1 = k)).map (fun e => e.2.2)

/-- Whether an event is a value answered by `get_next_value`. -/
def Event.isValue : Event → Bool
  | .value _ => true
  | _ => false

/-- The value an event carries, if it is a value answered by `get_next_value`. -/
def Event.getValue : Event → Option Str
  | .value v => some v
  | _ => none

/-- The values `get_next_value` answered right after the first hand-out of key `k`, up
to the first answer that is not a value. -/
def values_of (k : Str) : List Event → List Str
  | [] => []
  | e :: tr =>
    if e = Event.key k then (tr.takeWhile Event.isValue).filterMap Event.getValue
    else values_of k tr

/-- The value of a `char` read from a string as an `int`: plain `char` is signed on
some targets (bytes from 128 on are negative there) and unsigned on others. -/
def charToInt (charSigned : Bool) (b : Nat) : Int :=
  if charSigned ∧ 128 ≤ b then (b : Int) - 256 else (b : Int)

/-- The loop of `MR_DefaultHashPartition` over the bytes of the key, in `unsigned long`
arithmetic (64 bits). -/
def hash_loop (charSigned : Bool) : Int → Str → Int
  | hash, [] => hash
  | hash, c :: key => hash_loop charSigned ((hash * 33 + charToInt charSigned c) % 2 ^ 64) key

/-- The function `MR_DefaultHashPartition`; the `int` partition count is converted to
`unsigned long` for the remainder. -/
def MR_DefaultHashPartition (charSigned : Bool) (key : Str) (num_partitions : Int) :
    Except Fault Int :=
  let hash := hash_loop charSigned 5381 key
  let n := num_partitions % 2 ^ 64
  if n = 0 then .error .divByZero else .ok (hash % n)

/-- The default partitioner as the specification words it: start from 5381, for each
byte of the key replace `h` by `h * 33 + byte` reduced modulo `2 ^ 64`, and take the
result modulo the partition count. -/
def spec_hash_partition (key : Str) (n : Int) : Int :=
  (key.foldl (fun h b => (h * 33 + (b : Int)) % 2 ^ 64) 5381) % n

/-- A partition function: key and partition count to an `unsigned long` result. -/
abbrev Partitioner := Str → Int → Except Fault Int

/-- The conversion of an `unsigned long` result to `int` (32 bits, two's complement). -/
def toCInt (x : Int) : Int := (x + 2 ^ 31) % 2 ^ 32 - 2 ^ 31

/-- The function `MR_Emit`; `none` is a NULL argument.  The body between lock and unlock
is one step.  The lock array has as many entries as `bst_heads`, so the bound check of
`bst_locks[part]` is the one `add_to_tree` makes on `bst_heads[part]`. -/
def MR_Emit (parter : Partitioner) (num_partitions : Int) (s : MR) (key value : Option Str) :
    Except Fault MR :=
  match key, value with
  | some k, some v => do
    let part := toCInt (← parter k num_partitions)
    if part < 0 then .error .outOfBounds
    else add_to_tree s part.toNat k v
  | _, _ => .error .exit1

/-- A sequence of `MR_Emit` calls. -/
def emit_all (parter : Partitioner) (num_partitions : Int) (s : MR) :
    List (Option Str × Option Str) → Except Fault MR
  | [] => .ok s
  | (k, v) :: es => do
    let s1 ← MR_Emit parter num_partitions s k v
    emit_all parter num_partitions s1 es

/-- The interleavings of the emit sequences of several threads: every step takes the
next emit of one thread. -/
inductive Interleave {α : Type} : List (List α) → List α → Prop where
  | done (ts : List (List α)) (h : ∀ t ∈ ts, t = []) : Interleave ts []
  | step (ts : List (List α)) (i : Nat) (x : α) (rest out : List α)
      (h : ts[i]? = some (x :: rest)) (hrest : Interleave (ts.set i rest) out) :
      Interleave ts (x :: out)

/-- A user map callback: the `MR_Emit` calls it makes on a unit, in order. -/
abbrev Mapper := Str → List (Option Str × Option Str)

/-- The locked section of `map_thread`: the unit at the cursor, or NULL at the end of
the list, and the cursor after it. -/
def next_file (files : List (Option Str)) (current_file : Nat) :
    Except Fault (Option Str × Nat) :=
  match files[current_file]? with
  | some (some file) => .ok (some file, current_file + 1)
  | some none => .ok (none, current_file)
  | none => .error .outOfBounds

/-- A map worker: the emits left of the callback invocation it is in, the unit it has
fetched and not yet passed to the callback (the local `file` of `map_thread` between
the unlock and the call `mapper(file)`), and whether it has returned. -/
structure MapThread where
  pending : List (Option Str × Option Str)
  file : Option Str
  finished : Bool
  deriving DecidableEq

/-- The state of the map phase: the engine, the dispatcher cursor, the workers, and the
units on which the map callback has been invoked so far, in the order of the
invocations. -/
structure MapPhase where
  mr : MR
  current_file : Nat
  threads : List MapThread
  calls : List Str
  deriving DecidableEq

/-- One step of map worker `i`: the next `MR_Emit` of its callback invocation; or the
call `mapper(file)` on the unit it has fetched, after which it holds the emits of the
callback on that unit; or the locked fetch of the next unit, after which it holds that
unit or has returned.  The fetch and the call of the callback are separate steps, as the
call comes after the unlock. -/
def map_step (mapper : Mapper) (parter : Partitioner) (num_partitions : Int)
    (files : List (Option Str)) (m : MapPhase) (i : Nat) : Except Fault MapPhase :=
  match m.threads[i]? with
  | none => .ok m
  | some t =>
    if t.finished then .ok m
    else
      match t.pending with
      | (k, v) :: rest => do
        let s1 ← MR_Emit parter num_partitions m.mr k v
        pure { m with mr := s1, threads := m.threads.set i { t with pending := rest } }
      | [] =>
        match t.file with
        | some f =>
          pure { m with threads := m.threads.set i { t with pending := mapper f, file := none },
                        calls := m.calls ++ [f] }
        | none => do
          let (file, cf) ← next_file files m.current_file
          match file with
          | none => pure { m with threads := m.threads.set i { t with finished := true } }
          | some f =>
            pure { m with current_file := cf,
                          threads := m.threads.set i { t with file := some f } }

/-- Steps of the map workers in the order a schedule names them. -/
def map_steps (mapper : Mapper) (parter : Partitioner) (num_partitions : Int)
    (files : List (Option Str)) (m : MapPhase) : List Nat → Except Fault MapPhase
  | [] => .ok m
  | i :: sched => do
    let m1 ← map_step mapper parter num_partitions files m i
    map_steps mapper parter num_partitions files m1 sched

/-- The function `map_thread` of map worker `i`, run without interruption from its current
point until it returns. -/
def map_thread (mapper : Mapper) (parter : Partitioner) (num_partitions : Int)
    (files : List (Option Str)) (i : Nat) : Nat → MapPhase → Except Fault MapPhase
  | 0, _ => .error .diverge
  | fuel + 1, m =>
    match m.threads[i]? with
    | none => .ok m
    | some t =>
      if t.finished then .ok m
      else do
        let m1 ← map_step mapper parter num_partitions files m i
        map_thread mapper parter num_partitions files i fuel m1

/-- The join of the map workers: each is run to its end, in order. -/
def map_join (mapper : Mapper) (parter : Partitioner) (num_partitions : Int)
    (files : List (Option Str)) (fuel : Nat) (m : MapPhase) : List Nat → Except Fault MapPhase
  | [] => .ok m
  | i :: is => do
    let m1 ← map_thread mapper parter num_partitions files i fuel m
    map_join mapper parter num_partitions files fuel m1 is

/-- The reduce workers, one per partition number of the list, each run to its end. -/
def reduce_all {σ : Type} (cb : Reducer σ) (cbFuel : Nat) (st : σ) (s : MR) :
    List Nat → Except Fault (σ × MR × List (List Event))
  | [] => .ok (st, s, [])
  | p :: ps => do
    let (st1, s1, tr) ← reduce_thread cb cbFuel st s p
    let (st2, s2, trs) ← reduce_all cb cbFuel st1 s1 ps
    pure (st2, s2, tr :: trs)

/-- The steps the map workers need for a list of units: for each unit the fetch, the
call of the callback and the emits of the callback on it. -/
def units_work (mapper : Mapper) (units : List Str) : Nat :=
  (units.map (fun f => (mapper f).length + 2)).sum

/-- The steps a map worker needs for what it holds: its emits left, the call of the
callback on a fetched unit with the emits of that call, and its last fetch. -/
def thread_work (mapper : Mapper) (t : MapThread) : Nat :=
  t.pending.length +
    (match t.file with
     | some f => (mapper f).length + 1
     | none => 0) + 1

/-- The function `MR_Run`.  `argv` is the argument vector (program name first), `none` is
a NULL callback.  The arrays `threads[num_reducers+num_mappers]` and
`partition_nums[num_reducers]` are declared before the arguments are checked: a sum
outside `int` or a size that is not positive is undefined behaviour there.  The map
workers take steps as the schedule `sched` names them and are then joined; after the
join the reduce workers run, one per partition, one after the other.  The result is the
final state of the reduce callback, the final engine state and the events of each
partition; the release of the process-wide arrays at the end is not part of the
state. -/
def MR_Run {σ : Type} (charSigned : Bool) (sched : List Nat) (cbFuel : Nat) (st : σ)
    (argv : List Str) (map : Option Mapper) (num_mappers : Int)
    (reduce : Option (Reducer σ)) (num_reducers : Int) (partition : Option Partitioner) :
    Except Fault (σ × MR × List (List Event)) :=
  if num_reducers + num_mappers < -(2 ^ 31) ∨ 2 ^ 31 ≤ num_reducers + num_mappers then
    .error .signedOverflow
  else if num_reducers + num_mappers ≤ 0 ∨ num_reducers ≤ 0 then .error .badArraySize
  else
  match map, reduce with
  | some mapper, some reducer =>
    if (argv.length : Int) ≤ 1 ∨ num_mappers ≤ 0 ∨ num_reducers ≤ 0 then .error .exit1
    else do
      let files : List (Option Str) := (argv.drop 1).map some ++ [none]
      let parter : Partitioner :=
        match partition with
        | none => MR_DefaultHashPartition charSigned
        | some f => f
      let m0 : MapPhase :=
        { mr := initState num_reducers.toNat, current_file := 0,
          threads := List.replicate num_mappers.toNat
            { pending := [], file := none, finished := false },
          calls := [] }
      let m1 ← map_steps mapper parter num_reducers files m0 sched
      let work := units_work mapper (argv.drop 1) +
        (m1.threads.map (thread_work mapper)).sum + 1
      let m2 ← map_join mapper parter num_reducers files work m1
        (List.range num_mappers.toNat)
      reduce_all reducer cbFuel st m2.mr (List.range num_reducers.toNat)
  | _, _ => .error .exit1

/-- The words of a unit: the maximal runs of bytes other than blank, tab and newline. -/
def words_aux : List Nat → Str → List Str
  | cur, [] => if cur = [] then [] else [cur.reverse]
  | cur, b :: rest =>
    if b = 32 ∨ b = 9 ∨ b = 10 then
      (if cur = [] then words_aux [] rest else cur.reverse :: words_aux [] rest)
    else words_aux (b :: cur) rest

/-- The word-count map callback: it emits `(word, "1")` for every word of its unit. -/
def wc_map : Mapper := fun unit =>
  (words_aux [] unit).map (fun w => (some w, some [49]))

/-- The word-count reduce callback: it counts the values it pulls until end-of-values
and records the key with its count; its state lists the finished keys, latest first. -/
def wc_reduce : Reducer (List (Str × Nat)) where
  enter := fun st key _ => .pull ((key, 0) :: st)
  resume := fun st v =>
    match v, st with
    | some _, (k, n) :: rest => .pull ((k, n + 1) :: rest)
    | some _, [] => .pull []
    | none, _ => .ret st

/-- The argument vector of the word-count scenario: the program name and the two
units `a b a` and `b c`. -/
def wc_argv : List Str := [[112], [97, 32, 98, 32, 97], [98, 32, 99]]

/-- The unit list `MR_Run` builds from `wc_argv`, NULL at its end. -/
def wc_files : List (Option Str) := (wc_argv.drop 1).map some ++ [none]

/-- The map phase of the word-count scenario before the single map worker starts. -/
def wc_start : MapPhase :=
  { mr := initState 1, current_file := 0,
    threads := [{ pending := [], file := none, finished := false }], calls := [] }

/-- The map phase of the word-count scenario after `j` steps of the single worker. -/
def wc_phase (j : Nat) : MapPhase :=
  match map_steps wc_map (MR_DefaultHashPartition true) 1 wc_files wc_start
      (List.replicate j 0) with
  | .ok m => m
  | .error _ => wc_start

/-- What `MR_Run` does after the schedule of the map phase: join the map workers, then
run the reduce workers. -/
def wc_tail (charSigned : Bool) (cbFuel : Nat) (m1 : MapPhase) :
    Except Fault (List (Str × Nat) × MR × List (List Event)) := do
  let work := units_work wc_map (wc_argv.drop 1) +
    (m1.threads.map (thread_work wc_map)).sum + 1
  let m2 ← map_join wc_map (MR_DefaultHashPartition charSigned) 1 wc_files work m1
    (List.range 1)
  reduce_all wc_reduce cbFuel [] m2.mr (List.range 1)

/-! ## The logical picture of a partition tree

A `Shape` records which addresses form a tree and what each node holds; `Rep` states
that the heaps store exactly that tree, child links and parent back-links included. -/

/-- A tree of key nodes: the address of a node, its left subtree, its key, its value
cells (address and value, head first) and its right subtree. -/
inductive Shape where
  | nil : Shape
  | node (a : Nat) (l : Shape) (k : Str) (vs : List (Nat × Str)) (r : Shape) : Shape
  deriving DecidableEq

/-- The pointer to a value list: the address of its first cell. -/
def vhead (vs : List (Nat × Str)) : Option Nat := (vs.head?).map Prod.fst

namespace Shape

/-- The pointer to the tree: the address of its root node, NULL for the empty tree. -/
def root : Shape → Option Nat
  | nil => none
  | node a _ _ _ _ => some a

/-- The addresses of the key nodes, in order. -/
def addrs : Shape → List Nat
  | nil => []
  | node a l _ _ r => l.addrs ++ a :: r.addrs

/-- The addresses of the value cells of all nodes. -/
def cellAddrs : Shape → List Nat
  | nil => []
  | node _ l _ vs r => l.cellAddrs ++ (vs.map Prod.fst ++ r.cellAddrs)

/-- The keys in order (left subtree, node, right subtree). -/
def keys : Shape → List Str
  | nil => []
  | node _ l k _ r => l.keys ++ k :: r.keys

/-- The keys in order, each with its values from the head of its list. -/
def entries : Shape → List (Str × List Str)
  | nil => []
  | node _ l k vs r => l.entries ++ (k, vs.map Prod.snd) :: r.entries

/-- The key nodes in order: address, key, value cells. -/
def dump : Shape → List (Nat × Str × List (Nat × Str))
  | nil => []
  | node a l k vs r => l.dump ++ (a, k, vs) :: r.dump

/-- The number of key nodes. -/
def size : Shape → Nat
  | nil => 0
  | node _ l _ _ r => l.size + 1 + r.size

/-- Strict search-tree order: every key on the left compares below the key of the node
and every key on the right compares above it. -/
def Ordered : Shape → Prop
  | nil => True
  | node _ l k _ r =>
    (∀ x ∈ l.keys, strcmp x k < 0) ∧ (∀ x ∈ r.keys, 0 < strcmp x k) ∧ l.Ordered ∧ r.Ordered

/-- The tree after `add_to_tree` of the pair `(k, v)` where `a` is the next unused node
address and `c` the next unused cell address. -/
def insert (a c : Nat) (k v : Str) : Shape → Shape
  | nil => node a nil k [(c, v)] nil
  | node b l k' vs r =>
    if strcmp k k' = 0 then node b l k' ((c, v) :: vs) r
    else if strcmp k k' < 0 then node b (insert a c k v l) k' vs r
    else node b l k' vs (insert a c k v r)

/-- The address of the leftmost node. -/
def minAddr : Shape → Option Nat
  | nil => none
  | node a l _ _ _ =>
    match l with
    | nil => some a
    | node _ _ _ _ _ => l.minAddr

/-- The key of the leftmost node (the empty string for the empty tree). -/
def minKey : Shape → Str
  | nil => []
  | node _ l k _ _ =>
    match l with
    | nil => k
    | node _ _ _ _ _ => l.minKey

/-- The parent back-link of the leftmost node of a tree whose root has parent `par`. -/
def minParent (par : Option Nat) : Shape → Option Nat
  | nil => par
  | node a l _ _ _ =>
    match l with
    | nil => par
    | node _ _ _ _ _ => l.minParent (some a)

/-- The values stored under key `k`, from the head of the value list. -/
def vals (k : Str) : Shape → List Str
  | nil => []
  | node _ l k' vs r => l.vals k ++ ((if k' = k then vs.map Prod.snd else []) ++ r.vals k)

/-- The value cells of the leftmost node. -/
def minCells : Shape → List (Nat × Str)
  | nil => []
  | node _ l _ vs _ =>
    match l with
    | nil => vs
    | node _ _ _ _ _ => l.minCells

/-- The right subtree of the leftmost node. -/
def minRight : Shape → Shape
  | nil => nil
  | node _ l _ _ r =>
    match l with
    | nil => r
    | node _ _ _ _ _ => l.minRight

/-- The tree without its leftmost node: the right subtree of that node takes its
place. -/
def delMin : Shape → Shape
  | nil => nil
  | node a l k vs r =>
    match l with
    | nil => r
    | node _ _ _ _ _ => node a l.delMin k vs r

end Shape

/-- The cell heap stores the value list `vs`: each cell holds its value and points to
the next cell of the list. -/
def VList (cells : List (Option v_node)) : List (Nat × Str) → Prop
  | [] => True
  | (c, v) :: rest =>
    cells[c]? = some (some { value := v, next := vhead rest }) ∧ VList cells rest

/-- The heaps store the tree `t` below a node `par` (NULL for a root): every node holds
its key, the head of its value list, the pointers to both subtrees and the back-link to
its parent. -/
def Rep (nodes : List (Option bst_node)) (cells : List (Option v_node)) :
    Option Nat → Shape → Prop
  | _, .nil => True
  | par, .node a l k vs r =>
    nodes[a]? = some (some { key := k, v_head := vhead vs, left := l.root,
                             right := r.root, parent := par }) ∧
    VList cells vs ∧ Rep nodes cells (some a) l ∧ Rep nodes cells (some a) r

/-- Two address lists have no address in common. -/
def Apart (xs ys : List Nat) : Prop := ∀ a, a ∈ xs → a ∈ ys → False

/-- The build invariant of the engine with `N` partitions whose trees are `T 0`, ...,
`T (N-1)`: every partition head points to its tree, the heaps store the trees, every
tree is a strict search tree, no address is used twice within a tree, no two trees
share an address, and the drain state of every partition is still as `MR_Run` set it
up. -/
structure Inv (s : MR) (N : Nat) (T : Nat → Shape) : Prop where
  heads_len : s.bst_heads.length = N
  heads : ∀ i, i < N → s.bst_heads[i]? = some (T i).root
  rep : ∀ i, i < N → Rep s.nodes s.cells none (T i)
  ordered : ∀ i, i < N → (T i).Ordered
  nodup : ∀ i, i < N → (T i).addrs.Nodup
  cnodup : ∀ i, i < N → (T i).cellAddrs.Nodup
  apart : ∀ i j, i < N → j < N → i ≠ j → Apart (T i).addrs (T j).addrs
  capart : ∀ i j, i < N → j < N → i ≠ j → Apart (T i).cellAddrs (T j).cellAddrs
  low : s.low_key = List.replicate N none
  cur : s.cur_values = List.replicate N none
  flags : s.new_key = List.replicate N 1

/-- An execution that does not end in the call `exit(1)`. -/
def NoExit {α : Type} (x : Except Fault α) : Prop :=
  match x with
  | .error .exit1 => False
  | _ => True

/-- An emit that `MR_Emit` carries out: key and value are present and the partitioner
answers with a partition number in range. -/
def GoodEmit (parter : Partitioner) (N : Nat) (e : Option Str × Option Str) : Prop :=
  ∃ (k v : Str) (i : Nat), e = (some k, some v) ∧ parter k (N : Int) = .ok (i : Int) ∧ i < N

/-- The values stored under key `k` in partition `p`, from the head of the value list
of the key. -/
def store_values (s : MR) (p : Nat) (k : Str) : List Str :=
  (store s p).flatMap (fun e => if e.2.1 = k then e.2.2.map Prod.snd else [])

/-- Every emit a map worker still has to make passes a key and a value, and a unit it
has fetched is a unit of the list. -/
def Present (files : List (Option Str)) (m : MapPhase) : Prop :=
  ∀ t ∈ m.threads, (∀ e ∈ t.pending, ∃ (k v : Str), e = (some k, some v)) ∧
    ∀ f, t.file = some f → some f ∈ files

/-- A bound on the steps map worker `i` takes when it runs alone from the state `m`
until it returns. -/
def solo_work (mapper : Mapper) (units : List Str) (m : MapPhase) (i : Nat) : Nat :=
  match m.threads[i]? with
  | some t =>
    if t.finished then 0
    else thread_work mapper t + units_work mapper (units.drop m.current_file)
  | none => 0

/-- The invariant of the map phase over the units `units`: the engine state is a built
state; the units handed out so far (those before the cursor) are, each once, the units
the callback has been invoked on together with the units that workers have fetched and
not yet passed to the callback; every emit still to be made is one `MR_Emit` carries
out; and a worker that has returned holds nothing and saw the end of the unit list. -/
structure MapInv (mapper : Mapper) (parter : Partitioner) (N : Nat) (units : List Str)
    (m : MapPhase) : Prop where
  inv : ∃ T, Inv m.mr N T
  cursor : m.current_file ≤ units.length
  calls : (m.calls ++ m.threads.filterMap (fun t => t.file)).Perm
    (units.take m.current_file)
  good : ∀ t ∈ m.threads, ∀ e ∈ t.pending, GoodEmit parter N e
  held : ∀ t ∈ m.threads, ∀ f, t.file = some f → ∀ e ∈ mapper f, GoodEmit parter N e
  fin : ∀ t ∈ m.threads, t.finished = true →
    t.pending = [] ∧ t.file = none ∧ m.current_file = units.length

/-- Requests to the input dispatcher (the locked section of `map_thread`), one after
the other: what each request returns, and the cursor after the last one. -/
def requests (files : List (Option Str)) : Nat → Nat → Except Fault (List (Option Str) × Nat)
  | 0, current_file => .ok ([], current_file)
  | m + 1, current_file => do
    let (file, cf) ← next_file files current_file
    let (rest, cf2) ← requests files m cf
    pure (file :: rest, cf2)

/-- The state `s2` differs from `s` at most in the value cursor and the new-key flag of
partition `p`. -/
def IterFrame (s s2 : MR) (p : Nat) : Prop :=
  s2.nodes = s.nodes ∧ s2.cells = s.cells ∧ s2.bst_heads = s.bst_heads ∧
  s2.low_key = s.low_key ∧ s2.cur_values.length = s.cur_values.length ∧
  s2.new_key.length = s.new_key.length ∧
  ∀ q, q ≠ p → s2.cur_values[q]? = s.cur_values[q]? ∧ s2.new_key[q]? = s.new_key[q]?

/-- A call of the drain interface: `get_low_key` on a partition, or `get_next_value`
with a key on a partition. -/
inductive DrainOp where
  | low (partition_num : Nat)
  | next (key : Str) (partition_num : Nat)
  deriving DecidableEq

/-- The partition a call of the drain interface is made on. -/
def DrainOp.part : DrainOp → Nat
  | .low partition_num => partition_num
  | .next _ partition_num => partition_num

/-- The call a `DrainOp` names. -/
def drain_op (s : MR) : DrainOp → Except Fault (Option Str × MR)
  | .low partition_num => get_low_key s partition_num
  | .next key partition_num => get_next_value s key partition_num

/-- A sequence of calls of the drain interface; the state after the last one. -/
def drain_ops (s : MR) : List DrainOp → Except Fault MR
  | [] => .ok s
  | op :: ops => do
    let (_, s1) ← drain_op s op
    drain_ops s1 ops

/-- The drain invariant of the engine with `N` partitions, `T i` being what is left of
the tree of partition `i`: the heaps store the trees as in the build invariant, every
key node has a value, and the current-minimum reference of a partition is either still
NULL, or the leftmost node of a non-empty tree, or, once the tree is used up, the
released last node. -/
structure DrainInv (s : MR) (N : Nat) (T : Nat → Shape) : Prop where
  heads_len : s.bst_heads.length = N
  low_len : s.low_key.length = N
  cur_len : s.cur_values.length = N
  flags_len : s.new_key.length = N
  heads : ∀ i, i < N → s.bst_heads[i]? = some (T i).root
  rep : ∀ i, i < N → Rep s.nodes s.cells none (T i)
  ordered : ∀ i, i < N → (T i).Ordered
  nodup : ∀ i, i < N → (T i).addrs.Nodup
  cnodup : ∀ i, i < N → (T i).cellAddrs.Nodup
  apart : ∀ i j, i < N → j < N → i ≠ j → Apart (T i).addrs (T j).addrs
  capart : ∀ i j, i < N → j < N → i ≠ j → Apart (T i).cellAddrs (T j).cellAddrs
  valued : ∀ i, i < N → ∀ e ∈ (T i).dump, e.2.2 ≠ []
  low : ∀ i, i < N → s.low_key[i]? = some none ∨
    ((T i) ≠ .nil ∧ s.low_key[i]? = some (T i).minAddr) ∨
    ((T i) = .nil ∧ ∃ d, s.low_key[i]? = some (some d) ∧ s.nodes[d]? = some none)

/-! ## Order facts about `strcmp` -/

theorem strcmp_self (a : Str) : strcmp a a = 0 := by
  induction a with
  | nil => rfl
  | cons x xs ih => simp [strcmp, ih]

theorem strcmp_eq_zero : ∀ (a b : Str), strcmp a b = 0 → a = b
  | [], [], _ => rfl
  | [], _ :: _, h => by simp [strcmp] at h
  | _ :: _, [], h => by simp [strcmp] at h
  | x :: xs, y :: ys, h => by
    unfold strcmp at h
    split_ifs at h with h1 h2
    · omega
    · have hxy : x = y := by omega
      rw [hxy, strcmp_eq_zero xs ys h]

theorem strcmp_swap : ∀ (a b : Str), strcmp b a = - strcmp a b
  | [], [] => rfl
  | [], _ :: _ => rfl
  | _ :: _, [] => rfl
  | x :: xs, y :: ys => by
    unfold strcmp
    have ih := strcmp_swap xs ys
    split_ifs <;> omega

theorem strcmp_trans : ∀ (a b c : Str), strcmp a b < 0 → strcmp b c < 0 → strcmp a c < 0
  | [], [], _, h, _ => by simp [strcmp] at h
  | [], _ :: _, [], _, h => by simp [strcmp] at h
  | [], _ :: _, _ :: _, _, _ => by simp [strcmp]
  | _ :: _, [], _, h, _ => by simp [strcmp] at h
  | _ :: _, _ :: _, [], _, h => by simp [strcmp] at h
  | x :: xs, y :: ys, z :: zs, h1, h2 => by
    unfold strcmp at h1 h2 ⊢
    have ih := strcmp_trans xs ys zs
    split_ifs at h1 h2 ⊢ <;> omega

theorem strcmp_pos_iff (a b : Str) : 0 < strcmp a b ↔ strcmp b a < 0 := by
  rw [strcmp_swap a b]; omega

/-- On byte strings `strcmp` is negative exactly when the first string is below the
second in the lexicographic order of the byte values. -/
theorem strcmp_neg_iff_lex : ∀ (a b : Str), strcmp a b < 0 ↔ List.Lex (fun x y => x < y) a b
  | [], [] => by
    constructor
    · intro h; simp [strcmp] at h
    · intro h; cases h
  | [], y :: ys => by
    constructor
    · intro _; exact List.Lex.nil
    · intro _; simp [strcmp]
  | x :: xs, [] => by
    constructor
    · intro h; simp [strcmp] at h
    · intro h; cases h
  | x :: xs, y :: ys => by
    have ih := strcmp_neg_iff_lex xs ys
    unfold strcmp
    constructor
    · intro h
      split_ifs at h with h1 h2
      · exact List.Lex.rel h1
      · omega
      · have : x = y := by omega
        subst this
        exact List.Lex.cons (ih.1 h)
    · intro h
      cases h with
      | cons h3 => simp [ih.2 h3]
      | rel h1 => simp [h1]

/-! ## Framing: what a heap update leaves alone -/

theorem VList_frame {cells cells' : List (Option v_node)} :
    ∀ (vs : List (Nat × Str)), VList cells vs →
      (∀ c ∈ vs.map Prod.fst, cells'[c]? = cells[c]?) → VList cells' vs
  | [], _, _ => trivial
  | (c, v) :: rest, h, hf => by
    refine ⟨?_, VList_frame rest h.2 (fun c hc => hf c (by simp at hc ⊢; exact Or.inr hc))⟩
    rw [hf c (by simp)]; exact h.1

theorem VList_lt {cells : List (Option v_node)} :
    ∀ (vs : List (Nat × Str)), VList cells vs → ∀ c ∈ vs.map Prod.fst, c < cells.length
  | [], _, c, hc => by simp at hc
  | (c0, v) :: rest, h, c, hc => by
    simp only [List.map_cons, List.mem_cons] at hc
    rcases hc with rfl | hc
    · have h1 := h.1
      by_contra hlt
      rw [List.getElem?_eq_none (by omega)] at h1
      exact absurd h1 (by simp)
    · exact VList_lt rest h.2 c hc

theorem Rep_frame {nodes nodes' : List (Option bst_node)} {cells cells' : List (Option v_node)} :
    ∀ (t : Shape) (par : Option Nat), Rep nodes cells par t →
      (∀ a ∈ t.addrs, nodes'[a]? = nodes[a]?) →
      (∀ c ∈ t.cellAddrs, cells'[c]? = cells[c]?) → Rep nodes' cells' par t
  | .nil, _, _, _, _ => trivial
  | .node a l k vs r, par, h, hn, hc => by
    obtain ⟨h1, h2, h3, h4⟩ := h
    refine ⟨?_, ?_, ?_, ?_⟩
    · rw [hn a (by simp [Shape.addrs])]; exact h1
    · exact VList_frame vs h2 (fun c hcm => hc c (by simp [Shape.cellAddrs] at hcm ⊢; tauto))
    · exact Rep_frame l (some a) h3 (fun x hx => hn x (by simp [Shape.addrs]; tauto))
        (fun c hcm => hc c (by simp [Shape.cellAddrs]; tauto))
    · exact Rep_frame r (some a) h4 (fun x hx => hn x (by simp [Shape.addrs]; tauto))
        (fun c hcm => hc c (by simp [Shape.cellAddrs]; tauto))

theorem Rep_live {nodes : List (Option bst_node)} {cells : List (Option v_node)} :
    ∀ (t : Shape) (par : Option Nat), Rep nodes cells par t →
      ∀ a ∈ t.addrs, ∃ n, nodes[a]? = some (some n)
  | .nil, _, _, a, ha => by simp [Shape.addrs] at ha
  | .node b l k vs r, par, h, a, ha => by
    obtain ⟨h1, _, h3, h4⟩ := h
    simp only [Shape.addrs, List.mem_append, List.mem_cons] at ha
    rcases ha with ha | rfl | ha
    · exact Rep_live l _ h3 a ha
    · exact ⟨_, h1⟩
    · exact Rep_live r _ h4 a ha

theorem Rep_lt {nodes : List (Option bst_node)} {cells : List (Option v_node)}
    (t : Shape) (par : Option Nat) (h : Rep nodes cells par t) :
    ∀ a ∈ t.addrs, a < nodes.length := by
  intro a ha
  obtain ⟨n, hn⟩ := Rep_live t par h a ha
  by_contra hlt
  rw [List.getElem?_eq_none (by omega)] at hn
  exact absurd hn (by simp)

theorem Rep_cells_lt {nodes : List (Option bst_node)} {cells : List (Option v_node)} :
    ∀ (t : Shape) (par : Option Nat), Rep nodes cells par t →
      ∀ c ∈ t.cellAddrs, c < cells.length
  | .nil, _, _, c, hc => by simp [Shape.cellAddrs] at hc
  | .node b l k vs r, par, h, c, hc => by
    obtain ⟨_, h2, h3, h4⟩ := h
    simp only [Shape.cellAddrs, List.mem_append] at hc
    rcases hc with hc | hc | hc
    · exact Rep_cells_lt l _ h3 c hc
    · exact VList_lt vs h2 c hc
    · exact Rep_cells_lt r _ h4 c hc

/-- A duplicate-free list of addresses below `n` has at most `n` elements. -/
theorem length_le_of_nodup_lt {xs : List Nat} {n : Nat} (hnd : xs.Nodup)
    (hlt : ∀ a ∈ xs, a < n) : xs.length ≤ n := by
  have hsub : xs ⊆ List.range n := fun a ha => List.mem_range.2 (hlt a ha)
  have := (List.Nodup.subperm hnd hsub).length_le
  simpa using this

theorem Shape.length_addrs : ∀ (t : Shape), t.addrs.length = t.size
  | .nil => rfl
  | .node a l k vs r => by
    simp [Shape.addrs, Shape.size, Shape.length_addrs l, Shape.length_addrs r]; omega

theorem Rep_size_le {nodes : List (Option bst_node)} {cells : List (Option v_node)}
    (t : Shape) (par : Option Nat) (h : Rep nodes cells par t) (hnd : t.addrs.Nodup) :
    t.size ≤ nodes.length := by
  rw [← Shape.length_addrs]
  exact length_le_of_nodup_lt hnd (Rep_lt t par h)

/-! ## `value_push` and the search loop of `add_to_tree` -/

theorem readNode_ok {s : MR} {a : Nat} {n : bst_node} (h : s.nodes[a]? = some (some n)) :
    readNode s a = .ok n := by
  simp [readNode, h]

theorem value_push_ok (s : MR) (a : Nat) (v : Str) (n : bst_node)
    (h : s.nodes[a]? = some (some n)) :
    value_push s a v = .ok { s with
      cells := s.cells ++ [some { value := v, next := n.v_head }],
      nodes := s.nodes.set a (some { n with v_head := some s.cells.length }) } := by
  unfold value_push
  rw [readNode_ok h]
  obtain ⟨k, vh, l, r, p⟩ := n
  cases vh <;> simp [writeNode, bind, Except.bind, pure, Except.pure]

theorem lt_of_get {α : Type} {xs : List α} {i : Nat} {x : α} (h : xs[i]? = some x) :
    i < xs.length := by
  by_contra hlt
  rw [List.getElem?_eq_none (by omega)] at h
  exact absurd h (by simp)

theorem Shape.root_nil : Shape.nil.root = none := rfl

theorem Shape.root_node (a : Nat) (l : Shape) (k : Str) (vs : List (Nat × Str)) (r : Shape) :
    (Shape.node a l k vs r).root = some a := rfl

theorem Shape.insert_eq (a c : Nat) (key v : Str) (b : Nat) (l : Shape) (k : Str)
    (vs : List (Nat × Str)) (r : Shape) (h : strcmp key k = 0) :
    Shape.insert a c key v (.node b l k vs r) = .node b l k ((c, v) :: vs) r := by
  simp [Shape.insert, h]

theorem Shape.insert_lt (a c : Nat) (key v : Str) (b : Nat) (l : Shape) (k : Str)
    (vs : List (Nat × Str)) (r : Shape) (h0 : ¬ strcmp key k = 0) (h : strcmp key k < 0) :
    Shape.insert a c key v (.node b l k vs r) = .node b (Shape.insert a c key v l) k vs r := by
  rw [Shape.insert, if_neg h0, if_pos h]

theorem Shape.insert_gt (a c : Nat) (key v : Str) (b : Nat) (l : Shape) (k : Str)
    (vs : List (Nat × Str)) (r : Shape) (h0 : ¬ strcmp key k = 0) (h : ¬ strcmp key k < 0) :
    Shape.insert a c key v (.node b l k vs r) = .node b l k vs (Shape.insert a c key v r) := by
  rw [Shape.insert, if_neg h0, if_neg h]

theorem Shape.insert_nil (a c : Nat) (key v : Str) :
    Shape.insert a c key v .nil = .node a .nil key [(c, v)] .nil := rfl

theorem Shape.insert_root (a c : Nat) (key v : Str) (b : Nat) (l : Shape) (k : Str)
    (vs : List (Nat × Str)) (r : Shape) :
    (Shape.insert a c key v (.node b l k vs r)).root = some b := by
  rw [Shape.insert]; split_ifs <;> rfl

theorem add_loop_spec (key value : Str) :
    ∀ (t : Shape) (fuel : Nat) (s : MR) (par : Option Nat) (b : Nat),
      t.root = some b → Rep s.nodes s.cells par t → t.addrs.Nodup → t.size ≤ fuel →
      ∃ s', add_loop key value fuel s b = .ok s' ∧
        Rep s'.nodes s'.cells par (t.insert s.nodes.length s.cells.length key value) ∧
        (∀ x, x ∉ t.addrs → x < s.nodes.length → s'.nodes[x]? = s.nodes[x]?) ∧
        (∀ c, c < s.cells.length → s'.cells[c]? = s.cells[c]?) ∧
        s'.cells.length = s.cells.length + 1 ∧
        s'.nodes.length + t.size =
          s.nodes.length + (t.insert s.nodes.length s.cells.length key value).size ∧
        s'.bst_heads = s.bst_heads ∧ s'.low_key = s.low_key ∧
        s'.cur_values = s.cur_values ∧ s'.new_key = s.new_key
  | .nil, _, _, _, _, hr, _, _, _ => by simp [Shape.root] at hr
  | .node b0 l k vs r, 0, _, _, _, _, _, _, hf => by simp [Shape.size] at hf
  | .node b0 l k vs r, fuel + 1, s, par, b, hr, hrep, hnd, hf => by
    simp only [Shape.root, Option.some.injEq] at hr
    subst hr
    obtain ⟨h1, h2, h3, h4⟩ := hrep
    have hb : b0 < s.nodes.length := lt_of_get h1
    simp only [Shape.addrs] at hnd
    have hndl : l.addrs.Nodup := (List.nodup_append.1 hnd).1
    have hndr : r.addrs.Nodup := ((List.nodup_cons.1 (List.nodup_append.1 hnd).2.1)).2
    have hbl : b0 ∉ l.addrs := fun hm =>
      (List.nodup_append.1 hnd).2.2 hm (List.mem_cons_self _ _)
    have hbr : b0 ∉ r.addrs := (List.nodup_cons.1 (List.nodup_append.1 hnd).2.1).1
    have hlr : ∀ x, x ∈ l.addrs → x ∈ r.addrs → False := fun x hx hy =>
      (List.nodup_append.1 hnd).2.2 hx (List.mem_cons_of_mem _ hy)
    simp only [Shape.size] at hf
    unfold add_loop
    rw [readNode_ok h1]
    simp only [bind, Except.bind]
    by_cases hc0 : strcmp key k = 0
    · -- the key is at this node: push the value
      simp only [hc0, if_true]
      rw [value_push_ok s b0 value _ h1]
      refine ⟨_, rfl, ?_, ?_, ?_, ?_, ?_, rfl, rfl, rfl, rfl⟩
      · simp only [Shape.insert, hc0, if_true]
        refine ⟨?_, ⟨?_, ?_⟩, ?_, ?_⟩
        · simp [List.getElem?_set_self hb, vhead]
        · simp [List.getElem?_concat_length]
        · exact VList_frame vs h2 (fun c hc => by
            simp [List.getElem?_append_left (VList_lt vs h2 c hc)])
        · exact Rep_frame l _ h3 (fun x hx => by
              simp [List.getElem?_set_ne (show b0 ≠ x from fun e => hbl (e ▸ hx))])
            (fun c hc => by simp [List.getElem?_append_left (Rep_cells_lt l _ h3 c hc)])
        · exact Rep_frame r _ h4 (fun x hx => by
              simp [List.getElem?_set_ne (show b0 ≠ x from fun e => hbr (e ▸ hx))])
            (fun c hc => by simp [List.getElem?_append_left (Rep_cells_lt r _ h4 c hc)])
      · intro x hx _
        have : b0 ≠ x := fun e => hx (by simp [Shape.addrs, e])
        simp [List.getElem?_set_ne this]
      · intro c hc
        simp [List.getElem?_append_left hc]
      · simp
      · simp [Shape.insert, hc0, Shape.size]
    · simp only [hc0, if_false]
      by_cases hlt : strcmp key k < 0
      · simp only [hlt, if_true]
        cases l with
        | nil =>
          simp only [Shape.root_nil]
          have hnew : (writeNode { s with nodes := s.nodes ++
              [some (⟨key, none, none, none, some b0⟩ : bst_node)] } b0
              (⟨k, vhead vs, some s.nodes.length, r.root, par⟩ : bst_node)).nodes[s.nodes.length]? =
              some (some (⟨key, none, none, none, some b0⟩ : bst_node)) := by
            simp [writeNode, List.getElem?_set_ne (Nat.ne_of_lt hb)]
          rw [value_push_ok _ _ value _ hnew]
          refine ⟨_, rfl, ?_, ?_, ?_, ?_, ?_, rfl, rfl, rfl, rfl⟩
          · rw [Shape.insert_lt _ _ _ _ _ _ _ _ _ hc0 hlt, Shape.insert_nil]
            refine ⟨?_, ?_, ⟨?_, ⟨?_, trivial⟩, trivial, trivial⟩, ?_⟩
            · dsimp only [writeNode]
              rw [List.getElem?_set_ne (Nat.ne_of_gt hb),
                List.getElem?_set_self (by simp; omega)]
              rfl
            · exact VList_frame vs h2 (fun c hc => by
                simp [writeNode, List.getElem?_append_left (VList_lt vs h2 c hc)])
            · dsimp only [writeNode]
              rw [List.getElem?_set_self (by simp)]
              rfl
            · dsimp only [writeNode]
              rw [List.getElem?_concat_length]
              rfl
            · exact Rep_frame r _ h4 (fun x hx => by
                  have hxl := Rep_lt r _ h4 x hx
                  dsimp only [writeNode]
                  rw [List.getElem?_set_ne (Nat.ne_of_gt hxl),
                    List.getElem?_set_ne (show b0 ≠ x from fun e => hbr (e ▸ hx)),
                    List.getElem?_append_left hxl])
                (fun c hc => by
                  simp [writeNode, List.getElem?_append_left (Rep_cells_lt r _ h4 c hc)])
          · intro x hx hxl
            have : b0 ≠ x := fun e => hx (by simp [Shape.addrs, e])
            dsimp only [writeNode]
            rw [List.getElem?_set_ne (Nat.ne_of_gt hxl), List.getElem?_set_ne this,
              List.getElem?_append_left hxl]
          · intro c hc
            simp [writeNode, List.getElem?_append_left hc]
          · simp [writeNode]
          · rw [Shape.insert_lt _ _ _ _ _ _ _ _ _ hc0 hlt, Shape.insert_nil]
            simp [writeNode, Shape.size]; omega
        | node b1 l1 k1 vs1 r1 =>
          simp only [Shape.root_node]
          obtain ⟨s', he, hR, hfr, hfc, hcl, hnl, e1, e2, e3, e4⟩ :=
            add_loop_spec key value (.node b1 l1 k1 vs1 r1) fuel s (some b0) b1 rfl h3 hndl
              (by simp only [Shape.size] at hf ⊢; omega)
          refine ⟨s', he, ?_, ?_, hfc, hcl, ?_, e1, e2, e3, e4⟩
          · rw [Shape.insert_lt _ _ _ _ _ _ _ _ _ hc0 hlt]
            refine ⟨?_, ?_, hR, ?_⟩
            · rw [hfr b0 hbl hb, h1, Shape.insert_root]; rfl
            · exact VList_frame vs h2 (fun c hc => hfc c (VList_lt vs h2 c hc))
            · exact Rep_frame r _ h4
                (fun x hx => hfr x (fun hxl => hlr x hxl hx) (Rep_lt r _ h4 x hx))
                (fun c hc => hfc c (Rep_cells_lt r _ h4 c hc))
          · intro x hx hxl
            exact hfr x (fun hm => hx (List.mem_append_left _ hm)) hxl
          · rw [Shape.insert_lt _ _ _ _ _ _ _ _ _ hc0 hlt]
            simp only [Shape.size] at hnl ⊢
            omega
      · simp only [hlt, if_false]
        cases r with
        | nil =>
          simp only [Shape.root_nil]
          have hnew : (writeNode { s with nodes := s.nodes ++
              [some (⟨key, none, none, none, some b0⟩ : bst_node)] } b0
              (⟨k, vhead vs, l.root, some s.nodes.length, par⟩ : bst_node)).nodes[s.nodes.length]? =
              some (some (⟨key, none, none, none, some b0⟩ : bst_node)) := by
            simp [writeNode, List.getElem?_set_ne (Nat.ne_of_lt hb)]
          rw [value_push_ok _ _ value _ hnew]
          refine ⟨_, rfl, ?_, ?_, ?_, ?_, ?_, rfl, rfl, rfl, rfl⟩
          · rw [Shape.insert_gt _ _ _ _ _ _ _ _ _ hc0 hlt, Shape.insert_nil]
            refine ⟨?_, ?_, ?_, ⟨?_, ⟨?_, trivial⟩, trivial, trivial⟩⟩
            · dsimp only [writeNode]
              rw [List.getElem?_set_ne (Nat.ne_of_gt hb),
                List.getElem?_set_self (by simp; omega)]
              rfl
            · exact VList_frame vs h2 (fun c hc => by
                simp [writeNode, List.getElem?_append_left (VList_lt vs h2 c hc)])
            · exact Rep_frame l _ h3 (fun x hx => by
                  have hxl := Rep_lt l _ h3 x hx
                  dsimp only [writeNode]
                  rw [List.getElem?_set_ne (Nat.ne_of_gt hxl),
                    List.getElem?_set_ne (show b0 ≠ x from fun e => hbl (e ▸ hx)),
                    List.getElem?_append_left hxl])
                (fun c hc => by
                  simp [writeNode, List.getElem?_append_left (Rep_cells_lt l _ h3 c hc)])
            · dsimp only [writeNode]
              rw [List.getElem?_set_self (by simp)]
              rfl
            · dsimp only [writeNode]
              rw [List.getElem?_concat_length]
              rfl
          · intro x hx hxl
            have : b0 ≠ x := fun e => hx (by simp [Shape.addrs, e])
            dsimp only [writeNode]
            rw [List.getElem?_set_ne (Nat.ne_of_gt hxl), List.getElem?_set_ne this,
              List.getElem?_append_left hxl]
          · intro c hc
            simp [writeNode, List.getElem?_append_left hc]
          · simp [writeNode]
          · rw [Shape.insert_gt _ _ _ _ _ _ _ _ _ hc0 hlt, Shape.insert_nil]
            simp [writeNode, Shape.size]; omega
        | node b1 l1 k1 vs1 r1 =>
          simp only [Shape.root_node]
          obtain ⟨s', he, hR, hfr, hfc, hcl, hnl, e1, e2, e3, e4⟩ :=
            add_loop_spec key value (.node b1 l1 k1 vs1 r1) fuel s (some b0) b1 rfl h4 hndr
              (by simp only [Shape.size] at hf ⊢; omega)
          refine ⟨s', he, ?_, ?_, hfc, hcl, ?_, e1, e2, e3, e4⟩
          · rw [Shape.insert_gt _ _ _ _ _ _ _ _ _ hc0 hlt]
            refine ⟨?_, ?_, ?_, hR⟩
            · rw [hfr b0 hbr hb, h1, Shape.insert_root]; rfl
            · exact VList_frame vs h2 (fun c hc => hfc c (VList_lt vs h2 c hc))
            · exact Rep_frame l _ h3
                (fun x hx => hfr x (fun hxr => hlr x hx hxr) (Rep_lt l _ h3 x hx))
                (fun c hc => hfc c (Rep_cells_lt l _ h3 c hc))
          · intro x hx hxl
            exact hfr x (fun hm => hx (List.mem_append_right _ (List.mem_cons_of_mem _ hm))) hxl
          · rw [Shape.insert_gt _ _ _ _ _ _ _ _ _ hc0 hlt]
            simp only [Shape.size] at hnl ⊢
            omega

/-! ## Facts about the logical tree: insertion -/

theorem Shape.mem_keys_insert (a c : Nat) (key v : Str) :
    ∀ (t : Shape) (x : Str), x ∈ (t.insert a c key v).keys ↔ x = key ∨ x ∈ t.keys
  | .nil, x => by simp [Shape.insert, Shape.keys]
  | .node b l k vs r, x => by
    by_cases h0 : strcmp key k = 0
    · rw [Shape.insert_eq _ _ _ _ _ _ _ _ _ h0]
      have := strcmp_eq_zero _ _ h0
      simp only [Shape.keys, List.mem_append, List.mem_cons]
      subst this; tauto
    · by_cases hlt : strcmp key k < 0
      · rw [Shape.insert_lt _ _ _ _ _ _ _ _ _ h0 hlt]
        simp only [Shape.keys, List.mem_append, List.mem_cons, Shape.mem_keys_insert a c key v l]
        tauto
      · rw [Shape.insert_gt _ _ _ _ _ _ _ _ _ h0 hlt]
        simp only [Shape.keys, List.mem_append, List.mem_cons, Shape.mem_keys_insert a c key v r]
        tauto

theorem Shape.ordered_insert (a c : Nat) (key v : Str) :
    ∀ (t : Shape), t.Ordered → (t.insert a c key v).Ordered
  | .nil, _ => by simp [Shape.insert, Shape.Ordered, Shape.keys]
  | .node b l k vs r, h => by
    obtain ⟨hl, hr, ol, or⟩ := h
    by_cases h0 : strcmp key k = 0
    · rw [Shape.insert_eq _ _ _ _ _ _ _ _ _ h0]
      exact ⟨hl, hr, ol, or⟩
    · by_cases hlt : strcmp key k < 0
      · rw [Shape.insert_lt _ _ _ _ _ _ _ _ _ h0 hlt]
        refine ⟨?_, hr, Shape.ordered_insert a c key v l ol, or⟩
        intro x hx
        rcases (Shape.mem_keys_insert a c key v l x).1 hx with rfl | hx
        · exact hlt
        · exact hl x hx
      · rw [Shape.insert_gt _ _ _ _ _ _ _ _ _ h0 hlt]
        refine ⟨hl, ?_, ol, Shape.ordered_insert a c key v r or⟩
        intro x hx
        rcases (Shape.mem_keys_insert a c key v r x).1 hx with rfl | hx
        · omega
        · exact hr x hx

theorem Shape.mem_addrs_insert (a c : Nat) (key v : Str) :
    ∀ (t : Shape) (x : Nat), x ∈ (t.insert a c key v).addrs → x = a ∨ x ∈ t.addrs
  | .nil, x => by simp [Shape.insert, Shape.addrs]
  | .node b l k vs r, x => by
    by_cases h0 : strcmp key k = 0
    · rw [Shape.insert_eq _ _ _ _ _ _ _ _ _ h0]
      simp only [Shape.addrs]; tauto
    · by_cases hlt : strcmp key k < 0
      · rw [Shape.insert_lt _ _ _ _ _ _ _ _ _ h0 hlt]
        simp only [Shape.addrs, List.mem_append, List.mem_cons]
        have := Shape.mem_addrs_insert a c key v l x
        tauto
      · rw [Shape.insert_gt _ _ _ _ _ _ _ _ _ h0 hlt]
        simp only [Shape.addrs, List.mem_append, List.mem_cons]
        have := Shape.mem_addrs_insert a c key v r x
        tauto

theorem Shape.nodup_addrs_insert (a c : Nat) (key v : Str) :
    ∀ (t : Shape), t.addrs.Nodup → a ∉ t.addrs → (t.insert a c key v).addrs.Nodup
  | .nil, _, _ => by simp [Shape.insert, Shape.addrs]
  | .node b l k vs r, hnd, ha => by
    simp only [Shape.addrs, List.mem_append, List.mem_cons, not_or] at ha
    simp only [Shape.addrs, List.nodup_append, List.nodup_cons, List.Disjoint, List.mem_cons]
      at hnd
    obtain ⟨hl, ⟨hbr, hr⟩, hd⟩ := hnd
    by_cases h0 : strcmp key k = 0
    · rw [Shape.insert_eq _ _ _ _ _ _ _ _ _ h0]
      simp only [Shape.addrs, List.nodup_append, List.nodup_cons, List.Disjoint, List.mem_cons]
      exact ⟨hl, ⟨hbr, hr⟩, hd⟩
    · by_cases hlt : strcmp key k < 0
      · rw [Shape.insert_lt _ _ _ _ _ _ _ _ _ h0 hlt]
        simp only [Shape.addrs, List.nodup_append, List.nodup_cons, List.Disjoint,
          List.mem_cons]
        refine ⟨Shape.nodup_addrs_insert a c key v l hl ha.1, ⟨hbr, hr⟩, ?_⟩
        intro x hx hx2
        rcases Shape.mem_addrs_insert a c key v l x hx with rfl | hx
        · tauto
        · exact hd hx hx2
      · rw [Shape.insert_gt _ _ _ _ _ _ _ _ _ h0 hlt]
        simp only [Shape.addrs, List.nodup_append, List.nodup_cons, List.Disjoint,
          List.mem_cons]
        refine ⟨hl, ⟨?_, Shape.nodup_addrs_insert a c key v r hr ha.2.2⟩, ?_⟩
        · intro hb
          rcases Shape.mem_addrs_insert a c key v r b hb with rfl | hb
          · tauto
          · exact hbr hb
        · intro x hx hx2
          rcases hx2 with rfl | hx2
          · exact hd hx (Or.inl rfl)
          · rcases Shape.mem_addrs_insert a c key v r x hx2 with rfl | hx2
            · tauto
            · exact hd hx (Or.inr hx2)

theorem Shape.mem_cellAddrs_insert (a c : Nat) (key v : Str) :
    ∀ (t : Shape) (x : Nat), x ∈ (t.insert a c key v).cellAddrs → x = c ∨ x ∈ t.cellAddrs
  | .nil, x => by simp [Shape.insert, Shape.cellAddrs]
  | .node b l k vs r, x => by
    by_cases h0 : strcmp key k = 0
    · rw [Shape.insert_eq _ _ _ _ _ _ _ _ _ h0]
      simp only [Shape.cellAddrs, List.mem_append, List.map_cons, List.mem_cons]; tauto
    · by_cases hlt : strcmp key k < 0
      · rw [Shape.insert_lt _ _ _ _ _ _ _ _ _ h0 hlt]
        simp only [Shape.cellAddrs, List.mem_append]
        have := Shape.mem_cellAddrs_insert a c key v l x
        tauto
      · rw [Shape.insert_gt _ _ _ _ _ _ _ _ _ h0 hlt]
        simp only [Shape.cellAddrs, List.mem_append]
        have := Shape.mem_cellAddrs_insert a c key v r x
        tauto

theorem Shape.nodup_cellAddrs_insert (a c : Nat) (key v : Str) :
    ∀ (t : Shape), t.cellAddrs.Nodup → c ∉ t.cellAddrs → (t.insert a c key v).cellAddrs.Nodup
  | .nil, _, _ => by simp [Shape.insert, Shape.cellAddrs]
  | .node b l k vs r, hnd, hc => by
    simp only [Shape.cellAddrs, List.mem_append, not_or] at hc
    simp only [Shape.cellAddrs, List.nodup_append, List.Disjoint, List.mem_append] at hnd
    obtain ⟨hl, ⟨hvs, hr, hvr⟩, hd⟩ := hnd
    by_cases h0 : strcmp key k = 0
    · rw [Shape.insert_eq _ _ _ _ _ _ _ _ _ h0]
      simp only [Shape.cellAddrs, List.nodup_append, List.Disjoint, List.mem_append,
        List.map_cons, List.nodup_cons, List.mem_cons]
      refine ⟨hl, ⟨⟨hc.2.1, hvs⟩, hr, ?_⟩, ?_⟩
      · intro x hx hx2
        rcases hx with rfl | hx
        · exact hc.2.2 hx2
        · exact hvr hx hx2
      · intro x hx hx2
        rcases hx2 with (rfl | hx2) | hx2
        · exact hc.1 hx
        · exact hd hx (Or.inl hx2)
        · exact hd hx (Or.inr hx2)
    · by_cases hlt : strcmp key k < 0
      · rw [Shape.insert_lt _ _ _ _ _ _ _ _ _ h0 hlt]
        simp only [Shape.cellAddrs, List.nodup_append, List.Disjoint, List.mem_append]
        refine ⟨Shape.nodup_cellAddrs_insert a c key v l hl hc.1, ⟨hvs, hr, hvr⟩, ?_⟩
        intro x hx hx2
        rcases Shape.mem_cellAddrs_insert a c key v l x hx with rfl | hx
        · tauto
        · exact hd hx hx2
      · rw [Shape.insert_gt _ _ _ _ _ _ _ _ _ h0 hlt]
        simp only [Shape.cellAddrs, List.nodup_append, List.Disjoint, List.mem_append]
        refine ⟨hl, ⟨hvs, Shape.nodup_cellAddrs_insert a c key v r hr hc.2.2, ?_⟩, ?_⟩
        · intro x hx hx2
          rcases Shape.mem_cellAddrs_insert a c key v r x hx2 with rfl | hx2
          · tauto
          · exact hvr hx hx2
        · intro x hx hx2
          rcases hx2 with hx2 | hx2
          · exact hd hx (Or.inl hx2)
          · rcases Shape.mem_cellAddrs_insert a c key v r x hx2 with rfl | hx2
            · tauto
            · exact hd hx (Or.inr hx2)

theorem Shape.addrs_subset_insert (a c : Nat) (key v : Str) :
    ∀ (t : Shape) (x : Nat), x ∈ t.addrs → x ∈ (t.insert a c key v).addrs
  | .nil, x => by simp [Shape.addrs]
  | .node b l k vs r, x => by
    by_cases h0 : strcmp key k = 0
    · rw [Shape.insert_eq _ _ _ _ _ _ _ _ _ h0]
      simp only [Shape.addrs]; tauto
    · by_cases hlt : strcmp key k < 0
      · rw [Shape.insert_lt _ _ _ _ _ _ _ _ _ h0 hlt]
        simp only [Shape.addrs, List.mem_append, List.mem_cons]
        have := Shape.addrs_subset_insert a c key v l x
        tauto
      · rw [Shape.insert_gt _ _ _ _ _ _ _ _ _ h0 hlt]
        simp only [Shape.addrs, List.mem_append, List.mem_cons]
        have := Shape.addrs_subset_insert a c key v r x
        tauto

theorem Shape.vals_eq_nil (k : Str) :
    ∀ (t : Shape), k ∉ t.keys → t.vals k = []
  | .nil, _ => rfl
  | .node b l k' vs r, h => by
    simp only [Shape.keys, List.mem_append, List.mem_cons, not_or] at h
    simp only [Shape.vals, Shape.vals_eq_nil k l h.1, Shape.vals_eq_nil k r h.2.2]
    have : ¬ k' = k := fun e => h.2.1 e.symm
    simp [this]

theorem Shape.vals_insert (a c : Nat) (key v : Str) (k : Str) :
    ∀ (t : Shape), t.Ordered →
      (t.insert a c key v).vals k = if k = key then v :: t.vals key else t.vals k
  | .nil, _ => by
    simp only [Shape.insert, Shape.vals]
    by_cases h : k = key
    · subst h; simp
    · have : ¬ key = k := fun e => h e.symm
      simp [h, this]
  | .node b l k' vs r, h => by
    obtain ⟨hl, hr, ol, or⟩ := h
    by_cases h0 : strcmp key k' = 0
    · rw [Shape.insert_eq _ _ _ _ _ _ _ _ _ h0]
      have hk := strcmp_eq_zero _ _ h0
      subst hk
      have hnl : key ∉ l.keys := fun hm => by
        have := hl key hm; rw [strcmp_self] at this; omega
      by_cases h : k = key
      · subst h
        simp [Shape.vals, Shape.vals_eq_nil k l hnl]
      · have : ¬ key = k := fun e => h e.symm
        simp [Shape.vals, h, this]
    · by_cases hlt : strcmp key k' < 0
      · rw [Shape.insert_lt _ _ _ _ _ _ _ _ _ h0 hlt]
        have hne : ¬ k' = key := fun e => h0 (by rw [e, strcmp_self])
        have hnr : key ∉ r.keys := fun hm => by
          have := hr key hm; omega
        simp only [Shape.vals, Shape.vals_insert a c key v k l ol]
        by_cases h : k = key
        · subst h
          simp [hne, Shape.vals_eq_nil k r hnr]
        · simp [h]
      · rw [Shape.insert_gt _ _ _ _ _ _ _ _ _ h0 hlt]
        have hne : ¬ k' = key := fun e => h0 (by rw [e, strcmp_self])
        have hnl : key ∉ l.keys := fun hm => by
          have := hl key hm; omega
        simp only [Shape.vals, Shape.vals_insert a c key v k r or]
        by_cases h : k = key
        · subst h
          simp [hne, Shape.vals_eq_nil k l hnl]
        · simp [h]

theorem Shape.size_insert (a c : Nat) (key v : Str) :
    ∀ (t : Shape), t.Ordered →
      (t.insert a c key v).size = t.size + (if key ∈ t.keys then 0 else 1)
  | .nil, _ => by simp [Shape.insert, Shape.size, Shape.keys]
  | .node b l k' vs r, h => by
    obtain ⟨hl, hr, ol, or⟩ := h
    by_cases h0 : strcmp key k' = 0
    · rw [Shape.insert_eq _ _ _ _ _ _ _ _ _ h0]
      have hk := strcmp_eq_zero _ _ h0
      subst hk
      simp [Shape.size, Shape.keys]
    · have hne : ¬ key = k' := fun e => h0 (by rw [e, strcmp_self])
      by_cases hlt : strcmp key k' < 0
      · rw [Shape.insert_lt _ _ _ _ _ _ _ _ _ h0 hlt]
        have hnr : key ∉ r.keys := fun hm => by
          have := hr key hm; omega
        simp only [Shape.size, Shape.size_insert a c key v l ol, Shape.keys, List.mem_append,
          List.mem_cons, hne, hnr, or_false, false_or]
        split_ifs <;> omega
      · rw [Shape.insert_gt _ _ _ _ _ _ _ _ _ h0 hlt]
        have hnl : key ∉ l.keys := fun hm => by
          have := hl key hm; omega
        simp only [Shape.size, Shape.size_insert a c key v r or, Shape.keys, List.mem_append,
          List.mem_cons, hne, hnl, or_false, false_or]
        split_ifs <;> omega

theorem Shape.keys_sorted :
    ∀ (t : Shape), t.Ordered → t.keys.Pairwise (fun x y => strcmp x y < 0)
  | .nil, _ => by simp [Shape.keys]
  | .node b l k vs r, h => by
    obtain ⟨hl, hr, ol, or⟩ := h
    simp only [Shape.keys]
    rw [List.pairwise_append]
    refine ⟨Shape.keys_sorted l ol, ?_, ?_⟩
    · rw [List.pairwise_cons]
      exact ⟨fun y hy => (strcmp_pos_iff y k).1 (hr y hy), Shape.keys_sorted r or⟩
    · intro x hx y hy
      rcases List.mem_cons.1 hy with rfl | hy
      · exact hl x hx
      · exact strcmp_trans x k y (hl x hx) ((strcmp_pos_iff y k).1 (hr y hy))

theorem Shape.entries_keys : ∀ (t : Shape), t.entries.map Prod.fst = t.keys
  | .nil => rfl
  | .node b l k vs r => by
    simp [Shape.entries, Shape.keys, Shape.entries_keys l, Shape.entries_keys r]

theorem Shape.vals_of_mem_entries (k : Str) (ws : List Str) :
    ∀ (t : Shape), t.Ordered → (k, ws) ∈ t.entries → t.vals k = ws
  | .nil, _, h => by simp [Shape.entries] at h
  | .node b l k' vs r, ho, h => by
    obtain ⟨hl, hr, ol, or⟩ := ho
    simp only [Shape.entries, List.mem_append, List.mem_cons, Prod.mk.injEq] at h
    have hkl : ∀ ws, (k, ws) ∈ l.entries → k ∈ l.keys := fun ws hm => by
      rw [← Shape.entries_keys]; exact List.mem_map.2 ⟨_, hm, rfl⟩
    have hkr : ∀ ws, (k, ws) ∈ r.entries → k ∈ r.keys := fun ws hm => by
      rw [← Shape.entries_keys]; exact List.mem_map.2 ⟨_, hm, rfl⟩
    rcases h with h | ⟨rfl, rfl⟩ | h
    · have hk := hkl _ h
      have h1 := hl k hk
      have hne : ¬ k' = k := fun e => by rw [e, strcmp_self] at h1; omega
      have hnr : k ∉ r.keys := fun hm => by
        have := hr k hm; omega
      simp [Shape.vals, Shape.vals_of_mem_entries k ws l ol h, hne, Shape.vals_eq_nil k r hnr]
    · have hnl : k ∉ l.keys := fun hm => by
        have := hl k hm; rw [strcmp_self] at this; omega
      have hnr : k ∉ r.keys := fun hm => by
        have := hr k hm; rw [strcmp_self] at this; omega
      simp [Shape.vals, Shape.vals_eq_nil k l hnl, Shape.vals_eq_nil k r hnr]
    · have hk := hkr _ h
      have h1 := hr k hk
      have hne : ¬ k' = k := fun e => by rw [e, strcmp_self] at h1; omega
      have hnl : k ∉ l.keys := fun hm => by
        have := hl k hm; omega
      simp [Shape.vals, Shape.vals_of_mem_entries k ws r or h, hne, Shape.vals_eq_nil k l hnl]

/-! ## Facts about the logical tree: removing the leftmost node -/

theorem Shape.delMin_node_nil (a : Nat) (k : Str) (vs : List (Nat × Str)) (r : Shape) :
    (Shape.node a .nil k vs r).delMin = r := rfl

theorem Shape.delMin_node_node (a b : Nat) (l1 : Shape) (k1 : Str) (vs1 : List (Nat × Str))
    (r1 : Shape) (k : Str) (vs : List (Nat × Str)) (r : Shape) :
    (Shape.node a (.node b l1 k1 vs1 r1) k vs r).delMin =
      .node a (Shape.node b l1 k1 vs1 r1).delMin k vs r := rfl

theorem Shape.minAddr_node_node (a b : Nat) (l1 : Shape) (k1 : Str) (vs1 : List (Nat × Str))
    (r1 : Shape) (k : Str) (vs : List (Nat × Str)) (r : Shape) :
    (Shape.node a (.node b l1 k1 vs1 r1) k vs r).minAddr =
      (Shape.node b l1 k1 vs1 r1).minAddr := rfl

theorem Shape.minKey_node_node (a b : Nat) (l1 : Shape) (k1 : Str) (vs1 : List (Nat × Str))
    (r1 : Shape) (k : Str) (vs : List (Nat × Str)) (r : Shape) :
    (Shape.node a (.node b l1 k1 vs1 r1) k vs r).minKey =
      (Shape.node b l1 k1 vs1 r1).minKey := rfl

theorem Shape.minCells_node_node (a b : Nat) (l1 : Shape) (k1 : Str) (vs1 : List (Nat × Str))
    (r1 : Shape) (k : Str) (vs : List (Nat × Str)) (r : Shape) :
    (Shape.node a (.node b l1 k1 vs1 r1) k vs r).minCells =
      (Shape.node b l1 k1 vs1 r1).minCells := rfl

theorem Shape.minRight_node_node (a b : Nat) (l1 : Shape) (k1 : Str) (vs1 : List (Nat × Str))
    (r1 : Shape) (k : Str) (vs : List (Nat × Str)) (r : Shape) :
    (Shape.node a (.node b l1 k1 vs1 r1) k vs r).minRight =
      (Shape.node b l1 k1 vs1 r1).minRight := rfl

theorem Shape.minParent_node_node (par : Option Nat) (a b : Nat) (l1 : Shape) (k1 : Str)
    (vs1 : List (Nat × Str)) (r1 : Shape) (k : Str) (vs : List (Nat × Str)) (r : Shape) :
    (Shape.node a (.node b l1 k1 vs1 r1) k vs r).minParent par =
      (Shape.node b l1 k1 vs1 r1).minParent (some a) := rfl

theorem Shape.keys_delMin :
    ∀ (t : Shape), t ≠ .nil → t.keys = t.minKey :: t.delMin.keys
  | .nil, h => absurd rfl h
  | .node a .nil k vs r, _ => by simp [Shape.keys, Shape.minKey, Shape.delMin]
  | .node a (.node b l1 k1 vs1 r1) k vs r, _ => by
    have ih := Shape.keys_delMin (.node b l1 k1 vs1 r1) (by simp)
    simp only [Shape.minKey, Shape.delMin]
    rw [Shape.keys, ih, Shape.keys]
    rfl

theorem Shape.entries_delMin :
    ∀ (t : Shape), t ≠ .nil →
      t.entries = (t.minKey, t.minCells.map Prod.snd) :: t.delMin.entries
  | .nil, h => absurd rfl h
  | .node a .nil k vs r, _ => by simp [Shape.entries, Shape.minKey, Shape.delMin, Shape.minCells]
  | .node a (.node b l1 k1 vs1 r1) k vs r, _ => by
    have ih := Shape.entries_delMin (.node b l1 k1 vs1 r1) (by simp)
    simp only [Shape.minKey, Shape.delMin, Shape.minCells]
    rw [Shape.entries, ih, Shape.entries]
    rfl

theorem Shape.addrs_delMin :
    ∀ (t : Shape), t ≠ .nil → ∃ d, t.minAddr = some d ∧ t.addrs = d :: t.delMin.addrs
  | .nil, h => absurd rfl h
  | .node a .nil k vs r, _ => ⟨a, rfl, by simp [Shape.addrs, Shape.delMin]⟩
  | .node a (.node b l1 k1 vs1 r1) k vs r, _ => by
    obtain ⟨d, hd, ih⟩ := Shape.addrs_delMin (.node b l1 k1 vs1 r1) (by simp)
    refine ⟨d, ?_, ?_⟩
    · simp only [Shape.minAddr] at hd ⊢; exact hd
    · simp only [Shape.delMin]
      rw [Shape.addrs, ih, Shape.addrs]
      rfl

theorem Shape.cellAddrs_delMin :
    ∀ (t : Shape), t.cellAddrs = t.minCells.map Prod.fst ++ t.delMin.cellAddrs
  | .nil => rfl
  | .node a .nil k vs r => by simp [Shape.cellAddrs, Shape.delMin, Shape.minCells]
  | .node a (.node b l1 k1 vs1 r1) k vs r => by
    have ih := Shape.cellAddrs_delMin (.node b l1 k1 vs1 r1)
    rw [Shape.delMin_node_node, Shape.minCells_node_node, Shape.cellAddrs, ih, Shape.cellAddrs]
    simp

theorem Shape.size_delMin :
    ∀ (t : Shape), t ≠ .nil → t.size = t.delMin.size + 1
  | .nil, h => absurd rfl h
  | .node a .nil k vs r, _ => by simp [Shape.size, Shape.delMin]; omega
  | .node a (.node b l1 k1 vs1 r1) k vs r, _ => by
    have ih := Shape.size_delMin (.node b l1 k1 vs1 r1) (by simp)
    rw [Shape.delMin_node_node, Shape.size, ih, Shape.size]
    omega

theorem Shape.ordered_delMin :
    ∀ (t : Shape), t.Ordered → t.delMin.Ordered
  | .nil, _ => trivial
  | .node a .nil k vs r, h => h.2.2.2
  | .node a (.node b l1 k1 vs1 r1) k vs r, h => by
    obtain ⟨hl, hr, ol, or⟩ := h
    have ih := Shape.ordered_delMin (.node b l1 k1 vs1 r1) ol
    simp only [Shape.delMin]
    refine ⟨?_, hr, ih, or⟩
    intro x hx
    apply hl
    rw [Shape.keys_delMin (.node b l1 k1 vs1 r1) (by simp)]
    exact List.mem_cons_of_mem _ hx

/-- The leftmost node as the heap stores it. -/
theorem Rep_min {nodes : List (Option bst_node)} {cells : List (Option v_node)} :
    ∀ (t : Shape) (par : Option Nat), t ≠ .nil → Rep nodes cells par t →
      ∃ d, t.minAddr = some d ∧
        nodes[d]? = some (some (⟨t.minKey, vhead t.minCells, none, t.minRight.root,
          t.minParent par⟩ : bst_node)) ∧
        VList cells t.minCells ∧ Rep nodes cells (some d) t.minRight
  | .nil, _, h, _ => absurd rfl h
  | .node a .nil k vs r, par, _, h => ⟨a, rfl, h.1, h.2.1, h.2.2.2⟩
  | .node a (.node b l1 k1 vs1 r1) k vs r, par, _, h => by
    obtain ⟨d, h1, h2, h3, h4⟩ := Rep_min (.node b l1 k1 vs1 r1) (some a) (by simp) h.2.2.1
    exact ⟨d, h1, h2, h3, h4⟩

/-- The parent of the leftmost node: the parent of the root when the root is leftmost,
otherwise a node of the tree other than the leftmost one. -/
theorem Shape.minParent_mem :
    ∀ (b : Nat) (l1 : Shape) (k1 : Str) (vs1 : List (Nat × Str)) (r1 : Shape) (a : Nat),
      (Shape.node b l1 k1 vs1 r1).minParent (some a) = some a ∧ l1 = .nil ∨
      ∃ p, (Shape.node b l1 k1 vs1 r1).minParent (some a) = some p ∧
        p ∈ (Shape.node b l1 k1 vs1 r1).addrs ∧ l1 ≠ .nil
  | b, .nil, k1, vs1, r1, a => Or.inl ⟨rfl, rfl⟩
  | b, .node b2 l2 k2 vs2 r2, k1, vs1, r1, a => by
    right
    rcases Shape.minParent_mem b2 l2 k2 vs2 r2 b with ⟨h, _⟩ | ⟨p, h, hp, _⟩
    · exact ⟨b, h, by simp [Shape.addrs], by simp⟩
    · exact ⟨p, h, by rw [Shape.addrs]; exact List.mem_append_left _ hp, by simp⟩

theorem Shape.minRight_root_mem :
    ∀ (t : Shape) (c : Nat), t.minRight.root = some c → c ∈ t.delMin.addrs
  | .nil, c, h => by simp [Shape.minRight, Shape.root] at h
  | .node a .nil k vs r, c, h => by
    rw [Shape.delMin_node_nil]
    cases r with
    | nil => simp [Shape.minRight, Shape.root] at h
    | node c2 l2 k2 vs2 r2 =>
      simp only [Shape.minRight, Shape.root, Option.some.injEq] at h
      subst h
      simp [Shape.addrs]
  | .node a (.node b l1 k1 vs1 r1) k vs r, c, h => by
    rw [Shape.minRight_node_node] at h
    rw [Shape.delMin_node_node, Shape.addrs]
    exact List.mem_append_left _ (Shape.minRight_root_mem _ c h)

theorem Shape.mem_addrs_of_mem_delMin (t : Shape) (x : Nat) (h : x ∈ t.delMin.addrs) :
    x ∈ t.addrs := by
  cases t with
  | nil => exact h
  | node a l k vs r =>
    obtain ⟨d, _, hd⟩ := Shape.addrs_delMin (.node a l k vs r) (by simp)
    rw [hd]; exact List.mem_cons_of_mem _ h

theorem Shape.delMin_root_of_left (b b2 : Nat) (l2 : Shape) (k2 : Str) (vs2 : List (Nat × Str))
    (r2 : Shape) (k1 : Str) (vs1 : List (Nat × Str)) (r1 : Shape) :
    (Shape.node b (.node b2 l2 k2 vs2 r2) k1 vs1 r1).delMin.root = some b := rfl

theorem Rep_delMin {nodes nodes' : List (Option bst_node)} {cells cells' : List (Option v_node)} :
    ∀ (t : Shape) (par : Option Nat), t ≠ .nil → Rep nodes cells par t → t.addrs.Nodup →
      (∀ p, par = some p → p ∉ t.addrs) →
      (∀ x ∈ t.delMin.addrs, some x ≠ t.minParent par → some x ≠ t.minRight.root →
        nodes'[x]? = nodes[x]?) →
      (∀ p, t.minParent par = some p → p ∈ t.addrs → ∀ np, nodes[p]? = some (some np) →
        nodes'[p]? = some (some { np with left := t.minRight.root })) →
      (∀ c, t.minRight.root = some c → ∀ nc, nodes[c]? = some (some nc) →
        nodes'[c]? = some (some { nc with parent := t.minParent par })) →
      (∀ c ∈ t.delMin.cellAddrs, cells'[c]? = cells[c]?) →
      Rep nodes' cells' par t.delMin
  | .nil, _, h, _, _, _, _, _, _, _ => absurd rfl h
  | .node a .nil k vs r, par, _, hrep, hnd, hpar, H1, H2, H3, H4 => by
    rw [Shape.delMin_node_nil] at H1 H4 ⊢
    cases r with
    | nil => trivial
    | node c l2 k2 vs2 r2 =>
      obtain ⟨_, _, _, h1, hv, hl2, hr2⟩ := hrep
      have hndr : (Shape.node c l2 k2 vs2 r2).addrs.Nodup := by
        simp only [Shape.addrs, List.nil_append, List.nodup_cons] at hnd
        exact hnd.2
      simp only [Shape.addrs, List.nodup_append, List.nodup_cons, List.Disjoint, List.mem_cons]
        at hndr
      have hsub : ∀ x ∈ (Shape.node c l2 k2 vs2 r2).addrs,
          x ∈ (Shape.node a .nil k vs (.node c l2 k2 vs2 r2)).addrs := fun x hx => by
        rw [Shape.addrs]; exact List.mem_append_right _ (List.mem_cons_of_mem _ hx)
      refine ⟨?_, ?_, ?_, ?_⟩
      · exact H3 c rfl _ h1
      · exact VList_frame vs2 hv (fun x hx => H4 x (by simp [Shape.cellAddrs] at hx ⊢; tauto))
      · refine Rep_frame l2 _ hl2 (fun x hx => ?_)
          (fun x hx => H4 x (by simp [Shape.cellAddrs]; tauto))
        have hxm : x ∈ (Shape.node c l2 k2 vs2 r2).addrs := by
          rw [Shape.addrs]; exact List.mem_append_left _ hx
        refine H1 x hxm ?_ ?_
        · intro e
          exact hpar x e.symm (hsub x hxm)
        · intro e
          simp only [Shape.minRight, Shape.root, Option.some.injEq] at e
          subst e
          exact hndr.2.2 hx (Or.inl rfl)
      · refine Rep_frame r2 _ hr2 (fun x hx => ?_)
          (fun x hx => H4 x (by simp [Shape.cellAddrs]; tauto))
        have hxm : x ∈ (Shape.node c l2 k2 vs2 r2).addrs := by
          rw [Shape.addrs]; exact List.mem_append_right _ (List.mem_cons_of_mem _ hx)
        refine H1 x hxm ?_ ?_
        · intro e
          exact hpar x e.symm (hsub x hxm)
        · intro e
          simp only [Shape.minRight, Shape.root, Option.some.injEq] at e
          subst e
          exact hndr.2.1.1 hx
  | .node a (.node b l1 k1 vs1 r1) k vs r, par, _, hrep, hnd, hpar, H1, H2, H3, H4 => by
    rw [Shape.delMin_node_node] at H1 H4 ⊢
    rw [Shape.minParent_node_node] at H1 H2 H3
    rw [Shape.minRight_node_node] at H1 H2 H3
    obtain ⟨h1, hv, hl, hr⟩ := hrep
    rw [Shape.addrs] at hnd
    have hndl := (List.nodup_append.1 hnd).1
    have hal : a ∉ (Shape.node b l1 k1 vs1 r1).addrs := fun hm =>
      (List.nodup_append.1 hnd).2.2 hm (List.mem_cons_self _ _)
    have har : a ∉ r.addrs := (List.nodup_cons.1 (List.nodup_append.1 hnd).2.1).1
    have hlr : ∀ x, x ∈ (Shape.node b l1 k1 vs1 r1).addrs → x ∈ r.addrs → False :=
      fun x hx hy => (List.nodup_append.1 hnd).2.2 hx (List.mem_cons_of_mem _ hy)
    have hmr : ∀ c, (Shape.node b l1 k1 vs1 r1).minRight.root = some c →
        c ∈ (Shape.node b l1 k1 vs1 r1).addrs := fun c hc =>
      Shape.mem_addrs_of_mem_delMin _ c (Shape.minRight_root_mem _ c hc)
    refine ⟨?_, ?_, ?_, ?_⟩
    · rcases Shape.minParent_mem b l1 k1 vs1 r1 a with ⟨hmp, hl1⟩ | ⟨p, hmp, hp, hl1⟩
      · subst hl1
        have := H2 a hmp (by simp [Shape.addrs]) _ h1
        rw [this]; rfl
      · have hroot : (Shape.node b l1 k1 vs1 r1).delMin.root = some b := by
          cases l1 with
          | nil => exact absurd rfl hl1
          | node b2 l2 k2 vs2 r2 => rfl
        rw [H1 a (by simp [Shape.addrs]) ?_ ?_, h1, hroot]
        · rfl
        · rw [hmp]; intro e
          simp only [Option.some.injEq] at e
          exact hal (e ▸ hp)
        · intro e
          exact hal (hmr a e.symm)
    · exact VList_frame vs hv (fun x hx => H4 x (by simp [Shape.cellAddrs] at hx ⊢; tauto))
    · refine Rep_delMin (.node b l1 k1 vs1 r1) (some a) (by simp) hl hndl ?_ ?_ ?_ H3 ?_
      · intro p e
        simp only [Option.some.injEq] at e
        subst e; exact hal
      · intro x hx
        exact H1 x (by rw [Shape.addrs]; exact List.mem_append_left _ hx)
      · intro p hp hpm
        exact H2 p hp (by rw [Shape.addrs]; exact List.mem_append_left _ hpm)
      · intro c hc
        exact H4 c (by rw [Shape.cellAddrs]; exact List.mem_append_left _ hc)
    · refine Rep_frame r _ hr (fun x hx => ?_)
        (fun x hx => H4 x (by simp [Shape.cellAddrs]; tauto))
      refine H1 x (by rw [Shape.addrs]; exact List.mem_append_right _ (List.mem_cons_of_mem _ hx))
        ?_ ?_
      · rcases Shape.minParent_mem b l1 k1 vs1 r1 a with ⟨hmp, _⟩ | ⟨p, hmp, hp, _⟩
        · rw [hmp]; intro e
          simp only [Option.some.injEq] at e
          exact har (e ▸ hx)
        · rw [hmp]; intro e
          simp only [Option.some.injEq] at e
          exact hlr x (e ▸ hp) hx
      · intro e
        exact hlr x (hmr x e.symm) hx

theorem Shape.minParent_mem_delMin :
    ∀ (t : Shape) (par : Option Nat) (p : Nat), t.minParent par = some p →
      par = some p ∨ p ∈ t.delMin.addrs
  | .nil, par, p, h => Or.inl h
  | .node a .nil k vs r, par, p, h => Or.inl h
  | .node a (.node b l1 k1 vs1 r1) k vs r, par, p, h => by
    rw [Shape.minParent_node_node] at h
    rw [Shape.delMin_node_node, Shape.addrs]
    rcases Shape.minParent_mem_delMin (.node b l1 k1 vs1 r1) (some a) p h with e | hm
    · simp only [Option.some.injEq] at e
      subst e
      exact Or.inr (by simp)
    · exact Or.inr (List.mem_append_left _ hm)

theorem Shape.root_mem_addrs (t : Shape) (c : Nat) (h : t.root = some c) : c ∈ t.addrs := by
  cases t with
  | nil => simp [Shape.root] at h
  | node a l k vs r =>
    simp only [Shape.root, Option.some.injEq] at h
    subst h
    simp [Shape.addrs]

theorem Shape.minParent_not_mem_minRight :
    ∀ (t : Shape) (par : Option Nat) (p : Nat), (∀ q, par = some q → q ∉ t.addrs) →
      t.addrs.Nodup → t.minParent par = some p → p ∉ t.minRight.addrs
  | .nil, _, _, _, _, _ => by simp [Shape.minRight, Shape.addrs]
  | .node a .nil k vs r, par, p, hpar, _, hp => by
    intro hm
    exact hpar p hp (by rw [Shape.addrs]; exact List.mem_append_right _ (List.mem_cons_of_mem _ hm))
  | .node a (.node b l1 k1 vs1 r1) k vs r, par, p, _, hnd, hp => by
    rw [Shape.minParent_node_node] at hp
    rw [Shape.minRight_node_node]
    rw [Shape.addrs] at hnd
    refine Shape.minParent_not_mem_minRight (.node b l1 k1 vs1 r1) (some a) p ?_
      (List.nodup_append.1 hnd).1 hp
    intro q e hq
    simp only [Option.some.injEq] at e
    subst e
    exact (List.nodup_append.1 hnd).2.2 hq (List.mem_cons_self _ _)

theorem Shape.minRight_sublist :
    ∀ (t : Shape), List.Sublist t.minRight.addrs t.delMin.addrs
  | .nil => List.Sublist.refl _
  | .node a .nil k vs r => List.Sublist.refl _
  | .node a (.node b l1 k1 vs1 r1) k vs r => by
    rw [Shape.minRight_node_node, Shape.delMin_node_node, Shape.addrs]
    exact (Shape.minRight_sublist (.node b l1 k1 vs1 r1)).trans (List.sublist_append_left _ _)

theorem Shape.minAddr_delMin_of_leaf :
    ∀ (a b : Nat) (l1 : Shape) (k1 : Str) (vs1 : List (Nat × Str)) (r1 : Shape) (k : Str)
      (vs : List (Nat × Str)) (r : Shape) (p : Nat),
      (Shape.node b l1 k1 vs1 r1).minRight = .nil →
      (Shape.node b l1 k1 vs1 r1).minParent (some a) = some p →
      (Shape.node a (.node b l1 k1 vs1 r1) k vs r).delMin.minAddr = some p
  | a, b, .nil, k1, vs1, r1, k, vs, r, p, hr, hp => by
    simp only [Shape.minRight] at hr
    subst hr
    simp only [Shape.minParent] at hp
    rw [← hp]; rfl
  | a, b, .node b2 l2 k2 vs2 r2, k1, vs1, r1, k, vs, r, p, hr, hp => by
    rw [Shape.minRight_node_node] at hr
    rw [Shape.minParent_node_node] at hp
    have ih := Shape.minAddr_delMin_of_leaf b b2 l2 k2 vs2 r2 k1 vs1 r1 p hr hp
    rw [Shape.delMin_node_node, Shape.delMin_node_node]
    rw [Shape.delMin_node_node] at ih
    exact ih

theorem Shape.minAddr_delMin_of_right :
    ∀ (t : Shape), t.minRight ≠ .nil → t.delMin.minAddr = t.minRight.minAddr
  | .nil, h => absurd rfl h
  | .node a .nil k vs r, _ => rfl
  | .node a (.node b .nil k1 vs1 r1) k vs r, h => by
    have h' : r1 ≠ .nil := h
    cases r1 with
    | nil => exact absurd rfl h'
    | node c l2 k2 vs2 r2 => rfl
  | .node a (.node b (.node b2 l2 k2 vs2 r2) k1 vs1 r1) k vs r, h => by
    have ih := Shape.minAddr_delMin_of_right (.node b (.node b2 l2 k2 vs2 r2) k1 vs1 r1) h
    rw [Shape.delMin_node_node, Shape.minRight_node_node]
    rw [Shape.delMin_node_node] at ih ⊢
    exact ih

theorem Shape.head_keys :
    ∀ (t : Shape), t ≠ .nil → t.keys.head? = some t.minKey := by
  intro t h
  rw [Shape.keys_delMin t h]; rfl

/-! ## `free_node` and the leftmost-descent loop -/

theorem readCell_ok {s : MR} {c : Nat} {v : v_node} (h : s.cells[c]? = some (some v)) :
    readCell s c = .ok v := by
  simp [readCell, h]

theorem freeCell_ok {s : MR} {c : Nat} {v : v_node} (h : s.cells[c]? = some (some v)) :
    freeCell s c = .ok { s with cells := s.cells.set c none } := by
  simp [freeCell, h]

theorem freeNodeMem_ok {s : MR} {a : Nat} {n : bst_node} (h : s.nodes[a]? = some (some n)) :
    freeNodeMem s a = .ok { s with nodes := s.nodes.set a none } := by
  simp [freeNodeMem, h]

theorem free_values_spec (d : Nat) :
    ∀ (vs : List (Nat × Str)) (fuel : Nat) (s : MR) (n : bst_node),
      s.nodes[d]? = some (some n) → n.v_head = vhead vs → VList s.cells vs →
      (vs.map Prod.fst).Nodup → vs.length < fuel →
      ∃ s', free_values d fuel s = .ok s' ∧
        s'.nodes.length = s.nodes.length ∧
        (∃ n', s'.nodes[d]? = some (some n')) ∧
        (∀ x, x ≠ d → s'.nodes[x]? = s.nodes[x]?) ∧
        s'.cells.length = s.cells.length ∧
        (∀ c ∈ vs.map Prod.fst, s'.cells[c]? = some none) ∧
        (∀ c, c ∉ vs.map Prod.fst → s'.cells[c]? = s.cells[c]?) ∧
        s'.bst_heads = s.bst_heads ∧ s'.low_key = s.low_key ∧
        s'.cur_values = s.cur_values ∧ s'.new_key = s.new_key
  | _, 0, _, _, _, _, _, _, hf => by omega
  | [], fuel + 1, s, n, hn, hv, _, _, _ => by
    refine ⟨s, ?_, rfl, ⟨n, hn⟩, fun _ _ => rfl, rfl, ?_, fun _ _ => rfl, rfl, rfl, rfl, rfl⟩
    · unfold free_values
      rw [readNode_ok hn]
      simp only [bind, Except.bind]
      rw [hv]; rfl
    · intro c hc; simp at hc
  | (c0, v0) :: rest, fuel + 1, s, n, hn, hv, hvl, hnd, hf => by
    obtain ⟨hc0, hrest⟩ := hvl
    have hd : d < s.nodes.length := lt_of_get hn
    have hc0l : c0 < s.cells.length := lt_of_get hc0
    simp only [List.map_cons, List.nodup_cons] at hnd
    let s2 : MR := { (writeNode s d { n with v_head := vhead rest }) with
      cells := s.cells.set c0 none }
    have hn2 : s2.nodes[d]? = some (some { n with v_head := vhead rest }) := by
      show (s.nodes.set d _)[d]? = _
      rw [List.getElem?_set_self hd]
    have hvl2 : VList s2.cells rest := VList_frame rest hrest (fun c hc => by
      show (s.cells.set c0 none)[c]? = _
      rw [List.getElem?_set_ne (fun (e : c0 = c) => hnd.1 (by rw [e]; exact hc))])
    obtain ⟨s', he, h1, h2, h3, h4, h5, h6, e1, e2, e3, e4⟩ :=
      free_values_spec d rest fuel s2 _ hn2 rfl hvl2 hnd.2 (by simp at hf; omega)
    refine ⟨s', ?_, ?_, h2, ?_, ?_, ?_, ?_, e1, e2, e3, e4⟩
    · unfold free_values
      rw [readNode_ok hn]
      simp only [bind, Except.bind]
      rw [hv]
      simp only [vhead, List.head?_cons, Option.map_some']
      rw [readCell_ok hc0]
      simp only []
      have : (writeNode s d { n with v_head := vhead rest }).cells[c0]? =
          some (some { value := v0, next := vhead rest }) := hc0
      rw [freeCell_ok this]
      exact he
    · rw [h1]; show (s.nodes.set d _).length = _; simp
    · intro x hx
      rw [h3 x hx]
      show (s.nodes.set d _)[x]? = _
      rw [List.getElem?_set_ne (fun e => hx e.symm)]
    · rw [h4]; show (s.cells.set c0 none).length = _; simp
    · intro c hc
      simp only [List.map_cons, List.mem_cons] at hc
      by_cases hcr : c ∈ rest.map Prod.fst
      · exact h5 c hcr
      · rcases hc with rfl | hc
        · rw [h6 c hcr]
          show (s.cells.set c none)[c]? = _
          rw [List.getElem?_set_self hc0l]
        · exact absurd hc hcr
    · intro c hc
      simp only [List.map_cons, List.mem_cons, not_or] at hc
      rw [h6 c hc.2]
      show (s.cells.set c0 none)[c]? = _
      rw [List.getElem?_set_ne (fun e => hc.1 e.symm)]

theorem free_node_spec (d : Nat) (vs : List (Nat × Str)) (s : MR) (n : bst_node)
    (hn : s.nodes[d]? = some (some n)) (hv : n.v_head = vhead vs) (hvl : VList s.cells vs)
    (hnd : (vs.map Prod.fst).Nodup) :
    ∃ s', free_node s d = .ok s' ∧
      s'.nodes.length = s.nodes.length ∧
      s'.nodes[d]? = some none ∧
      (∀ x, x ≠ d → s'.nodes[x]? = s.nodes[x]?) ∧
      s'.cells.length = s.cells.length ∧
      (∀ c ∈ vs.map Prod.fst, s'.cells[c]? = some none) ∧
      (∀ c, c ∉ vs.map Prod.fst → s'.cells[c]? = s.cells[c]?) ∧
      s'.bst_heads = s.bst_heads ∧ s'.low_key = s.low_key ∧
      s'.cur_values = s.cur_values ∧ s'.new_key = s.new_key := by
  have hlen : vs.length < s.cells.length + 1 := by
    have := length_le_of_nodup_lt hnd (VList_lt vs hvl)
    simp at this; omega
  obtain ⟨s1, he, h1, ⟨n', h2⟩, h3, h4, h5, h6, e1, e2, e3, e4⟩ :=
    free_values_spec d vs (s.cells.length + 1) s n hn hv hvl hnd hlen
  have hd : d < s1.nodes.length := lt_of_get h2
  refine ⟨{ s1 with nodes := s1.nodes.set d none }, ?_, ?_, ?_, ?_, h4, h5, h6, e1, e2, e3, e4⟩
  · unfold free_node
    rw [he]
    simp only [bind, Except.bind]
    exact freeNodeMem_ok h2
  · simp [h1]
  · show (s1.nodes.set d none)[d]? = _
    rw [List.getElem?_set_self hd]
  · intro x hx
    show (s1.nodes.set d none)[x]? = _
    rw [List.getElem?_set_ne (fun e => hx e.symm), h3 x hx]

theorem leftmost_loop_spec :
    ∀ (t : Shape) (par : Option Nat) (fuel : Nat) (s : MR) (b : Nat),
      t.root = some b → Rep s.nodes s.cells par t → t.size ≤ fuel →
      ∃ d, t.minAddr = some d ∧ leftmost_loop fuel s b = .ok d
  | .nil, _, _, _, _, h, _, _ => by simp [Shape.root] at h
  | .node a l k vs r, _, 0, _, _, _, _, hf => by simp [Shape.size] at hf
  | .node a .nil k vs r, par, fuel + 1, s, b, hr, hrep, _ => by
    simp only [Shape.root, Option.some.injEq] at hr
    subst hr
    refine ⟨a, rfl, ?_⟩
    unfold leftmost_loop
    rw [readNode_ok hrep.1]
    rfl
  | .node a (.node b1 l1 k1 vs1 r1) k vs r, par, fuel + 1, s, b, hr, hrep, hf => by
    simp only [Shape.root, Option.some.injEq] at hr
    subst hr
    obtain ⟨d, hd, he⟩ := leftmost_loop_spec (.node b1 l1 k1 vs1 r1) (some a) fuel s b1 rfl
      hrep.2.2.1 (by simp only [Shape.size] at hf ⊢; omega)
    refine ⟨d, hd, ?_⟩
    unfold leftmost_loop
    rw [readNode_ok hrep.1]
    exact he

/-! ## `get_low_key` -/

theorem rd_ok {α : Type} {xs : List α} {i : Nat} {x : α} (h : xs[i]? = some x) :
    rd xs i = .ok x := by
  simp [rd, h]

theorem wr_ok {α : Type} {xs : List α} {i : Nat} (v : α) (h : i < xs.length) :
    wr xs i v = .ok (xs.set i v) := by
  simp [wr, h]

theorem get_low_key_empty (s : MR) (p : Nat) (hlk : s.low_key[p]? = some none)
    (hhd : s.bst_heads[p]? = some none) : get_low_key s p = .ok (none, s) := by
  unfold get_low_key
  rw [rd_ok hlk]
  simp only [bind, Except.bind]
  rw [rd_ok hhd]
  rfl

theorem get_low_key_first (s : MR) (p : Nat) (t : Shape) (hne : t ≠ .nil)
    (hlk : s.low_key[p]? = some none) (hhd : s.bst_heads[p]? = some t.root)
    (hrep : Rep s.nodes s.cells none t) (hnd : t.addrs.Nodup) :
    get_low_key s p =
      .ok (some t.minKey, { s with low_key := s.low_key.set p t.minAddr }) := by
  obtain ⟨d, hd, hn, _, _⟩ := Rep_min t none hne hrep
  cases t with
  | nil => exact absurd rfl hne
  | node a l k vs r =>
    obtain ⟨d', hd', he⟩ := leftmost_loop_spec (.node a l k vs r) none s.nodes.length s a rfl hrep
      (Rep_size_le _ _ hrep hnd)
    rw [hd] at hd'
    simp only [Option.some.injEq] at hd'
    subst hd'
    unfold get_low_key
    rw [rd_ok hlk]
    simp only [bind, Except.bind]
    rw [rd_ok hhd]
    simp only [Shape.root]
    rw [he]
    simp only []
    rw [wr_ok _ (lt_of_get hlk), readNode_ok hn, hd]
    rfl

theorem drain_finish (s s2 : MR) (t : Shape) (d : Nat)
    (hne : t ≠ .nil) (hrep : Rep s.nodes s.cells none t) (hnd : t.addrs.Nodup)
    (hcnd : t.cellAddrs.Nodup) (hd : t.minAddr = some d)
    (hcells : s2.cells = s.cells)
    (hd2 : s2.nodes[d]? = s.nodes[d]?)
    (H0 : ∀ x, x ∉ t.addrs → s2.nodes[x]? = s.nodes[x]?)
    (H1 : ∀ x ∈ t.delMin.addrs, some x ≠ t.minParent none → some x ≠ t.minRight.root →
      s2.nodes[x]? = s.nodes[x]?)
    (H2 : ∀ p, t.minParent none = some p → ∀ np, s.nodes[p]? = some (some np) →
      s2.nodes[p]? = some (some { np with left := t.minRight.root }))
    (H3 : ∀ c, t.minRight.root = some c → ∀ nc, s.nodes[c]? = some (some nc) →
      s2.nodes[c]? = some (some { nc with parent := t.minParent none })) :
    ∃ s', free_node s2 d = .ok s' ∧ Rep s'.nodes s'.cells none t.delMin ∧
      s'.nodes.length = s2.nodes.length ∧ s'.nodes[d]? = some none ∧
      (∀ x, x ∉ t.addrs → s'.nodes[x]? = s.nodes[x]?) ∧
      s'.cells.length = s.cells.length ∧
      (∀ c ∈ t.minCells.map Prod.fst, s'.cells[c]? = some none) ∧
      (∀ c, c ∉ t.minCells.map Prod.fst → s'.cells[c]? = s.cells[c]?) ∧
      s'.bst_heads = s2.bst_heads ∧ s'.low_key = s2.low_key ∧
      s'.cur_values = s2.cur_values ∧ s'.new_key = s2.new_key := by
  obtain ⟨d', hd', hn, hvl, _⟩ := Rep_min t none hne hrep
  rw [hd] at hd'
  simp only [Option.some.injEq] at hd'
  subst hd'
  obtain ⟨d', hd', haddrs⟩ := Shape.addrs_delMin t hne
  rw [hd] at hd'
  simp only [Option.some.injEq] at hd'
  subst hd'
  have hcaddrs := Shape.cellAddrs_delMin t
  rw [haddrs] at hnd
  rw [hcaddrs] at hcnd
  have hdn : d ∉ t.delMin.addrs := (List.nodup_cons.1 hnd).1
  have hmc : (t.minCells.map Prod.fst).Nodup := (List.nodup_append.1 hcnd).1
  have hcd : ∀ c, c ∈ t.delMin.cellAddrs → c ∉ t.minCells.map Prod.fst := fun c hc hm =>
    (List.nodup_append.1 hcnd).2.2 hm hc
  rw [← hd2] at hn
  rw [← hcells] at hvl
  obtain ⟨s', he, h1, h2, h3, h4, h5, h6, e1, e2, e3, e4⟩ :=
    free_node_spec d t.minCells s2 _ hn rfl hvl hmc
  refine ⟨s', he, ?_, h1, h2, ?_, ?_, h5, ?_, e1, e2, e3, e4⟩
  · refine Rep_delMin t none hne hrep (by rw [haddrs]; exact hnd) (fun p e => by simp at e)
      ?_ ?_ ?_ ?_
    · intro x hx hxp hxr
      rw [h3 x (fun e => hdn (e ▸ hx))]
      exact H1 x hx hxp hxr
    · intro p hp _ np hnp
      rcases Shape.minParent_mem_delMin t none p hp with e | hm
      · simp at e
      · rw [h3 p (fun e => hdn (e ▸ hm))]
        exact H2 p hp np hnp
    · intro c hc nc hnc
      rw [h3 c (fun e => hdn (e ▸ Shape.minRight_root_mem t c hc))]
      exact H3 c hc nc hnc
    · intro c hc
      rw [h6 c (hcd c hc), hcells]
  · intro x hx
    have : x ≠ d := fun e => hx (by rw [haddrs, e]; exact List.mem_cons_self _ _)
    rw [h3 x this]
    exact H0 x hx
  · rw [h4, hcells]
  · intro c hc
    rw [h6 c hc, hcells]

theorem set_same {α : Type} {xs : List α} {i : Nat} {x : α} (h : xs[i]? = some x) :
    xs.set i x = xs := by
  apply List.ext_getElem?
  intro j
  by_cases e : i = j
  · subst e
    rw [List.getElem?_set_self (lt_of_get h), h]
  · rw [List.getElem?_set_ne e]

theorem Rep_reparent {nodes nodes' : List (Option bst_node)} {cells : List (Option v_node)}
    (c : Nat) (l2 : Shape) (k2 : Str) (vs2 : List (Nat × Str)) (r2 : Shape)
    (par par' : Option Nat) (h : Rep nodes cells par (.node c l2 k2 vs2 r2))
    (hnd : (Shape.node c l2 k2 vs2 r2).addrs.Nodup)
    (hc : ∀ nc, nodes[c]? = some (some nc) →
      nodes'[c]? = some (some { nc with parent := par' }))
    (hf : ∀ x, x ≠ c → x ∈ (Shape.node c l2 k2 vs2 r2).addrs → nodes'[x]? = nodes[x]?) :
    Rep nodes' cells par' (.node c l2 k2 vs2 r2) := by
  obtain ⟨h1, hv, hl, hr⟩ := h
  simp only [Shape.addrs, List.nodup_append, List.nodup_cons, List.Disjoint, List.mem_cons]
    at hnd
  refine ⟨hc _ h1, hv, ?_, ?_⟩
  · refine Rep_frame l2 _ hl (fun x hx => ?_) (fun _ _ => rfl)
    exact hf x (fun e => hnd.2.2 hx (Or.inl e)) (by rw [Shape.addrs]; exact List.mem_append_left _ hx)
  · refine Rep_frame r2 _ hr (fun x hx => ?_) (fun _ _ => rfl)
    exact hf x (fun e => hnd.2.1.1 (e ▸ hx))
      (by rw [Shape.addrs]; exact List.mem_append_right _ (List.mem_cons_of_mem _ hx))

/-- The post-state of a `get_low_key` call that releases the leftmost node `d` of `t`. -/
theorem get_low_key_next (s : MR) (p : Nat) (t : Shape) (d : Nat) (hne : t ≠ .nil)
    (hd : t.minAddr = some d)
    (hlk : s.low_key[p]? = some (some d)) (hhd : s.bst_heads[p]? = some t.root)
    (hrep : Rep s.nodes s.cells none t) (hnd : t.addrs.Nodup) (hcnd : t.cellAddrs.Nodup) :
    ∃ s', get_low_key s p = .ok (t.delMin.keys.head?, s') ∧
      Rep s'.nodes s'.cells none t.delMin ∧
      s'.bst_heads = s.bst_heads.set p t.delMin.root ∧
      s'.low_key = s.low_key.set p (if t.delMin = .nil then some d else t.delMin.minAddr) ∧
      s'.cur_values = s.cur_values ∧ s'.new_key = s.new_key ∧
      s'.nodes.length = s.nodes.length ∧ s'.nodes[d]? = some none ∧
      (∀ x, x ∉ t.addrs → s'.nodes[x]? = s.nodes[x]?) ∧
      s'.cells.length = s.cells.length ∧
      (∀ c ∈ t.minCells.map Prod.fst, s'.cells[c]? = some none) ∧
      (∀ c, c ∉ t.minCells.map Prod.fst → s'.cells[c]? = s.cells[c]?) := by
  obtain ⟨d', hd', hn, hvl, hrr⟩ := Rep_min t none hne hrep
  rw [hd] at hd'
  simp only [Option.some.injEq] at hd'
  subst hd'
  have hpl : p < s.low_key.length := lt_of_get hlk
  have hph : p < s.bst_heads.length := lt_of_get hhd
  cases t with
  | nil => exact absurd rfl hne
  | node a l k vs r =>
  cases l with
  | nil =>
    simp only [Shape.minAddr, Option.some.injEq] at hd
    subst hd
    cases r with
    | nil =>
      -- the last node of the tree
      obtain ⟨s', he, hR, h1, h2, h3, h4, h5, h6, e1, e2, e3, e4⟩ :=
        drain_finish s { s with bst_heads := s.bst_heads.set p none } (.node a .nil k vs .nil) a
          hne hrep hnd hcnd rfl rfl rfl (fun _ _ => rfl) (fun _ _ _ _ => rfl)
          (fun q hq => by simp [Shape.minParent] at hq)
          (fun c hc => by simp [Shape.minRight, Shape.root] at hc)
      refine ⟨s', ?_, hR, e1, ?_, e3, e4, h1, h2, h3, h4, h5, h6⟩
      · unfold get_low_key
        rw [rd_ok hlk]
        simp only [bind, Except.bind]
        rw [readNode_ok hn]
        simp only [Shape.minRight, Shape.root, Shape.minParent]
        rw [wr_ok _ hph]
        simp only []
        rw [he]
        rfl
      · rw [e2]
        simp only [Shape.delMin, if_true]
        exact (set_same hlk).symm
    | node c l2 k2 vs2 r2 =>
      -- the root is released and its right subtree becomes the tree
      have hnc := hrr.1
      have hcl : c < s.nodes.length := lt_of_get hnc
      have hndr : (Shape.node c l2 k2 vs2 r2).addrs.Nodup := by
        simp only [Shape.addrs, List.nil_append, List.nodup_cons] at hnd
        exact hnd.2
      have hac : a ≠ c := by
        intro e
        simp only [Shape.addrs, List.nil_append, List.nodup_cons] at hnd
        exact hnd.1 (by rw [e]; simp [Shape.addrs])
      let s2 : MR := writeNode { s with bst_heads := s.bst_heads.set p (some c) } c
        (⟨k2, vhead vs2, l2.root, r2.root, none⟩ : bst_node)
      have hR2 : Rep s2.nodes s2.cells none (.node c l2 k2 vs2 r2) := by
        refine Rep_reparent c l2 k2 vs2 r2 (some a) none hrr hndr ?_ ?_
        · intro nc hnc'
          rw [hnc] at hnc'
          simp only [Option.some.injEq] at hnc'
          subst hnc'
          show (s.nodes.set c _)[c]? = _
          rw [List.getElem?_set_self hcl]
        · intro x hx _
          show (s.nodes.set c _)[x]? = _
          rw [List.getElem?_set_ne (fun e => hx e.symm)]
      obtain ⟨low, hlow, hloop⟩ := leftmost_loop_spec (.node c l2 k2 vs2 r2) none
        s2.nodes.length s2 c rfl hR2 (Rep_size_le _ _ hR2 hndr)
      obtain ⟨s', he, hR, h1, h2, h3, h4, h5, h6, e1, e2, e3, e4⟩ :=
        drain_finish s { s2 with low_key := s2.low_key.set p (some low) }
          (.node a .nil k vs (.node c l2 k2 vs2 r2)) a hne hrep hnd hcnd rfl rfl
          (by show (s.nodes.set c _)[a]? = _
              rw [List.getElem?_set_ne (fun e => hac e.symm)])
          (fun x hx => by
            show (s.nodes.set c _)[x]? = _
            rw [List.getElem?_set_ne (fun e => hx (by rw [← e]; simp [Shape.addrs]))])
          (fun x _ _ hxr => by
            show (s.nodes.set c _)[x]? = _
            rw [List.getElem?_set_ne (fun e => hxr (by rw [← e]; rfl))])
          (fun q hq => by simp [Shape.minParent] at hq)
          (fun c' hc' nc hnc' => by
            simp only [Shape.minRight, Shape.root, Option.some.injEq] at hc'
            subst hc'
            rw [hnc] at hnc'
            simp only [Option.some.injEq] at hnc'
            subst hnc'
            show (s.nodes.set c _)[c]? = _
            rw [List.getElem?_set_self hcl]
            rfl)
      obtain ⟨low', hlow', hnlow, _, _⟩ := Rep_min _ none (by simp [Shape.delMin]) hR
      have hlow2 : (Shape.node a .nil k vs (.node c l2 k2 vs2 r2)).delMin.minAddr = some low :=
        hlow
      rw [hlow2] at hlow'
      simp only [Option.some.injEq] at hlow'
      subst hlow'
      refine ⟨s', ?_, hR, e1, ?_, e3, e4, ?_, h2, h3, h4, h5, h6⟩
      · unfold get_low_key
        rw [rd_ok hlk]
        simp only [bind, Except.bind]
        rw [readNode_ok hn]
        simp only [Shape.minRight, Shape.root, Shape.minParent]
        rw [rd_ok hhd]
        simp only [Shape.root, if_true]
        rw [wr_ok _ hph]
        simp only []
        have hrn : readNode { s with bst_heads := s.bst_heads.set p (some c) } c =
            .ok (⟨k2, vhead vs2, l2.root, r2.root, some a⟩ : bst_node) := readNode_ok hnc
        rw [hrn]
        simp only [pure, Except.pure]
        rw [hloop]
        simp only []
        rw [wr_ok _ (by simpa [s2, writeNode] using hpl)]
        simp only []
        rw [he]
        simp only []
        rw [readNode_ok hnlow, Shape.head_keys _ (by simp [Shape.delMin])]
      · rw [e2]
        have : (Shape.node a .nil k vs (.node c l2 k2 vs2 r2)).delMin ≠ .nil := by
          simp [Shape.delMin]
        rw [if_neg this, hlow2]
        rfl
      · rw [h1]; simp [s2, writeNode]
  | node b l1 k1 vs1 r1 =>
    -- the leftmost node is below the root
    obtain ⟨d', hd', haddrs⟩ := Shape.addrs_delMin _ hne
    rw [hd] at hd'
    simp only [Option.some.injEq] at hd'
    subst hd'
    have hnd' := hnd
    rw [haddrs] at hnd'
    have hdn := (List.nodup_cons.1 hnd').1
    have hndd := (List.nodup_cons.1 hnd').2
    obtain ⟨pp, hpp⟩ : ∃ pp, (Shape.node a (.node b l1 k1 vs1 r1) k vs r).minParent none =
        some pp := by
      rw [Shape.minParent_node_node]
      rcases Shape.minParent_mem b l1 k1 vs1 r1 a with ⟨h, _⟩ | ⟨q, h, _, _⟩
      · exact ⟨a, h⟩
      · exact ⟨q, h⟩
    have hppd : pp ∈ (Shape.node a (.node b l1 k1 vs1 r1) k vs r).delMin.addrs := by
      rcases Shape.minParent_mem_delMin _ none pp hpp with e | hm
      · simp at e
      · exact hm
    have hppt := Shape.mem_addrs_of_mem_delMin _ _ hppd
    obtain ⟨np, hnp⟩ := Rep_live _ _ hrep pp hppt
    have hppl : pp < s.nodes.length := lt_of_get hnp
    have hppne : pp ≠ d := fun e => hdn (e ▸ hppd)
    have hda : ¬ d = a := by
      intro e
      apply hdn
      rw [e, Shape.delMin_node_node, Shape.addrs]
      simp
    have hroot : (Shape.node a (.node b l1 k1 vs1 r1) k vs r).delMin.root = some a := rfl
    have hdne : (Shape.node a (.node b l1 k1 vs1 r1) k vs r).delMin ≠ .nil := by
      rw [Shape.delMin_node_node]; simp
    have hppmr := Shape.minParent_not_mem_minRight _ none pp (fun q e => by simp at e) hnd hpp
    rw [hpp] at hn
    generalize hmr : (Shape.node a (.node b l1 k1 vs1 r1) k vs r).minRight = mr at hn hrr hppmr
    cases mr with
    | nil =>
      have hlowp : (Shape.node a (.node b l1 k1 vs1 r1) k vs r).delMin.minAddr = some pp := by
        rw [Shape.minParent_node_node] at hpp
        rw [Shape.minRight_node_node] at hmr
        exact Shape.minAddr_delMin_of_leaf a b l1 k1 vs1 r1 k vs r pp hmr hpp
      obtain ⟨s', he, hR, h1, h2, h3, h4, h5, h6, e1, e2, e3, e4⟩ :=
        drain_finish s
          (writeNode { s with low_key := s.low_key.set p (some pp) } pp { np with left := none })
          (.node a (.node b l1 k1 vs1 r1) k vs r) d hne hrep hnd hcnd hd rfl
          (by show (s.nodes.set pp _)[d]? = _
              rw [List.getElem?_set_ne hppne])
          (fun x hx => by
            show (s.nodes.set pp _)[x]? = _
            rw [List.getElem?_set_ne (fun (e : pp = x) => hx (by rw [← e]; exact hppt))])
          (fun x _ hxp _ => by
            show (s.nodes.set pp _)[x]? = _
            rw [List.getElem?_set_ne (fun e => hxp (by rw [hpp, e]))])
          (fun q hq nq hnq => by
            rw [hpp] at hq
            simp only [Option.some.injEq] at hq
            subst hq
            rw [hnp] at hnq
            simp only [Option.some.injEq] at hnq
            subst hnq
            show (s.nodes.set pp _)[pp]? = _
            rw [List.getElem?_set_self hppl, hmr]
            rfl)
          (fun c hc => by rw [hmr] at hc; simp [Shape.root] at hc)
      obtain ⟨low', hlow', hnlow, _, _⟩ := Rep_min _ none hdne hR
      rw [hlowp] at hlow'
      simp only [Option.some.injEq] at hlow'
      subst hlow'
      refine ⟨s', ?_, hR, ?_, ?_, e3, e4, ?_, h2, h3, h4, h5, h6⟩
      · unfold get_low_key
        rw [rd_ok hlk]
        simp only [bind, Except.bind]
        rw [readNode_ok hn]
        simp only [Shape.root]
        rw [wr_ok _ hpl]
        simp only []
        have hrn : readNode { s with low_key := s.low_key.set p (some pp) } pp = .ok np :=
          readNode_ok hnp
        rw [hrn]
        simp only []
        rw [he]
        simp only []
        rw [readNode_ok hnlow, Shape.head_keys _ hdne]
        rfl
      · rw [e1, hroot]
        exact (set_same hhd).symm
      · rw [e2, if_neg hdne, hlowp]
        rfl
      · rw [h1]; simp [writeNode]
    | node c l2 k2 vs2 r2 =>
      have hnc := hrr.1
      have hcl : c < s.nodes.length := lt_of_get hnc
      have hcd : c ∈ (Shape.node a (.node b l1 k1 vs1 r1) k vs r).delMin.addrs :=
        Shape.minRight_root_mem _ c (by rw [hmr]; rfl)
      have hcne : c ≠ d := fun e => hdn (e ▸ hcd)
      have hppc : pp ≠ c := fun e => hppmr (by rw [e]; simp [Shape.addrs])
      have hndr : (Shape.node c l2 k2 vs2 r2).addrs.Nodup := by
        have := Shape.minRight_sublist (Shape.node a (.node b l1 k1 vs1 r1) k vs r)
        rw [hmr] at this
        exact List.Nodup.sublist this hndd
      have hsubr : ∀ x, x ∈ (Shape.node c l2 k2 vs2 r2).addrs →
          x ∈ (Shape.node a (.node b l1 k1 vs1 r1) k vs r).delMin.addrs := by
        have := Shape.minRight_sublist (Shape.node a (.node b l1 k1 vs1 r1) k vs r)
        rw [hmr] at this
        exact fun x hx => this.subset hx
      let s2 : MR := writeNode (writeNode s pp { np with left := some c }) c
        (⟨k2, vhead vs2, l2.root, r2.root, some pp⟩ : bst_node)
      have hR2 : Rep s2.nodes s2.cells (some pp) (.node c l2 k2 vs2 r2) := by
        refine Rep_reparent c l2 k2 vs2 r2 (some d) (some pp) hrr hndr ?_ ?_
        · intro nc hnc'
          rw [hnc] at hnc'
          simp only [Option.some.injEq] at hnc'
          subst hnc'
          show ((s.nodes.set pp _).set c _)[c]? = _
          rw [List.getElem?_set_self (by simpa using hcl)]
        · intro x hx hxm
          show ((s.nodes.set pp _).set c _)[x]? = _
          rw [List.getElem?_set_ne (fun e => hx e.symm),
            List.getElem?_set_ne (fun (e : pp = x) => hppmr (by rw [e]; exact hxm))]
      obtain ⟨low, hlow, hloop⟩ := leftmost_loop_spec (.node c l2 k2 vs2 r2) (some pp)
        s2.nodes.length s2 c rfl hR2 (Rep_size_le _ _ hR2 hndr)
      have hlowp : (Shape.node a (.node b l1 k1 vs1 r1) k vs r).delMin.minAddr = some low := by
        rw [Shape.minAddr_delMin_of_right _ (by rw [hmr]; simp), hmr]
        exact hlow
      obtain ⟨s', he, hR, h1, h2, h3, h4, h5, h6, e1, e2, e3, e4⟩ :=
        drain_finish s { s2 with low_key := s2.low_key.set p (some low) }
          (.node a (.node b l1 k1 vs1 r1) k vs r) d hne hrep hnd hcnd hd rfl
          (by show ((s.nodes.set pp _).set c _)[d]? = _
              rw [List.getElem?_set_ne hcne, List.getElem?_set_ne hppne])
          (fun x hx => by
            show ((s.nodes.set pp _).set c _)[x]? = _
            rw [List.getElem?_set_ne (fun (e : c = x) => hx (by
                  rw [← e]; exact Shape.mem_addrs_of_mem_delMin _ _ hcd)),
              List.getElem?_set_ne (fun (e : pp = x) => hx (by rw [← e]; exact hppt))])
          (fun x _ hxp hxr => by
            show ((s.nodes.set pp _).set c _)[x]? = _
            rw [List.getElem?_set_ne (fun (e : c = x) => hxr (by rw [hmr, e]; rfl)),
              List.getElem?_set_ne (fun e => hxp (by rw [hpp, e]))])
          (fun q hq nq hnq => by
            rw [hpp] at hq
            simp only [Option.some.injEq] at hq
            subst hq
            rw [hnp] at hnq
            simp only [Option.some.injEq] at hnq
            subst hnq
            show ((s.nodes.set pp _).set c _)[pp]? = _
            rw [List.getElem?_set_ne (fun e => hppc e.symm), List.getElem?_set_self hppl, hmr]
            rfl)
          (fun c' hc' nc hnc' => by
            rw [hmr] at hc'
            simp only [Shape.root, Option.some.injEq] at hc'
            subst hc'
            rw [hnc] at hnc'
            simp only [Option.some.injEq] at hnc'
            subst hnc'
            show ((s.nodes.set pp _).set c _)[c]? = _
            rw [List.getElem?_set_self (by simpa using hcl), hpp])
      obtain ⟨low', hlow', hnlow, _, _⟩ := Rep_min _ none hdne hR
      rw [hlowp] at hlow'
      simp only [Option.some.injEq] at hlow'
      subst hlow'
      refine ⟨s', ?_, hR, ?_, ?_, e3, e4, ?_, h2, h3, h4, h5, h6⟩
      · unfold get_low_key
        rw [rd_ok hlk]
        simp only [bind, Except.bind]
        rw [readNode_ok hn]
        simp only [Shape.root]
        rw [rd_ok hhd]
        simp only [Shape.root, Option.some.injEq, hda, if_false, deref]
        rw [readNode_ok hnp]
        simp only []
        have hrn : readNode (writeNode s pp { np with left := some c }) c =
            .ok (⟨k2, vhead vs2, l2.root, r2.root, some d⟩ : bst_node) := by
          apply readNode_ok
          show (s.nodes.set pp _)[c]? = _
          rw [List.getElem?_set_ne hppc]
          exact hnc
        rw [hrn]
        simp only [pure, Except.pure]
        rw [hloop]
        simp only []
        rw [wr_ok _ (by simpa [s2, writeNode] using hpl)]
        simp only []
        rw [he]
        simp only []
        rw [readNode_ok hnlow, Shape.head_keys _ hdne]
      · rw [e1, hroot]
        exact (set_same hhd).symm
      · rw [e2, if_neg hdne, hlowp]
        rfl
      · rw [h1]; simp [s2, writeNode]

/-! ## `add_to_tree` keeps the build invariant -/

theorem Inv_init (N : Nat) : Inv (initState N) N (fun _ => .nil) where
  heads_len := by simp [initState]
  heads := fun i hi => by simp [initState, Shape.root, List.getElem?_replicate, hi]
  rep := fun _ _ => trivial
  ordered := fun _ _ => trivial
  nodup := fun _ _ => List.nodup_nil
  cnodup := fun _ _ => List.nodup_nil
  apart := fun _ _ _ _ _ a ha _ => by simp [Shape.addrs] at ha
  capart := fun _ _ _ _ _ a ha _ => by simp [Shape.cellAddrs] at ha
  low := rfl
  cur := rfl
  flags := rfl

theorem add_to_tree_spec (s : MR) (N : Nat) (T : Nat → Shape) (p : Nat) (key value : Str)
    (hinv : Inv s N T) (hp : p < N) :
    ∃ s', add_to_tree s p key value = .ok s' ∧
      Inv s' N (Function.update T p ((T p).insert s.nodes.length s.cells.length key value)) ∧
      (∀ x, x ∉ (T p).addrs → x < s.nodes.length → s'.nodes[x]? = s.nodes[x]?) ∧
      (∀ c, c < s.cells.length → s'.cells[c]? = s.cells[c]?) ∧
      s'.cells.length = s.cells.length + 1 ∧
      s'.nodes.length + (T p).size =
        s.nodes.length + ((T p).insert s.nodes.length s.cells.length key value).size := by
  have hhd := hinv.heads p hp
  have hrep := hinv.rep p hp
  have hnd := hinv.nodup p hp
  have hcnd := hinv.cnodup p hp
  -- the common part: from the heap facts of the step to the invariant
  have finish : ∀ s' : MR,
      Rep s'.nodes s'.cells none ((T p).insert s.nodes.length s.cells.length key value) →
      (∀ x, x ∉ (T p).addrs → x < s.nodes.length → s'.nodes[x]? = s.nodes[x]?) →
      (∀ c, c < s.cells.length → s'.cells[c]? = s.cells[c]?) →
      s'.bst_heads.length = N →
      s'.bst_heads[p]? = some ((T p).insert s.nodes.length s.cells.length key value).root →
      (∀ q, q ≠ p → s'.bst_heads[q]? = s.bst_heads[q]?) →
      s'.low_key = s.low_key → s'.cur_values = s.cur_values → s'.new_key = s.new_key →
      Inv s' N (Function.update T p ((T p).insert s.nodes.length s.cells.length key value)) := by
    intro s' hR hfr hfc hlen hroot hothers e2 e3 e4
    refine ⟨hlen, ?_, ?_, ?_, ?_, ?_, ?_, ?_, by rw [e2]; exact hinv.low,
      by rw [e3]; exact hinv.cur, by rw [e4]; exact hinv.flags⟩
    · intro i hi
      by_cases e : i = p
      · subst e; rw [Function.update_same]; exact hroot
      · rw [Function.update_noteq e, hothers i e]; exact hinv.heads i hi
    · intro i hi
      by_cases e : i = p
      · subst e; rw [Function.update_same]; exact hR
      · rw [Function.update_noteq e]
        refine Rep_frame (T i) none (hinv.rep i hi) (fun x hx => ?_) (fun c hc => ?_)
        · exact hfr x (fun hm => hinv.apart i p hi hp e x hx hm) (Rep_lt _ _ (hinv.rep i hi) x hx)
        · exact hfc c (Rep_cells_lt _ _ (hinv.rep i hi) c hc)
    · intro i hi
      by_cases e : i = p
      · subst e; rw [Function.update_same]; exact Shape.ordered_insert _ _ _ _ _ (hinv.ordered i hi)
      · rw [Function.update_noteq e]; exact hinv.ordered i hi
    · intro i hi
      by_cases e : i = p
      · subst e; rw [Function.update_same]
        exact Shape.nodup_addrs_insert _ _ _ _ _ hnd
          (fun hm => Nat.lt_irrefl _ (Rep_lt _ _ hrep _ hm))
      · rw [Function.update_noteq e]; exact hinv.nodup i hi
    · intro i hi
      by_cases e : i = p
      · subst e; rw [Function.update_same]
        exact Shape.nodup_cellAddrs_insert _ _ _ _ _ hcnd
          (fun hm => Nat.lt_irrefl _ (Rep_cells_lt _ _ hrep _ hm))
      · rw [Function.update_noteq e]; exact hinv.cnodup i hi
    · intro i j hi hj hij x hx hy
      by_cases ei : i = p
      · subst ei
        rw [Function.update_same] at hx
        rw [Function.update_noteq (fun e => hij e.symm)] at hy
        rcases Shape.mem_addrs_insert _ _ _ _ _ x hx with rfl | hx
        · exact Nat.lt_irrefl _ (Rep_lt _ _ (hinv.rep j hj) _ hy)
        · exact hinv.apart i j hi hj hij x hx hy
      · rw [Function.update_noteq ei] at hx
        by_cases ej : j = p
        · subst ej
          rw [Function.update_same] at hy
          rcases Shape.mem_addrs_insert _ _ _ _ _ x hy with rfl | hy
          · exact Nat.lt_irrefl _ (Rep_lt _ _ (hinv.rep i hi) _ hx)
          · exact hinv.apart i j hi hj hij x hx hy
        · rw [Function.update_noteq ej] at hy
          exact hinv.apart i j hi hj hij x hx hy
    · intro i j hi hj hij x hx hy
      by_cases ei : i = p
      · subst ei
        rw [Function.update_same] at hx
        rw [Function.update_noteq (fun e => hij e.symm)] at hy
        rcases Shape.mem_cellAddrs_insert _ _ _ _ _ x hx with rfl | hx
        · exact Nat.lt_irrefl _ (Rep_cells_lt _ _ (hinv.rep j hj) _ hy)
        · exact hinv.capart i j hi hj hij x hx hy
      · rw [Function.update_noteq ei] at hx
        by_cases ej : j = p
        · subst ej
          rw [Function.update_same] at hy
          rcases Shape.mem_cellAddrs_insert _ _ _ _ _ x hy with rfl | hy
          · exact Nat.lt_irrefl _ (Rep_cells_lt _ _ (hinv.rep i hi) _ hx)
          · exact hinv.capart i j hi hj hij x hx hy
        · rw [Function.update_noteq ej] at hy
          exact hinv.capart i j hi hj hij x hx hy
  have hph : p < s.bst_heads.length := by rw [hinv.heads_len]; exact hp
  cases hT : T p with
  | nil =>
    rw [hT] at hhd hrep hnd hcnd finish
    have hnew : (s.nodes ++ [some (⟨key, none, none, none, none⟩ : bst_node)])[s.nodes.length]? =
        some (some (⟨key, none, none, none, none⟩ : bst_node)) :=
      List.getElem?_concat_length _ _
    let s2 : MR := { s with
      nodes := s.nodes ++ [some (⟨key, none, none, none, none⟩ : bst_node)],
      bst_heads := s.bst_heads.set p (some s.nodes.length) }
    have hvp := value_push_ok s2 s.nodes.length value _ hnew
    refine ⟨{ s2 with
      cells := s2.cells ++ [some (⟨value, none⟩ : v_node)],
      nodes := s2.nodes.set s.nodes.length
        (some (⟨key, some s2.cells.length, none, none, none⟩ : bst_node)) }, ?_, ?_, ?_, ?_, ?_, ?_⟩
    · unfold add_to_tree
      rw [rd_ok hhd]
      simp only [bind, Except.bind, Shape.root]
      rw [wr_ok _ hph]
      exact hvp
    · refine finish _ ?_ ?_ ?_ ?_ ?_ ?_ rfl rfl rfl
      · refine ⟨?_, ⟨?_, trivial⟩, trivial, trivial⟩
        · show ((s.nodes ++ [_]).set s.nodes.length _)[s.nodes.length]? = _
          rw [List.getElem?_set_self (by simp)]
          rfl
        · show (s.cells ++ [_])[s.cells.length]? = _
          rw [List.getElem?_concat_length]
          rfl
      · intro x _ hxl
        show ((s.nodes ++ [_]).set s.nodes.length _)[x]? = _
        rw [List.getElem?_set_ne (Nat.ne_of_gt hxl), List.getElem?_append_left hxl]
      · intro c hc
        show (s.cells ++ [_])[c]? = _
        rw [List.getElem?_append_left hc]
      · show (s.bst_heads.set p _).length = N
        rw [List.length_set]; exact hinv.heads_len
      · show (s.bst_heads.set p _)[p]? = _
        rw [List.getElem?_set_self hph]
        rfl
      · intro q hq
        show (s.bst_heads.set p _)[q]? = _
        rw [List.getElem?_set_ne (fun e => hq e.symm)]
    · intro x _ hxl
      show ((s.nodes ++ [_]).set s.nodes.length _)[x]? = _
      rw [List.getElem?_set_ne (Nat.ne_of_gt hxl), List.getElem?_append_left hxl]
    · intro c hc
      show (s.cells ++ [_])[c]? = _
      rw [List.getElem?_append_left hc]
    · show (s.cells ++ [_]).length = _
      simp
    · show ((s.nodes ++ [_]).set s.nodes.length _).length + _ = _
      simp [Shape.insert, Shape.size]
  | node b l k vs r =>
    rw [hT] at hhd hrep hnd hcnd finish
    obtain ⟨s', he, hR, hfr, hfc, hcl, hnl, e1, e2, e3, e4⟩ :=
      add_loop_spec key value (.node b l k vs r) s.nodes.length s none b rfl hrep hnd
        (Rep_size_le _ _ hrep hnd)
    refine ⟨s', ?_, ?_, hfr, hfc, hcl, hnl⟩
    · unfold add_to_tree
      rw [rd_ok hhd]
      exact he
    · refine finish s' hR hfr hfc (by rw [e1]; exact hinv.heads_len) ?_ ?_ e2 e3 e4
      · rw [e1, Shape.insert_root]; exact hhd
      · intro q _; rw [e1]

/-! ## Reading a store back from the heaps -/

theorem vhead_cons (c : Nat) (v : Str) (rest : List (Nat × Str)) :
    vhead ((c, v) :: rest) = some c := rfl

theorem vhead_nil : vhead [] = none := rfl

theorem cell_list_spec (s : MR) :
    ∀ (vs : List (Nat × Str)) (fuel : Nat), VList s.cells vs → vs.length ≤ fuel →
      cell_list s fuel (vhead vs) = vs
  | [], 0, _, _ => rfl
  | _ :: _, 0, _, h => by simp at h
  | [], fuel + 1, _, _ => rfl
  | (c, v) :: rest, fuel + 1, hvl, h => by
    rw [vhead_cons, cell_list, hvl.1]
    simp only []
    rw [cell_list_spec s rest fuel hvl.2 (by simp at h; omega)]

theorem tree_dump_spec (s : MR) :
    ∀ (t : Shape) (par : Option Nat) (fuel : Nat), Rep s.nodes s.cells par t →
      t.cellAddrs.Nodup → t.size ≤ fuel → tree_dump s fuel t.root = t.dump
  | .nil, _, 0, _, _, _ => rfl
  | .node _ _ _ _ _, _, 0, _, _, h => by simp [Shape.size] at h
  | .nil, _, fuel + 1, _, _, _ => rfl
  | .node a l k vs r, par, fuel + 1, hrep, hnd, h => by
    obtain ⟨h1, hv, hl, hr⟩ := hrep
    simp only [Shape.cellAddrs, List.nodup_append] at hnd
    simp only [Shape.size] at h
    have hlen : vs.length ≤ s.cells.length := by
      have := length_le_of_nodup_lt hnd.2.1.1 (VList_lt vs hv)
      simpa using this
    rw [Shape.root, tree_dump, h1]
    simp only []
    rw [tree_dump_spec s l _ fuel hl hnd.1 (by omega),
      tree_dump_spec s r _ fuel hr hnd.2.1.2.1 (by omega)]
    show l.dump ++ (a, k, cell_list s s.cells.length (vhead vs)) :: r.dump = _
    rw [cell_list_spec s vs _ hv hlen]
    rfl

theorem store_spec (s : MR) (N : Nat) (T : Nat → Shape) (p : Nat) (hinv : Inv s N T)
    (hp : p < N) : store s p = (T p).dump := by
  unfold store
  rw [hinv.heads p hp]
  exact tree_dump_spec s (T p) none _ (hinv.rep p hp) (hinv.cnodup p hp)
    (Rep_size_le _ _ (hinv.rep p hp) (hinv.nodup p hp))

theorem Shape.dump_keys : ∀ (t : Shape), t.dump.map (fun e => e.2.1) = t.keys
  | .nil => rfl
  | .node a l k vs r => by
    simp [Shape.dump, Shape.keys, Shape.dump_keys l, Shape.dump_keys r]

theorem Shape.dump_addrs : ∀ (t : Shape), t.dump.map (fun e => e.1) = t.addrs
  | .nil => rfl
  | .node a l k vs r => by
    simp [Shape.dump, Shape.addrs, Shape.dump_addrs l, Shape.dump_addrs r]

theorem Shape.dump_delMin :
    ∀ (t : Shape) (d : Nat), t.minAddr = some d →
      t.dump = (d, t.minKey, t.minCells) :: t.delMin.dump
  | .nil, d, h => by simp [Shape.minAddr] at h
  | .node a .nil k vs r, d, h => by
    simp only [Shape.minAddr, Option.some.injEq] at h
    subst h
    rfl
  | .node a (.node b l1 k1 vs1 r1) k vs r, d, h => by
    rw [Shape.minAddr_node_node] at h
    have ih := Shape.dump_delMin (.node b l1 k1 vs1 r1) d h
    rw [Shape.delMin_node_node, Shape.minKey_node_node, Shape.minCells_node_node, Shape.dump, ih,
      Shape.dump]
    rfl

/-! ## `get_next_value` and one run of the reduce callback -/

theorem get_next_value_end (s : MR) (key : Str) (p : Nat) (h0 : s.new_key[p]? = some 0)
    (hc : s.cur_values[p]? = some none) :
    get_next_value s key p = .ok (none, { s with new_key := s.new_key.set p 1 }) := by
  unfold get_next_value
  rw [rd_ok h0]
  simp only [bind, Except.bind, pure, Except.pure]
  rw [if_neg (by decide)]
  simp only []
  rw [rd_ok hc]
  simp only []
  rw [wr_ok _ (lt_of_get h0)]

theorem get_next_value_some (s : MR) (key : Str) (p : Nat) (c : Nat) (v : Str)
    (tl : List (Nat × Str)) (h0 : s.new_key[p]? = some 0)
    (hc : s.cur_values[p]? = some (some c))
    (hcell : s.cells[c]? = some (some { value := v, next := vhead tl })) :
    get_next_value s key p =
      .ok (some v, { s with cur_values := s.cur_values.set p (vhead tl) }) := by
  unfold get_next_value
  rw [rd_ok h0]
  simp only [bind, Except.bind, pure, Except.pure]
  rw [if_neg (by decide)]
  simp only []
  rw [rd_ok hc]
  simp only []
  rw [readCell_ok hcell]
  simp only []
  rw [wr_ok _ (lt_of_get hc)]

theorem get_next_value_new (s : MR) (key : Str) (p d : Nat) (n : bst_node)
    (h1 : s.new_key[p]? = some 1) (hlk : s.low_key[p]? = some (some d))
    (hn : s.nodes[d]? = some (some n)) (hcl : p < s.cur_values.length) :
    get_next_value s key p =
      get_next_value { s with new_key := s.new_key.set p 0,
                              cur_values := s.cur_values.set p n.v_head } key p := by
  have h0 : (s.new_key.set p 0)[p]? = some 0 := List.getElem?_set_self (lt_of_get h1)
  conv_lhs => unfold get_next_value
  conv_rhs => unfold get_next_value
  rw [rd_ok h1]
  simp only [bind, Except.bind, pure, Except.pure]
  simp only [if_true]
  rw [wr_ok _ (lt_of_get h1)]
  simp only []
  rw [rd_ok hlk]
  simp only [deref]
  rw [readNode_ok hn]
  simp only []
  rw [wr_ok _ hcl]
  simp only []
  rw [rd_ok h0]
  simp only []
  rw [if_neg (by decide)]

theorem run_reducer_rest {σ : Type} (cb : Reducer σ) (hcb : PullsToEnd cb) (key : Str)
    (p : Nat) :
    ∀ (rest : List (Nat × Str)) (fuel : Nat) (st : σ) (s : MR),
      s.new_key[p]? = some 0 → s.cur_values[p]? = some (vhead rest) → VList s.cells rest →
      rest.length + 2 ≤ fuel →
      ∃ st' s', run_reducer cb key p fuel (.pull st) s =
          .ok (st', s', rest.map (fun c => Event.value c.2) ++ [Event.endOfValues]) ∧
        s'.nodes = s.nodes ∧ s'.cells = s.cells ∧ s'.bst_heads = s.bst_heads ∧
        s'.low_key = s.low_key ∧ s'.new_key = s.new_key.set p 1 ∧
        s'.cur_values.length = s.cur_values.length ∧
        (∀ q, q ≠ p → s'.cur_values[q]? = s.cur_values[q]?) ∧
        s'.cur_values[p]? = some none
  | _, 0, _, _, _, _, _, h => by omega
  | _, 1, _, _, _, _, _, h => by omega
  | [], fuel + 2, st, s, h0, hc, _, _ => by
    obtain ⟨st', hst'⟩ := hcb.2.2 st
    refine ⟨st', { s with new_key := s.new_key.set p 1 }, ?_, rfl, rfl, rfl, rfl, rfl, rfl,
      fun _ _ => rfl, hc⟩
    rw [run_reducer, get_next_value_end s key p h0 hc]
    simp only [bind, Except.bind]
    rw [hst', run_reducer]
    rfl
  | (c, v) :: tl, fuel + 2, st, s, h0, hc, hvl, hf => by
    obtain ⟨st1, hst1⟩ := hcb.2.1 st v
    have hpl : p < s.cur_values.length := lt_of_get hc
    obtain ⟨st', s', he, e1, e2, e3, e4, e5, e6, e7, e8⟩ :=
      run_reducer_rest cb hcb key p tl (fuel + 1) st1
        { s with cur_values := s.cur_values.set p (vhead tl) } h0
        (List.getElem?_set_self hpl) hvl.2 (by simp at hf; omega)
    refine ⟨st', s', ?_, e1, e2, e3, e4, e5, ?_, ?_, e8⟩
    · rw [run_reducer, get_next_value_some s key p c v tl h0 hc hvl.1]
      simp only [bind, Except.bind]
      rw [hst1, he]
      rfl
    · rw [e6]; simp
    · intro q hq
      rw [e7 q hq]
      show (s.cur_values.set p _)[q]? = _
      rw [List.getElem?_set_ne (fun e => hq e.symm)]

theorem run_reducer_key {σ : Type} (cb : Reducer σ) (hcb : PullsToEnd cb) (key : Str)
    (p d : Nat) (n : bst_node) (vs : List (Nat × Str)) (fuel : Nat) (st : σ) (s : MR)
    (h1 : s.new_key[p]? = some 1) (hlk : s.low_key[p]? = some (some d))
    (hn : s.nodes[d]? = some (some n)) (hv : n.v_head = vhead vs) (hvl : VList s.cells vs)
    (hcl : p < s.cur_values.length) (hf : vs.length + 2 ≤ fuel) :
    ∃ st' s', run_reducer cb key p fuel (cb.enter st key p) s =
        .ok (st', s', vs.map (fun c => Event.value c.2) ++ [Event.endOfValues]) ∧
      s'.nodes = s.nodes ∧ s'.cells = s.cells ∧ s'.bst_heads = s.bst_heads ∧
      s'.low_key = s.low_key ∧ s'.new_key = s.new_key ∧
      s'.cur_values.length = s.cur_values.length ∧
      (∀ q, q ≠ p → s'.cur_values[q]? = s.cur_values[q]?) ∧
      s'.cur_values[p]? = some none := by
  obtain ⟨st0, hst0⟩ := hcb.1 st key p
  obtain ⟨f, rfl⟩ : ∃ f, fuel = f + 1 := ⟨fuel - 1, by omega⟩
  have hpn : p < s.new_key.length := lt_of_get h1
  obtain ⟨st', s', he, e1, e2, e3, e4, e5, e6, e7, e8⟩ :=
    run_reducer_rest cb hcb key p vs (f + 1) st0
      { s with new_key := s.new_key.set p 0, cur_values := s.cur_values.set p n.v_head }
      (List.getElem?_set_self hpn) (by rw [hv]; exact List.getElem?_set_self hcl) hvl hf
  refine ⟨st', s', ?_, e1, e2, e3, e4, ?_, ?_, ?_, e8⟩
  · rw [hst0, run_reducer, get_next_value_new s key p d n h1 hlk hn hcl]
    rw [run_reducer] at he
    exact he
  · rw [e5]
    show (s.new_key.set p 0).set p 1 = _
    rw [List.set_set]
    exact set_same h1
  · rw [e6]; simp
  · intro q hq
    rw [e7 q hq]
    show (s.cur_values.set p _)[q]? = _
    rw [List.getElem?_set_ne (fun e => hq e.symm)]

/-! ## Draining a partition -/

theorem Shape.delMin_facts (t : Shape) (d : Nat) (hne : t ≠ .nil) (hd : t.minAddr = some d)
    (hnd : t.addrs.Nodup) (hcnd : t.cellAddrs.Nodup) :
    t.addrs = d :: t.delMin.addrs ∧ t.delMin.addrs.Nodup ∧ d ∉ t.delMin.addrs ∧
    t.delMin.cellAddrs.Nodup ∧ (t.minCells.map Prod.fst).Nodup ∧
    (∀ c, c ∈ t.minCells.map Prod.fst → c ∉ t.delMin.cellAddrs) ∧
    t.size = t.delMin.size + 1 := by
  obtain ⟨d', hd', haddrs⟩ := Shape.addrs_delMin t hne
  rw [hd] at hd'
  simp only [Option.some.injEq] at hd'
  subst hd'
  have hc := Shape.cellAddrs_delMin t
  rw [haddrs] at hnd
  rw [hc] at hcnd
  exact ⟨haddrs, (List.nodup_cons.1 hnd).2, (List.nodup_cons.1 hnd).1,
    (List.nodup_append.1 hcnd).2.1, (List.nodup_append.1 hcnd).1,
    fun c h1 h2 => (List.nodup_append.1 hcnd).2.2 h1 h2, Shape.size_delMin t hne⟩

theorem drain_active (p : Nat) :
    ∀ (fuel : Nat) (t : Shape) (s : MR) (d : Nat), t.size ≤ fuel → t ≠ .nil →
      t.minAddr = some d → s.low_key[p]? = some (some d) → s.bst_heads[p]? = some t.root →
      Rep s.nodes s.cells none t → t.addrs.Nodup → t.cellAddrs.Nodup →
      ∃ s', drain_loop p fuel s = .ok (t.delMin.keys, s')
  | 0, t, _, _, hf, hne, _, _, _, _, _, _ => by
    have := Shape.size_delMin t hne
    omega
  | fuel + 1, t, s, d, hf, hne, hd, hlk, hhd, hrep, hnd, hcnd => by
    obtain ⟨s1, he, hR, e1, e2, _, _, _, _, _, _, _, _⟩ :=
      get_low_key_next s p t d hne hd hlk hhd hrep hnd hcnd
    obtain ⟨_, hnd', _, hcnd', _, _, hsz⟩ := Shape.delMin_facts t d hne hd hnd hcnd
    rw [drain_loop, he]
    simp only [bind, Except.bind]
    by_cases hnil : t.delMin = .nil
    · rw [hnil]
      exact ⟨s1, rfl⟩
    · obtain ⟨d', hd', _⟩ := Shape.addrs_delMin _ hnil
      rw [if_neg hnil, hd'] at e2
      obtain ⟨s', he'⟩ := drain_active p fuel t.delMin s1 d' (by omega) hnil hd'
        (by rw [e2]; exact List.getElem?_set_self (lt_of_get hlk))
        (by rw [e1]; exact List.getElem?_set_self (lt_of_get hhd)) hR hnd' hcnd'
      refine ⟨s', ?_⟩
      rw [Shape.head_keys _ hnil]
      simp only []
      rw [he']
      simp only []
      rw [Shape.keys_delMin _ hnil]
      rfl

theorem drain_fresh (p : Nat) (fuel : Nat) (t : Shape) (s : MR) (hf : t.size < fuel)
    (hlk : s.low_key[p]? = some none) (hhd : s.bst_heads[p]? = some t.root)
    (hrep : Rep s.nodes s.cells none t) (hnd : t.addrs.Nodup) (hcnd : t.cellAddrs.Nodup) :
    ∃ s', drain_loop p fuel s = .ok (t.keys, s') := by
  obtain ⟨f, rfl⟩ : ∃ f, fuel = f + 1 := ⟨fuel - 1, by omega⟩
  by_cases hnil : t = .nil
  · subst hnil
    refine ⟨s, ?_⟩
    rw [drain_loop, get_low_key_empty s p hlk hhd]
    rfl
  · obtain ⟨d, hd, _⟩ := Shape.addrs_delMin _ hnil
    obtain ⟨s', he'⟩ := drain_active p f t { s with low_key := s.low_key.set p t.minAddr } d
      (by omega) hnil hd
      (by show (s.low_key.set p _)[p]? = _
          rw [List.getElem?_set_self (lt_of_get hlk), hd])
      hhd hrep hnd hcnd
    refine ⟨s', ?_⟩
    rw [drain_loop, get_low_key_first s p t hnil hlk hhd hrep hnd]
    simp only [bind, Except.bind]
    rw [he']
    simp only []
    rw [Shape.keys_delMin _ hnil]
    rfl

theorem trace_of_cons (e : Nat × Str × List (Nat × Str))
    (rest : List (Nat × Str × List (Nat × Str))) :
    trace_of (e :: rest) = Event.key e.2.1 :: (e.2.2.map (fun c => Event.value c.2) ++
      [Event.endOfValues, Event.destroyed e.1]) ++ trace_of rest := by
  simp [trace_of]

theorem minCells_length_le {nodes : List (Option bst_node)} {cells : List (Option v_node)}
    (t : Shape) (par : Option Nat) (hne : t ≠ .nil) (hrep : Rep nodes cells par t)
    (hcnd : t.cellAddrs.Nodup) : t.minCells.length ≤ cells.length := by
  obtain ⟨_, _, _, hvl, _⟩ := Rep_min t par hne hrep
  have hc := Shape.cellAddrs_delMin t
  rw [hc] at hcnd
  have := length_le_of_nodup_lt (List.nodup_append.1 hcnd).1 (VList_lt _ hvl)
  simpa using this

/-- The reduce loop started after the callback finished the leftmost key of `t`. -/
theorem reduce_active {σ : Type} (cb : Reducer σ) (hcb : PullsToEnd cb) (cbFuel : Nat)
    (p : Nat) :
    ∀ (fuel : Nat) (t : Shape) (s : MR) (d : Nat) (st : σ), t.size ≤ fuel → t ≠ .nil →
      t.minAddr = some d → s.low_key[p]? = some (some d) → s.bst_heads[p]? = some t.root →
      Rep s.nodes s.cells none t → t.addrs.Nodup → t.cellAddrs.Nodup →
      s.new_key[p]? = some 1 → p < s.cur_values.length → s.cells.length + 2 ≤ cbFuel →
      ∃ st' s', reduce_loop cb cbFuel p fuel st s =
          .ok (st', s', Event.destroyed d :: trace_of t.delMin.dump) ∧
        (∀ a ∈ t.addrs, s'.nodes[a]? = some none) ∧
        (∀ x, x ∉ t.addrs → s'.nodes[x]? = s.nodes[x]?) ∧
        (∀ c ∈ t.cellAddrs, s'.cells[c]? = some none) ∧
        (∀ c, c ∉ t.cellAddrs → s'.cells[c]? = s.cells[c]?) ∧
        s'.bst_heads = s.bst_heads.set p none ∧
        (∀ q, q ≠ p → s'.low_key[q]? = s.low_key[q]?) ∧
        (∀ q, q ≠ p → s'.cur_values[q]? = s.cur_values[q]?) ∧
        s'.new_key = s.new_key
  | 0, t, _, _, _, hf, hne, _, _, _, _, _, _, _, _, _ => by
    have := Shape.size_delMin t hne
    omega
  | fuel + 1, t, s, d, st, hf, hne, hd, hlk, hhd, hrep, hnd, hcnd, hnk, hcv, hcf => by
    obtain ⟨s1, he, hR, e1, e2, e3, e4, n1, n2, n3, c1, c2, c3⟩ :=
      get_low_key_next s p t d hne hd hlk hhd hrep hnd hcnd
    obtain ⟨haddrs, hnd', hdn, hcnd', hmcn, hmcd, hsz⟩ :=
      Shape.delMin_facts t d hne hd hnd hcnd
    have hcaddrs := Shape.cellAddrs_delMin t
    rw [reduce_loop, rd_ok hlk]
    simp only [bind, Except.bind]
    rw [he]
    simp only [released]
    by_cases hnil : t.delMin = .nil
    · rw [hnil]
      rw [hnil] at e1
      refine ⟨st, s1, rfl, ?_, n3, ?_, ?_, e1, ?_, ?_, e4⟩
      · intro a ha
        rw [haddrs, hnil] at ha
        simp only [Shape.addrs, List.mem_singleton] at ha
        subst ha
        exact n2
      · intro c hc
        rw [hcaddrs, hnil] at hc
        simp only [Shape.cellAddrs, List.append_nil] at hc
        exact c2 c hc
      · intro c hc
        rw [hcaddrs, hnil] at hc
        simp only [Shape.cellAddrs, List.append_nil] at hc
        exact c3 c hc
      · intro q hq
        rw [e2, List.getElem?_set_ne (fun e => hq e.symm)]
      · intro q _
        rw [e3]
    · obtain ⟨d', hd', hnode, hvl, _⟩ := Rep_min _ none hnil hR
      rw [if_neg hnil, hd'] at e2
      have hlk1 : s1.low_key[p]? = some (some d') := by
        rw [e2]; exact List.getElem?_set_self (lt_of_get hlk)
      have hhd1 : s1.bst_heads[p]? = some t.delMin.root := by
        rw [e1]; exact List.getElem?_set_self (lt_of_get hhd)
      have hmc := minCells_length_le _ none hnil hR hcnd'
      obtain ⟨st1, s2, her, r1, r2, r3, r4, r5, r6, r7, _⟩ :=
        run_reducer_key cb hcb t.delMin.minKey p d' _ t.delMin.minCells cbFuel st s1
          (by rw [e4]; exact hnk) hlk1 hnode rfl hvl (by rw [e3]; exact hcv) (by omega)
      obtain ⟨st', s', hel, p1, p2, p3, p4, p5, p6, p7, p8⟩ :=
        reduce_active cb hcb cbFuel p fuel t.delMin s2 d' st1 (by omega) hnil hd'
          (by rw [r4]; exact hlk1) (by rw [r3]; exact hhd1) (by rw [r1, r2]; exact hR)
          hnd' hcnd' (by rw [r5, e4]; exact hnk) (by rw [r6, e3]; exact hcv)
          (by rw [r2, c1]; exact hcf)
      refine ⟨st', s', ?_, ?_, ?_, ?_, ?_, ?_, ?_, ?_, ?_⟩
      · rw [Shape.head_keys _ hnil]
        simp only []
        rw [her]
        simp only []
        rw [hel]
        simp only [pure, Except.pure]
        rw [Shape.dump_delMin _ d' hd', trace_of_cons]
        simp
      · intro a ha
        rw [haddrs] at ha
        rcases List.mem_cons.1 ha with rfl | ha
        · rw [p2 a hdn, r1]; exact n2
        · exact p1 a ha
      · intro x hx
        rw [haddrs] at hx
        simp only [List.mem_cons, not_or] at hx
        rw [p2 x hx.2, r1]
        exact n3 x (by rw [haddrs]; simp only [List.mem_cons, not_or]; exact hx)
      · intro c hc
        rw [hcaddrs] at hc
        rcases List.mem_append.1 hc with hc | hc
        · rw [p4 c (hmcd c hc), r2]; exact c2 c hc
        · exact p3 c hc
      · intro c hc
        rw [hcaddrs] at hc
        simp only [List.mem_append, not_or] at hc
        rw [p4 c hc.2, r2]
        exact c3 c hc.1
      · rw [p5, r3, e1, List.set_set]
      · intro q hq
        rw [p6 q hq, r4, e2, List.getElem?_set_ne (fun e => hq e.symm)]
      · intro q hq
        rw [p7 q hq, r7 q hq, e3]
      · rw [p8, r5, e4]

/-- The reduce loop on a partition that has not been drained yet. -/
theorem reduce_fresh {σ : Type} (cb : Reducer σ) (hcb : PullsToEnd cb) (cbFuel : Nat)
    (p : Nat) (fuel : Nat) (t : Shape) (s : MR) (st : σ) (hf : t.size < fuel)
    (hlk : s.low_key[p]? = some none) (hhd : s.bst_heads[p]? = some t.root)
    (hrep : Rep s.nodes s.cells none t) (hnd : t.addrs.Nodup) (hcnd : t.cellAddrs.Nodup)
    (hnk : s.new_key[p]? = some 1) (hcv : p < s.cur_values.length)
    (hcf : s.cells.length + 2 ≤ cbFuel) :
    ∃ st' s', reduce_loop cb cbFuel p fuel st s = .ok (st', s', trace_of t.dump) ∧
      (∀ a ∈ t.addrs, s'.nodes[a]? = some none) ∧
      (∀ x, x ∉ t.addrs → s'.nodes[x]? = s.nodes[x]?) ∧
      (∀ c ∈ t.cellAddrs, s'.cells[c]? = some none) ∧
      (∀ c, c ∉ t.cellAddrs → s'.cells[c]? = s.cells[c]?) ∧
      s'.bst_heads = s.bst_heads.set p none ∧
      (∀ q, q ≠ p → s'.low_key[q]? = s.low_key[q]?) ∧
      (∀ q, q ≠ p → s'.cur_values[q]? = s.cur_values[q]?) ∧
      s'.new_key = s.new_key := by
  obtain ⟨f, rfl⟩ : ∃ f, fuel = f + 1 := ⟨fuel - 1, by omega⟩
  by_cases hnil : t = .nil
  · subst hnil
    refine ⟨st, s, ?_, ?_, fun _ _ => rfl, ?_, fun _ _ => rfl, ?_, fun _ _ => rfl,
      fun _ _ => rfl, rfl⟩
    · rw [reduce_loop, rd_ok hlk]
      simp only [bind, Except.bind]
      rw [get_low_key_empty s p hlk hhd]
      rfl
    · intro a ha; simp [Shape.addrs] at ha
    · intro c hc; simp [Shape.cellAddrs] at hc
    · exact (set_same hhd).symm
  · obtain ⟨d, hd, hnode, hvl, _⟩ := Rep_min _ none hnil hrep
    have hmc := minCells_length_le _ none hnil hrep hcnd
    have hpl : p < s.low_key.length := lt_of_get hlk
    let s1 : MR := { s with low_key := s.low_key.set p t.minAddr }
    have hlk1 : s1.low_key[p]? = some (some d) := by
      show (s.low_key.set p _)[p]? = _
      rw [List.getElem?_set_self hpl, hd]
    obtain ⟨st1, s2, her, r1, r2, r3, r4, r5, r6, r7, _⟩ :=
      run_reducer_key cb hcb t.minKey p d _ t.minCells cbFuel st s1 hnk hlk1 hnode rfl hvl hcv
        (by omega)
    obtain ⟨st', s', hel, p1, p2, p3, p4, p5, p6, p7, p8⟩ :=
      reduce_active cb hcb cbFuel p f t s2 d st1 (by omega) hnil hd
        (by rw [r4]; exact hlk1) (by rw [r3]; exact hhd) (by rw [r1, r2]; exact hrep)
        hnd hcnd (by rw [r5]; exact hnk) (by rw [r6]; exact hcv) (by rw [r2]; exact hcf)
    refine ⟨st', s', ?_, p1, ?_, p3, ?_, ?_, ?_, ?_, ?_⟩
    · rw [reduce_loop, rd_ok hlk]
      simp only [bind, Except.bind]
      rw [get_low_key_first s p t hnil hlk hhd hrep hnd]
      simp only [released]
      rw [her]
      simp only []
      rw [hel]
      simp only [pure, Except.pure]
      rw [Shape.dump_delMin _ d hd, trace_of_cons]
      simp
    · intro x hx
      rw [p2 x hx, r1]
    · intro c hc
      rw [p4 c hc, r2]
    · rw [p5, r3]
    · intro q hq
      rw [p6 q hq, r4]
      show (s.low_key.set p _)[q]? = _
      rw [List.getElem?_set_ne (fun e => hq e.symm)]
    · intro q hq
      rw [p7 q hq, r7 q hq]
    · rw [p8, r5]

/-! ## A sequence of emits -/

theorem emitted_cons (p : Nat) (k v : Str) (es : List (Nat × Str × Str)) (i : Nat) (k' : Str) :
    emitted ((p, k, v) :: es) i k' =
      if p = i ∧ k = k' then v :: emitted es i k' else emitted es i k' := by
  unfold emitted
  by_cases h : p = i ∧ k = k'
  · simp [List.filter_cons, h]
  · simp [List.filter_cons, h]

theorem add_all_spec (N : Nat) :
    ∀ (es : List (Nat × Str × Str)) (s : MR) (T : Nat → Shape), Inv s N T →
      (∀ e ∈ es, e.1 < N) →
      ∃ s' T', add_all s es = .ok s' ∧ Inv s' N T' ∧
        (∀ i, i < N → ∀ k, k ∈ (T' i).keys ↔ k ∈ (T i).keys ∨ ∃ v, (i, k, v) ∈ es) ∧
        (∀ i, i < N → ∀ k, (T' i).vals k = (emitted es i k).reverse ++ (T i).vals k) ∧
        s'.cells.length = s.cells.length + es.length
  | [], s, T, hinv, _ =>
    ⟨s, T, rfl, hinv, fun i _ k => by simp, fun i _ k => by simp [emitted], rfl⟩
  | (p, k, v) :: es, s, T, hinv, hes => by
    have hp : p < N := hes (p, k, v) (List.mem_cons_self _ _)
    obtain ⟨s1, he1, hinv1, _, _, hcl, _⟩ := add_to_tree_spec s N T p k v hinv hp
    obtain ⟨s', T', he, hinv', hk, hv, hl⟩ := add_all_spec N es s1 _ hinv1
      (fun e he => hes e (List.mem_cons_of_mem _ he))
    refine ⟨s', T', ?_, hinv', ?_, ?_, by rw [hl, hcl]; simp; omega⟩
    · rw [add_all, he1]
      exact he
    · intro i hi x
      rw [hk i hi x]
      by_cases e : i = p
      · subst e
        rw [Function.update_same, Shape.mem_keys_insert]
        constructor
        · rintro ((rfl | h) | ⟨w, hw⟩)
          · exact Or.inr ⟨v, List.mem_cons_self _ _⟩
          · exact Or.inl h
          · exact Or.inr ⟨w, List.mem_cons_of_mem _ hw⟩
        · rintro (h | ⟨w, hw⟩)
          · exact Or.inl (Or.inr h)
          · rcases List.mem_cons.1 hw with e | hw
            · simp only [Prod.mk.injEq, true_and] at e
              exact Or.inl (Or.inl e.1)
            · exact Or.inr ⟨w, hw⟩
      · rw [Function.update_noteq e]
        constructor
        · rintro (h | ⟨w, hw⟩)
          · exact Or.inl h
          · exact Or.inr ⟨w, List.mem_cons_of_mem _ hw⟩
        · rintro (h | ⟨w, hw⟩)
          · exact Or.inl h
          · rcases List.mem_cons.1 hw with e' | hw
            · simp only [Prod.mk.injEq] at e'
              exact absurd e'.1 e
            · exact Or.inr ⟨w, hw⟩
    · intro i hi x
      rw [hv i hi x, emitted_cons]
      by_cases e : i = p
      · subst e
        rw [Function.update_same, Shape.vals_insert _ _ _ _ _ _ (hinv.ordered i hi)]
        by_cases hx : x = k
        · subst hx
          simp
        · have : ¬ k = x := fun e => hx e.symm
          simp [hx, this]
      · rw [Function.update_noteq e]
        have : ¬ p = i := fun e' => e e'.symm
        simp [this]

theorem replicate_get {α : Type} (N p : Nat) (x : α) (hp : p < N) :
    (List.replicate N x)[p]? = some x := by
  simp [List.getElem?_replicate, hp]

theorem Shape.keys_eq_nil : ∀ (t : Shape), t.keys = [] → t = .nil
  | .nil, _ => rfl
  | .node a l k vs r, h => by simp [Shape.keys] at h

/-- The result of a build: the state after a sequence of emits with its trees. -/
theorem build_spec (N : Nat) (es : List (Nat × Str × Str)) (hes : ∀ e ∈ es, e.1 < N) :
    ∃ s T, add_all (initState N) es = .ok s ∧ Inv s N T ∧
      (∀ i, i < N → ∀ k, k ∈ (T i).keys ↔ ∃ v, (i, k, v) ∈ es) ∧
      (∀ i, i < N → ∀ k, (T i).vals k = (emitted es i k).reverse) ∧
      s.cells.length = es.length := by
  obtain ⟨s, T, he, hinv, hk, hv, hl⟩ := add_all_spec N es (initState N) _ (Inv_init N) hes
  refine ⟨s, T, he, hinv, ?_, ?_, ?_⟩
  · intro i hi k
    rw [hk i hi k]
    simp [Shape.keys]
  · intro i hi k
    rw [hv i hi k]
    simp [Shape.vals]
  · rw [hl]; simp [initState]

/-- C1: for every partition and every sequence of `add_to_tree` calls from the empty
state, calling `get_low_key` until it reports empty returns a result, the keys handed
out are strictly increasing in `strcmp` order, which is the lexicographic order of the
byte values, none occurs twice, and they are exactly the keys emitted to that partition;
a partition without emits reports empty on the first call. -/
theorem drain_keys_sorted_distinct (N : Nat) (es : List (Nat × Str × Str)) (p : Nat)
    (hp : p < N) (hes : ∀ e ∈ es, e.1 < N) :
    ∃ s ks s', add_all (initState N) es = .ok s ∧ drain_keys s p = .ok (ks, s') ∧
      ks.Pairwise (fun a b => strcmp a b < 0) ∧
      ks.Pairwise (fun a b => List.Lex (fun x y => x < y) a b) ∧ ks.Nodup ∧
      (∀ k, k ∈ ks ↔ ∃ v, (p, k, v) ∈ es) ∧
      ((∀ e ∈ es, e.1 ≠ p) → get_low_key s p = .ok (none, s)) := by
  obtain ⟨s, T, he, hinv, hk, _, _⟩ := build_spec N es hes
  have hlk : s.low_key[p]? = some none := by rw [hinv.low]; exact replicate_get N p none hp
  have hsorted := Shape.keys_sorted (T p) (hinv.ordered p hp)
  obtain ⟨s', hd⟩ := drain_fresh p (s.nodes.length + 1) (T p) s
    (Nat.lt_succ_of_le (Rep_size_le _ _ (hinv.rep p hp) (hinv.nodup p hp)))
    hlk (hinv.heads p hp) (hinv.rep p hp) (hinv.nodup p hp) (hinv.cnodup p hp)
  refine ⟨s, (T p).keys, s', he, hd, hsorted,
    hsorted.imp (fun h => (strcmp_neg_iff_lex _ _).1 h), ?_, hk p hp, ?_⟩
  · refine hsorted.imp ?_
    intro a b hab e
    rw [e, strcmp_self] at hab
    omega
  · intro hno
    have hnil : T p = .nil := by
      apply Shape.keys_eq_nil
      apply List.eq_nil_iff_forall_not_mem.2
      intro k hkm
      obtain ⟨v, hv⟩ := (hk p hp k).1 hkm
      exact hno _ hv rfl
    have hhd := hinv.heads p hp
    rw [hnil] at hhd
    exact get_low_key_empty s p hlk hhd

/-- C1 at a concrete input: two partitions, five emits, drain of partition 0. -/
theorem drain_keys_sorted_distinct_witness :
    (0 < 2) ∧ (∀ e ∈ [(0, [98], [1]), (1, [120], [2]), (0, [97], [3]), (0, [98], [4]),
        (0, [97, 97], [5])], e.1 < 2) ∧
    Except.bind (add_all (initState 2) [(0, [98], [1]), (1, [120], [2]), (0, [97], [3]),
        (0, [98], [4]), (0, [97, 97], [5])])
      (fun s => Except.map (fun r => r.1) (drain_keys s 0)) = .ok [[97], [97, 97], [98]] ∧
    ∃ s ks s', add_all (initState 2) [(0, [98], [1]), (1, [120], [2]), (0, [97], [3]),
        (0, [98], [4]), (0, [97, 97], [5])] = .ok s ∧ drain_keys s 0 = .ok (ks, s') ∧
      ks.Pairwise (fun a b => strcmp a b < 0) ∧
      ks.Pairwise (fun a b => List.Lex (fun x y => x < y) a b) ∧ ks.Nodup ∧
      (∀ k, k ∈ ks ↔ ∃ v, ((0 : Nat), k, v) ∈ [(0, [98], [1]), (1, [120], [2]), (0, [97], [3]),
        (0, [98], [4]), (0, [97, 97], [5])]) ∧
      ((∀ e ∈ [(0, [98], [1]), (1, [120], [2]), (0, [97], [3]), (0, [98], [4]),
        (0, [97, 97], [5])], e.1 ≠ 0) → get_low_key s 0 = .ok (none, s)) :=
  ⟨by decide, by decide, rfl, drain_keys_sorted_distinct 2 _ 0 (by decide) (by decide)⟩

/-! ## The shape of a drain trace -/

theorem trace_of_nil : trace_of [] = [] := rfl

theorem trace_of_append (l1 l2 : List (Nat × Str × List (Nat × Str))) :
    trace_of (l1 ++ l2) = trace_of l1 ++ trace_of l2 := by
  simp [trace_of]

/-- The events of one key node after the key event: its values, the end-of-values
answer and its release. -/
theorem entry_events_no_key (k : Str) (vs : List (Nat × Str)) (a : Nat) :
    ∀ x ∈ vs.map (fun c => Event.value c.2) ++ [Event.endOfValues, Event.destroyed a],
      x ≠ Event.key k := by
  intro x hx e
  subst e
  simp at hx

theorem split_no_key (k : Str) :
    ∀ (A pre rest B : List Event), (∀ x ∈ A, x ≠ Event.key k) →
      pre ++ Event.key k :: rest = A ++ B →
      ∃ pre', pre = A ++ pre' ∧ pre' ++ Event.key k :: rest = B
  | [], pre, rest, B, _, h => ⟨pre, rfl, h⟩
  | a0 :: A, [], rest, B, hA, h => by
    simp only [List.nil_append, List.cons_append, List.cons.injEq] at h
    exact absurd h.1.symm (hA a0 (List.mem_cons_self _ _))
  | a0 :: A, x :: pre, rest, B, hA, h => by
    simp only [List.cons_append, List.cons.injEq] at h
    obtain ⟨pre', h1, h2⟩ := split_no_key k A pre rest B
      (fun y hy => hA y (List.mem_cons_of_mem _ hy)) h.2
    exact ⟨pre', by rw [h.1, h1]; rfl, h2⟩

/-- Every hand-out of a key in a drain trace starts the events of a key node of the
store with that key. -/
theorem trace_of_key_split (k : Str) :
    ∀ (st : List (Nat × Str × List (Nat × Str))) (pre rest : List Event),
      trace_of st = pre ++ Event.key k :: rest →
      ∃ l1 a vs l2, st = l1 ++ (a, k, vs) :: l2 ∧ pre = trace_of l1 ∧
        rest = vs.map (fun c => Event.value c.2) ++
          [Event.endOfValues, Event.destroyed a] ++ trace_of l2
  | [], pre, rest, h => by
    rw [trace_of_nil] at h
    cases pre <;> simp at h
  | (a0, k0, vs0) :: l, [], rest, h => by
    rw [trace_of_cons] at h
    simp only [List.nil_append, List.cons_append, List.cons.injEq, Event.key.injEq] at h
    obtain ⟨hk, hr⟩ := h
    subst hk
    exact ⟨[], a0, vs0, l, rfl, rfl, hr.symm⟩
  | (a0, k0, vs0) :: l, x :: pre, rest, h => by
    rw [trace_of_cons] at h
    simp only [List.cons_append, List.cons.injEq] at h
    obtain ⟨hx, hr⟩ := h
    obtain ⟨pre', h1, h2⟩ := split_no_key k _ pre rest _ (entry_events_no_key k vs0 a0) hr.symm
    obtain ⟨l1, a, vs, l2, e1, e2, e3⟩ := trace_of_key_split k l pre' rest h2.symm
    refine ⟨(a0, k0, vs0) :: l1, a, vs, l2, by rw [e1]; rfl, ?_, e3⟩
    rw [trace_of_cons, ← hx, h1, e2]
    simp

theorem Shape.dump_entries (t : Shape) :
    t.dump.map (fun e => (e.2.1, e.2.2.map Prod.snd)) = t.entries := by
  induction t with
  | nil => rfl
  | node a l k vs r ihl ihr => simp [Shape.dump, Shape.entries, ihl, ihr]

theorem Shape.vals_of_mem_dump (t : Shape) (ho : t.Ordered) (a : Nat) (k : Str)
    (vs : List (Nat × Str)) (h : (a, k, vs) ∈ t.dump) : t.vals k = vs.map Prod.snd := by
  apply Shape.vals_of_mem_entries k _ t ho
  rw [← Shape.dump_entries]
  exact List.mem_map.2 ⟨_, h, rfl⟩

/-- The run of `reduce_thread` on a partition of a built state. -/
theorem reduce_thread_spec {σ : Type} (cb : Reducer σ) (hcb : PullsToEnd cb) (st : σ)
    (N : Nat) (s : MR) (T : Nat → Shape) (hinv : Inv s N T) (p : Nat) (hp : p < N)
    (cbFuel : Nat) (hcf : s.cells.length + 2 ≤ cbFuel) :
    ∃ st' s', reduce_thread cb cbFuel st s p = .ok (st', s', trace_of (T p).dump) ∧
      (∀ a ∈ (T p).addrs, s'.nodes[a]? = some none) ∧
      (∀ x, x ∉ (T p).addrs → s'.nodes[x]? = s.nodes[x]?) ∧
      (∀ c ∈ (T p).cellAddrs, s'.cells[c]? = some none) ∧
      (∀ c, c ∉ (T p).cellAddrs → s'.cells[c]? = s.cells[c]?) ∧
      s'.bst_heads = s.bst_heads.set p none ∧
      (∀ q, q ≠ p → s'.low_key[q]? = s.low_key[q]?) ∧
      (∀ q, q ≠ p → s'.cur_values[q]? = s.cur_values[q]?) ∧
      s'.new_key = s.new_key := by
  unfold reduce_thread
  exact reduce_fresh cb hcb cbFuel p _ (T p) s st
    (Nat.lt_succ_of_le (Rep_size_le _ _ (hinv.rep p hp) (hinv.nodup p hp)))
    (by rw [hinv.low]; exact replicate_get N p none hp) (hinv.heads p hp) (hinv.rep p hp)
    (hinv.nodup p hp) (hinv.cnodup p hp)
    (by rw [hinv.flags]; exact replicate_get N p 1 hp)
    (by rw [hinv.cur]; simpa using hp) hcf

theorem wc_reduce_pulls : PullsToEnd wc_reduce := by
  refine ⟨fun st k p => ⟨_, rfl⟩, fun st v => ?_, fun st => ⟨st, rfl⟩⟩
  cases st with
  | nil => exact ⟨_, rfl⟩
  | cons e rest => exact ⟨_, rfl⟩

/-- C2: in the run of `reduce_thread` on a partition built by any sequence of emits,
with a callback that pulls values to the end, a key `k` emitted to the partition is
handed to the callback, and whenever it is, the answers of `get_next_value` that
follow are the values emitted under `k` in reverse emission order and then
end-of-values. -/
theorem values_in_reverse_emission_order {σ : Type} (cb : Reducer σ) (hcb : PullsToEnd cb)
    (st : σ) (N : Nat) (es : List (Nat × Str × Str)) (p : Nat) (hp : p < N)
    (hes : ∀ e ∈ es, e.1 < N) (cbFuel : Nat) (hcf : es.length + 2 ≤ cbFuel) (k : Str)
    (hk : ∃ v, (p, k, v) ∈ es) :
    ∃ s st' s' tr, add_all (initState N) es = .ok s ∧
      reduce_thread cb cbFuel st s p = .ok (st', s', tr) ∧
      (∃ pre post, tr = pre ++ Event.key k :: post) ∧
      (∀ pre post, tr = pre ++ Event.key k :: post →
        ∃ post', post = (emitted es p k).reverse.map Event.value ++
          Event.endOfValues :: post') := by
  obtain ⟨s, T, he, hinv, hkeys, hvals, hlen⟩ := build_spec N es hes
  obtain ⟨st', s', hr, _⟩ := reduce_thread_spec cb hcb st N s T hinv p hp cbFuel
    (by rw [hlen]; exact hcf)
  refine ⟨s, st', s', _, he, hr, ?_, ?_⟩
  · have hmem : k ∈ (T p).keys := (hkeys p hp k).2 hk
    rw [← Shape.dump_keys] at hmem
    obtain ⟨e, hem, hek⟩ := List.mem_map.1 hmem
    obtain ⟨l1, l2, hsplit⟩ := List.append_of_mem hem
    refine ⟨trace_of l1, e.2.2.map (fun c => Event.value c.2) ++
      [Event.endOfValues, Event.destroyed e.1] ++ trace_of l2, ?_⟩
    rw [hsplit, trace_of_append, trace_of_cons, hek]
    simp
  · intro pre post htr
    obtain ⟨l1, a, vs, l2, e1, _, e3⟩ := trace_of_key_split k _ pre post htr
    have hmem : (a, k, vs) ∈ (T p).dump := by rw [e1]; simp
    have hv := Shape.vals_of_mem_dump (T p) (hinv.ordered p hp) a k vs hmem
    rw [hvals p hp k] at hv
    refine ⟨Event.destroyed a :: trace_of l2, ?_⟩
    rw [e3, hv]
    simp

/-- C2 at a concrete input: the key `a` emitted with the values `1`, `2`, `3` (another
key in between) yields `3`, `2`, `1` and then end-of-values. -/
theorem values_in_reverse_emission_order_witness :
    PullsToEnd wc_reduce ∧ (0 < 1) ∧
    (∀ e ∈ [(0, [97], [49]), (0, [98], [55]), (0, [97], [50]), (0, [97], [51])], e.1 < 1) ∧
    (4 + 2 ≤ 6) ∧ (∃ v, ((0 : Nat), [97], v) ∈
      [(0, [97], [49]), (0, [98], [55]), (0, [97], [50]), (0, [97], [51])]) ∧
    Except.bind (add_all (initState 1)
        [(0, [97], [49]), (0, [98], [55]), (0, [97], [50]), (0, [97], [51])])
      (fun s => Except.map (fun r => r.2.2) (reduce_thread wc_reduce 6 [] s 0)) =
      .ok [Event.key [97], .value [51], .value [50], .value [49],
        .endOfValues, .destroyed 0, .key [98], .value [55], .endOfValues, .destroyed 1] ∧
    ∃ s st' s' tr, add_all (initState 1)
        [(0, [97], [49]), (0, [98], [55]), (0, [97], [50]), (0, [97], [51])] = .ok s ∧
      reduce_thread wc_reduce 6 [] s 0 = .ok (st', s', tr) ∧
      (∃ pre post, tr = pre ++ Event.key [97] :: post) ∧
      (∀ pre post, tr = pre ++ Event.key [97] :: post →
        ∃ post', post = (emitted [(0, [97], [49]), (0, [98], [55]), (0, [97], [50]),
          (0, [97], [51])] 0 [97]).reverse.map Event.value ++ Event.endOfValues :: post') :=
  ⟨wc_reduce_pulls, by decide, by decide, by decide, ⟨[49], by decide⟩, rfl,
    values_in_reverse_emission_order wc_reduce wc_reduce_pulls [] 1 _ 0 (by decide) (by decide)
      6 (by decide) [97] ⟨[49], by decide⟩⟩

/-! ## The default partitioner -/

theorem hash_loop_eq_foldl (cs : Bool) :
    ∀ (key : Str) (h : Int),
      hash_loop cs h key = key.foldl (fun h b => (h * 33 + charToInt cs b) % 2 ^ 64) h
  | [], _ => rfl
  | b :: key, h => by
    rw [hash_loop, List.foldl_cons]
    exact hash_loop_eq_foldl cs key _

theorem default_partition_ok (cs : Bool) (key : Str) (n : Int) (hpos : 0 < n)
    (hint : n ≤ 2147483647) :
    MR_DefaultHashPartition cs key n = .ok (hash_loop cs 5381 key % n) ∧
      0 ≤ hash_loop cs 5381 key % n ∧ hash_loop cs 5381 key % n < n := by
  have hn : n % 2 ^ 64 = n := Int.emod_eq_of_lt (by omega) (by norm_num; omega)
  refine ⟨?_, Int.emod_nonneg _ (by omega), Int.emod_lt_of_pos _ hpos⟩
  unfold MR_DefaultHashPartition
  simp only [hn]
  rw [if_neg (by omega)]

theorem default_partition_nat (cs : Bool) (key : Str) (N : Nat) (hpos : 0 < N)
    (hint : (N : Int) < 2 ^ 31) :
    MR_DefaultHashPartition cs key (N : Int) =
        .ok (((hash_loop cs 5381 key % (N : Int)).toNat : Nat) : Int) ∧
      (hash_loop cs 5381 key % (N : Int)).toNat < N := by
  obtain ⟨h1, h2, h3⟩ := default_partition_ok cs key (N : Int) (by omega)
    (by norm_num at hint; omega)
  refine ⟨?_, by omega⟩
  rw [h1, Int.toNat_of_nonneg h2]

/-! ## Emits through `MR_Emit`, values recovered from a trace -/

theorem toCInt_of_lt (i N : Nat) (hi : i < N) (hN : (N : Int) < 2 ^ 31) :
    toCInt (i : Int) = (i : Int) := by
  unfold toCInt
  norm_num at hN ⊢
  omega

theorem MR_Emit_eq_add_to_tree (parter : Partitioner) (N : Nat) (hN : (N : Int) < 2 ^ 31)
    (s : MR) (k v : Str) (i : Nat) (hpart : parter k N = .ok (i : Int)) (hi : i < N) :
    MR_Emit parter N s (some k) (some v) = add_to_tree s i k v := by
  unfold MR_Emit
  simp only [bind, Except.bind]
  rw [hpart]
  simp only []
  rw [toCInt_of_lt i N hi hN]
  rw [if_neg (by omega)]
  simp

theorem emit_all_eq_add_all (parter : Partitioner) (N : Nat) (hN : (N : Int) < 2 ^ 31)
    (route : Str → Nat) :
    ∀ (es : List (Str × Str)) (s : MR),
      (∀ e ∈ es, parter e.1 N = .ok (route e.1 : Int) ∧ route e.1 < N) →
      emit_all parter N s (es.map (fun e => (some e.1, some e.2))) =
        add_all s (es.map (fun e => (route e.1, e.1, e.2)))
  | [], _, _ => rfl
  | (k, v) :: es, s, h => by
    have h1 := h (k, v) (List.mem_cons_self _ _)
    simp only [List.map_cons, emit_all, add_all]
    rw [MR_Emit_eq_add_to_tree parter N hN s k v (route k) h1.1 h1.2]
    cases add_to_tree s (route k) k v with
    | error e => rfl
    | ok s1 =>
      exact emit_all_eq_add_all parter N hN route es s1
        (fun e he => h e (List.mem_cons_of_mem _ he))

/-- The values of the first key node with key `k` in a store. -/
theorem values_of_skip (k : Str) :
    ∀ (A B : List Event), (∀ x ∈ A, x ≠ Event.key k) → values_of k (A ++ B) = values_of k B
  | [], _, _ => rfl
  | a :: A, B, h => by
    simp only [List.cons_append, values_of]
    rw [if_neg (h a (List.mem_cons_self _ _))]
    exact values_of_skip k A B (fun x hx => h x (List.mem_cons_of_mem _ hx))

theorem takeWhile_values (vs : List (Nat × Str)) (rest : List Event) :
    ((vs.map (fun c => Event.value c.2) ++ Event.endOfValues :: rest).takeWhile
      Event.isValue).filterMap Event.getValue = vs.map Prod.snd := by
  induction vs with
  | nil => simp [List.takeWhile, Event.isValue]
  | cons c vs ih =>
    simp only [List.map_cons, List.cons_append, List.takeWhile, Event.isValue,
      List.filterMap_cons, Event.getValue]
    exact congrArg (List.cons c.2) ih

theorem values_of_trace (k : Str) (t : Shape) (ho : t.Ordered) :
    values_of k (trace_of t.dump) = t.vals k := by
  by_cases hk : k ∈ t.keys
  · rw [← Shape.dump_keys] at hk
    obtain ⟨e, hem, hek⟩ := List.mem_map.1 hk
    obtain ⟨a, k', vs⟩ := e
    simp only at hek
    subst hek
    rw [Shape.vals_of_mem_dump t ho a k' vs hem]
    -- every key event for `k'` in the trace starts the events of a node with these values
    generalize htr : trace_of t.dump = tr
    have hall : ∀ pre rest, tr = pre ++ Event.key k' :: rest →
        ∃ post, rest = vs.map (fun c => Event.value c.2) ++ Event.endOfValues :: post := by
      intro pre rest h
      rw [← htr] at h
      obtain ⟨l1, a2, vs2, l2, e1, _, e3⟩ := trace_of_key_split k' _ pre rest h
      have hm2 : (a2, k', vs2) ∈ t.dump := by rw [e1]; simp
      have h1 := Shape.vals_of_mem_dump t ho a k' vs hem
      have h2 := Shape.vals_of_mem_dump t ho a2 k' vs2 hm2
      refine ⟨Event.destroyed a2 :: trace_of l2, ?_⟩
      rw [e3]
      have : vs2.map (fun c => Event.value c.2) = vs.map (fun c => Event.value c.2) := by
        have e : vs2.map Prod.snd = vs.map Prod.snd := by rw [← h2, h1]
        have := congrArg (List.map Event.value) e
        simpa using this
      rw [this]
      simp
    have hex : ∃ pre rest, tr = pre ++ Event.key k' :: rest := by
      obtain ⟨l1, l2, hsplit⟩ := List.append_of_mem hem
      refine ⟨trace_of l1, (vs.map (fun c => Event.value c.2) ++
        [Event.endOfValues, Event.destroyed a]) ++ trace_of l2, ?_⟩
      rw [← htr, hsplit, trace_of_append, trace_of_cons]
      rfl
    clear htr
    induction tr with
    | nil =>
      obtain ⟨pre, rest, h⟩ := hex
      cases pre <;> simp at h
    | cons x tr ih =>
      by_cases hx : x = Event.key k'
      · subst hx
        obtain ⟨post, hp⟩ := hall [] tr rfl
        rw [values_of, if_pos rfl, hp, takeWhile_values]
      · rw [values_of, if_neg hx]
        apply ih
        · intro pre rest h
          exact hall (x :: pre) rest (by rw [h]; rfl)
        · obtain ⟨pre, rest, h⟩ := hex
          cases pre with
          | nil =>
            simp only [List.nil_append, List.cons.injEq] at h
            exact absurd h.1 hx
          | cons y pre =>
            simp only [List.cons_append, List.cons.injEq] at h
            exact ⟨pre, rest, h.2⟩
  · rw [Shape.vals_eq_nil k t hk]
    generalize htr : trace_of t.dump = tr
    have hno : ∀ x ∈ tr, x ≠ Event.key k := by
      intro x hx e
      subst e
      obtain ⟨pre, rest, h⟩ := List.append_of_mem hx
      rw [← htr] at h
      obtain ⟨l1, a, vs, l2, e1, _, _⟩ := trace_of_key_split k _ pre rest h
      apply hk
      rw [← Shape.dump_keys, e1]
      simp
    have := values_of_skip k tr [] hno
    rw [List.append_nil] at this
    rw [this]
    rfl

theorem sum_map_set {α : Type} (f : α → Nat) :
    ∀ (ts : List α) (i : Nat) (t t' : α), ts[i]? = some t →
      ((ts.set i t').map f).sum + f t = (ts.map f).sum + f t'
  | [], i, _, _, h => by simp at h
  | x :: ts, 0, t, t', h => by
    simp only [List.getElem?_cons_zero, Option.some.injEq] at h
    subst h
    simp only [List.set_cons_zero, List.map_cons, List.sum_cons]
    omega
  | x :: ts, i + 1, t, t', h => by
    simp only [List.getElem?_cons_succ] at h
    have := sum_map_set f ts i t t' h
    simp only [List.set_cons_succ, List.map_cons, List.sum_cons]
    omega

/-- An interleaving has as many emits of a kind as its threads have together. -/
theorem interleave_count {α : Type} (P : α → Bool) (ts : List (List α)) (out : List α)
    (h : Interleave ts out) :
    (out.filter P).length = (ts.map (fun t => (t.filter P).length)).sum := by
  induction h with
  | done ts h =>
    have : ts.map (fun t => (t.filter P).length) = ts.map (fun _ => 0) := by
      apply List.map_congr_left
      intro t ht
      rw [h t ht]; rfl
    rw [this]
    simp
  | step ts i x rest out h _ ih =>
    have hs := sum_map_set (fun t => (List.filter P t).length) ts i (x :: rest) rest h
    simp only [List.filter_cons] at hs ⊢
    by_cases hx : P x = true
    · simp only [hx, if_true, List.length_cons] at hs ⊢
      omega
    · simp only [hx] at hs ⊢
      simp only [Bool.false_eq_true, if_false] at hs ⊢
      omega

theorem emitted_length_routed (route : Str → Nat) (k : Str) :
    ∀ (es : List (Str × Str)),
      (emitted (es.map (fun e => (route e.1, e.1, e.2))) (route k) k).length =
        (es.filter (fun e => e.1 = k)).length
  | [] => rfl
  | (k', v) :: es => by
    have ih := emitted_length_routed route k es
    simp only [List.map_cons, emitted_cons, List.filter_cons]
    by_cases h : k' = k
    · subst h
      simp [ih]
    · simp [h, ih]

/-- C3: when the emits of `T` threads, `V` of them under key `k` in each thread, reach
the engine in any interleaving (each `MR_Emit` one step), the reduce phase recovers
`T * V` values for `k`; in general it recovers as many values as `k` was emitted. -/
theorem no_lost_updates {σ : Type} (cb : Reducer σ) (hcb : PullsToEnd cb) (st : σ) (N : Nat)
    (hN : (N : Int) < 2 ^ 31) (parter : Partitioner) (route : Str → Nat)
    (threads : List (List (Str × Str))) (es : List (Str × Str))
    (hint : Interleave threads es)
    (hroute : ∀ e ∈ es, parter e.1 N = .ok (route e.1 : Int) ∧ route e.1 < N)
    (k : Str) (V : Nat) (hV : ∀ th ∈ threads, (th.filter (fun e => e.1 = k)).length = V)
    (hkN : route k < N) (cbFuel : Nat) (hcf : es.length + 2 ≤ cbFuel) :
    ∃ s st' s' tr,
      emit_all parter N (initState N) (es.map (fun e => (some e.1, some e.2))) = .ok s ∧
      reduce_thread cb cbFuel st s (route k) = .ok (st', s', tr) ∧
      (values_of k tr).length = (es.filter (fun e => e.1 = k)).length ∧
      (values_of k tr).length = threads.length * V := by
  have hes : ∀ e ∈ es.map (fun e => (route e.1, e.1, e.2)), e.1 < N := by
    intro e he
    obtain ⟨e0, he0, rfl⟩ := List.mem_map.1 he
    exact (hroute e0 he0).2
  obtain ⟨s, T, he, hinv, _, hvals, hlen⟩ := build_spec N _ hes
  obtain ⟨st', s', hr, _⟩ := reduce_thread_spec cb hcb st N s T hinv (route k) hkN cbFuel
    (by rw [hlen]; simpa using hcf)
  have hcount : (values_of k (trace_of (T (route k)).dump)).length =
      (es.filter (fun e => e.1 = k)).length := by
    rw [values_of_trace k _ (hinv.ordered _ hkN), hvals _ hkN k, List.length_reverse,
      emitted_length_routed]
  refine ⟨s, st', s', _, ?_, hr, hcount, ?_⟩
  · rw [emit_all_eq_add_all parter N hN route es _ hroute]
    exact he
  · rw [hcount, interleave_count _ threads es hint]
    have : threads.map (fun t => (t.filter (fun e => decide (e.1 = k))).length) =
        threads.map (fun _ => V) := by
      apply List.map_congr_left
      intro t ht
      exact hV t ht
    rw [this]
    simp

/-- C3 at a concrete input: two threads emit the key `a` once each (one of them also
another key), the default partitioner routes over two partitions, and the reduce phase
recovers two values for `a`. -/
theorem no_lost_updates_witness :
    PullsToEnd wc_reduce ∧ (((2 : Nat) : Int) < 2 ^ 31) ∧
    Interleave [[([97], [49]), ([98], [50])], [([97], [51])]]
      [([97], [49]), ([97], [51]), ([98], [50])] ∧
    (∀ e ∈ [(([97] : Str), ([49] : Str)), ([97], [51]), ([98], [50])],
      MR_DefaultHashPartition true e.1 (2 : Nat) =
        .ok (((hash_loop true 5381 e.1 % 2).toNat : Nat) : Int) ∧
      (hash_loop true 5381 e.1 % 2).toNat < 2) ∧
    (∀ th ∈ [[(([97] : Str), ([49] : Str)), ([98], [50])], [([97], [51])]],
      (th.filter (fun e => e.1 = [97])).length = 1) ∧
    ((hash_loop true 5381 [97] % 2).toNat < 2) ∧ (3 + 2 ≤ 5) ∧
    ∃ s st' s' tr,
      emit_all (MR_DefaultHashPartition true) (2 : Nat) (initState 2)
        ([(([97] : Str), ([49] : Str)), ([97], [51]), ([98], [50])].map
          (fun e => (some e.1, some e.2))) = .ok s ∧
      reduce_thread wc_reduce 5 [] s ((hash_loop true 5381 [97] % 2).toNat) =
        .ok (st', s', tr) ∧
      (values_of [97] tr).length =
        ([(([97] : Str), ([49] : Str)), ([97], [51]), ([98], [50])].filter
          (fun e => e.1 = [97])).length ∧
      (values_of [97] tr).length =
        [[(([97] : Str), ([49] : Str)), ([98], [50])], [([97], [51])]].length * 1 :=
  ⟨wc_reduce_pulls, by decide,
    Interleave.step _ 0 ([97], [49]) [([98], [50])] _ rfl
      (Interleave.step _ 1 ([97], [51]) [] _ rfl
        (Interleave.step _ 0 ([98], [50]) [] _ rfl
          (Interleave.done _ (by decide)))),
    fun e _ => default_partition_nat true e.1 2 (by decide) (by decide),
    by decide, by decide, by decide,
    no_lost_updates wc_reduce wc_reduce_pulls [] 2 (by decide) (MR_DefaultHashPartition true)
      (fun k => (hash_loop true 5381 k % 2).toNat)
      [[([97], [49]), ([98], [50])], [([97], [51])]]
      [([97], [49]), ([97], [51]), ([98], [50])]
      (Interleave.step _ 0 ([97], [49]) [([98], [50])] _ rfl
        (Interleave.step _ 1 ([97], [51]) [] _ rfl
          (Interleave.step _ 0 ([98], [50]) [] _ rfl
            (Interleave.done _ (by decide)))))
      (fun e _ => default_partition_nat true e.1 2 (by decide) (by decide)) [97] 1 (by decide) (by decide) 5 (by decide)⟩

/-! ## More fuel for the callback changes nothing -/

theorem run_reducer_mono {σ : Type} (cb : Reducer σ) (key : Str) (p : Nat) :
    ∀ (f f' : Nat) (step : Step σ) (s : MR) (r : σ × MR × List Event),
      run_reducer cb key p f step s = .ok r → f ≤ f' →
      run_reducer cb key p f' step s = .ok r
  | 0, _, _, _, _, h, _ => by simp [run_reducer] at h
  | f + 1, 0, _, _, _, _, hle => by omega
  | f + 1, f' + 1, .ret st, s, r, h, _ => by
    rw [run_reducer] at h ⊢
    exact h
  | f + 1, f' + 1, .pull st, s, r, h, hle => by
    rw [run_reducer] at h ⊢
    cases hg : get_next_value s key p with
    | error e => rw [hg] at h; exact absurd h (by simp [bind, Except.bind])
    | ok vs1 =>
      obtain ⟨v, s1⟩ := vs1
      rw [hg] at h
      simp only [bind, Except.bind] at h ⊢
      cases hr : run_reducer cb key p f (cb.resume st v) s1 with
      | error e => rw [hr] at h; exact absurd h (by simp)
      | ok r1 =>
        rw [hr] at h
        rw [run_reducer_mono cb key p f f' _ s1 r1 hr (by omega)]
        exact h

theorem reduce_loop_mono {σ : Type} (cb : Reducer σ) (c c' : Nat) (hc : c ≤ c') (p : Nat) :
    ∀ (fuel : Nat) (st : σ) (s : MR) (r : σ × MR × List Event),
      reduce_loop cb c p fuel st s = .ok r → reduce_loop cb c' p fuel st s = .ok r
  | 0, _, _, _, h => by simp [reduce_loop] at h
  | fuel + 1, st, s, r, h => by
    rw [reduce_loop] at h ⊢
    cases ho : rd s.low_key p with
    | error e => rw [ho] at h; exact absurd h (by simp [bind, Except.bind])
    | ok old =>
      rw [ho] at h
      simp only [bind, Except.bind] at h ⊢
      cases hg : get_low_key s p with
      | error e => rw [hg] at h; exact absurd h (by simp)
      | ok ks1 =>
        obtain ⟨k, s1⟩ := ks1
        rw [hg] at h
        simp only [] at h ⊢
        cases k with
        | none => exact h
        | some key =>
          simp only [] at h ⊢
          cases hr : run_reducer cb key p c (cb.enter st key p) s1 with
          | error e => rw [hr] at h; exact absurd h (by simp)
          | ok r1 =>
            rw [hr] at h
            rw [run_reducer_mono cb key p c c' _ s1 r1 hr hc]
            simp only [] at h ⊢
            cases hl : reduce_loop cb c p fuel r1.1 r1.2.1 with
            | error e => rw [hl] at h; exact absurd h (by simp)
            | ok r2 =>
              rw [hl] at h
              rw [reduce_loop_mono cb c c' hc p fuel _ _ r2 hl]
              exact h

theorem reduce_all_mono {σ : Type} (cb : Reducer σ) (c c' : Nat) (hc : c ≤ c') :
    ∀ (ps : List Nat) (st : σ) (s : MR) (r : σ × MR × List (List Event)),
      reduce_all cb c st s ps = .ok r → reduce_all cb c' st s ps = .ok r
  | [], _, _, _, h => h
  | p :: ps, st, s, r, h => by
    rw [reduce_all] at h ⊢
    cases hr : reduce_thread cb c st s p with
    | error e => rw [hr] at h; exact absurd h (by simp [bind, Except.bind])
    | ok r1 =>
      rw [hr] at h
      have hr' : reduce_thread cb c' st s p = .ok r1 := reduce_loop_mono cb c c' hc p _ st s r1 hr
      rw [hr']
      simp only [bind, Except.bind] at h ⊢
      cases hl : reduce_all cb c r1.1 r1.2.1 ps with
      | error e => rw [hl] at h; exact absurd h (by simp)
      | ok r2 =>
        rw [hl] at h
        rw [reduce_all_mono cb c c' hc ps _ _ r2 hl]
        exact h

/-! ## The word-count scenario -/

theorem MR_Run_wc (cs : Bool) (sched : List Nat) (cbFuel : Nat) :
    MR_Run cs sched cbFuel [] wc_argv (some wc_map) 1 (some wc_reduce) 1 none =
      Except.bind (map_steps wc_map (MR_DefaultHashPartition cs) 1 wc_files wc_start sched)
        (wc_tail cs cbFuel) := rfl

theorem wc_step_worker (cs : Bool) (j : Nat) (hj : j ≤ 10) :
    map_step wc_map (MR_DefaultHashPartition cs) 1 wc_files (wc_phase j) 0 =
      .ok (wc_phase (min (j + 1) 10)) := by
  interval_cases j <;> cases cs <;> rfl

theorem wc_step_other (cs : Bool) (j : Nat) (hj : j ≤ 10) (i : Nat) :
    map_step wc_map (MR_DefaultHashPartition cs) 1 wc_files (wc_phase j) (i + 1) =
      .ok (wc_phase j) := by
  interval_cases j <;> rfl

theorem wc_steps (cs : Bool) :
    ∀ (sched : List Nat) (j : Nat), j ≤ 10 →
      ∃ j', j' ≤ 10 ∧ map_steps wc_map (MR_DefaultHashPartition cs) 1 wc_files (wc_phase j)
        sched = .ok (wc_phase j')
  | [], j, hj => ⟨j, hj, rfl⟩
  | 0 :: sched, j, hj => by
    obtain ⟨j', hj', h⟩ := wc_steps cs sched (min (j + 1) 10) (by omega)
    refine ⟨j', hj', ?_⟩
    rw [map_steps, wc_step_worker cs j hj]
    exact h
  | (i + 1) :: sched, j, hj => by
    obtain ⟨j', hj', h⟩ := wc_steps cs sched j hj
    refine ⟨j', hj', ?_⟩
    rw [map_steps, wc_step_other cs j hj i]
    exact h

theorem wc_tail_result (cs : Bool) (j : Nat) (hj : j ≤ 10) :
    ∃ s, wc_tail cs 4 (wc_phase j) = .ok ([([99], 1), ([98], 2), ([97], 2)], s,
      [[Event.key [97], .value [49], .value [49], .endOfValues, .destroyed 0,
        .key [98], .value [49], .value [49], .endOfValues, .destroyed 1,
        .key [99], .value [49], .endOfValues, .destroyed 2]]) := by
  interval_cases j <;> cases cs <;> exact ⟨_, rfl⟩

/-- C4: the engine run on the units `a b a` and `b c` with the word-count callbacks, one
mapper and one reducer, whatever the schedule of the map worker and whether `char` is
signed, hands the keys `a`, `b`, `c` to the reduce callback in this order, once each,
and the callback counts 2, 2 and 1 values (its state lists the latest key first). -/
theorem word_count_end_to_end (cs : Bool) (sched : List Nat) (cbFuel : Nat)
    (hf : 4 ≤ cbFuel) :
    ∃ s, MR_Run cs sched cbFuel [] wc_argv (some wc_map) 1 (some wc_reduce) 1 none =
      .ok ([([99], 1), ([98], 2), ([97], 2)], s,
        [[Event.key [97], .value [49], .value [49], .endOfValues, .destroyed 0,
          .key [98], .value [49], .value [49], .endOfValues, .destroyed 1,
          .key [99], .value [49], .endOfValues, .destroyed 2]]) := by
  obtain ⟨j, hj, hsteps⟩ := wc_steps cs sched 0 (by omega)
  obtain ⟨s, htail⟩ := wc_tail_result cs j hj
  refine ⟨s, ?_⟩
  have h0 : wc_phase 0 = wc_start := rfl
  rw [MR_Run_wc, ← h0, hsteps]
  show wc_tail cs cbFuel (wc_phase j) = _
  unfold wc_tail at htail ⊢
  simp only [bind, Except.bind] at htail ⊢
  cases hm : map_join wc_map (MR_DefaultHashPartition cs) 1 wc_files
      (units_work wc_map (wc_argv.drop 1) +
        ((wc_phase j).threads.map (thread_work wc_map)).sum + 1)
      (wc_phase j) (List.range 1) with
  | error e => rw [hm] at htail; exact absurd htail (by simp)
  | ok m2 =>
    rw [hm] at htail
    exact reduce_all_mono wc_reduce 4 cbFuel hf _ _ _ _ htail

/-- C4 at a concrete schedule and callback fuel. -/
theorem word_count_end_to_end_witness :
    (4 ≤ 10) ∧ ∃ s, MR_Run true [0, 0, 3, 0] 10 [] wc_argv (some wc_map) 1 (some wc_reduce) 1
      none = .ok ([([99], 1), ([98], 2), ([97], 2)], s,
        [[Event.key [97], .value [49], .value [49], .endOfValues, .destroyed 0,
          .key [98], .value [49], .value [49], .endOfValues, .destroyed 1,
          .key [99], .value [49], .endOfValues, .destroyed 2]]) :=
  ⟨by decide, word_count_end_to_end true [0, 0, 3, 0] 10 (by decide)⟩

theorem store_keys_spec (s : MR) (N : Nat) (T : Nat → Shape) (p : Nat) (hinv : Inv s N T)
    (hp : p < N) : store_keys s p = (T p).keys := by
  unfold store_keys
  rw [store_spec s N T p hinv hp, Shape.dump_keys]

theorem store_out_of_range (s : MR) (N : Nat) (T : Nat → Shape) (hinv : Inv s N T) (j : Nat)
    (hj : ¬ j < N) : store s j = [] := by
  unfold store
  rw [List.getElem?_eq_none (by rw [hinv.heads_len]; omega)]

/-- C5: with a partitioner that answers `route k` below the partition count for every
emitted key, after any sequence of `MR_Emit` calls a key is in the store of partition
`i` exactly when it was emitted and `i` is its partition; and an `MR_Emit` in any state
of the build leaves the store of every other partition as it was. -/
theorem key_in_one_partition (N : Nat) (hN : (N : Int) < 2 ^ 31) (parter : Partitioner)
    (route : Str → Nat) (es : List (Str × Str))
    (hroute : ∀ e ∈ es, parter e.1 N = .ok (route e.1 : Int) ∧ route e.1 < N) :
    (∃ s, emit_all parter N (initState N) (es.map (fun e => (some e.1, some e.2))) = .ok s ∧
      ∀ i, i < N → ∀ k, k ∈ store_keys s i ↔ (∃ v, (k, v) ∈ es) ∧ route k = i) ∧
    (∀ (s0 : MR) (T : Nat → Shape), Inv s0 N T → ∀ k v,
      parter k N = .ok (route k : Int) → route k < N →
      ∃ s1, MR_Emit parter N s0 (some k) (some v) = .ok s1 ∧
        ∀ j, j ≠ route k → store s1 j = store s0 j) := by
  constructor
  · have hes : ∀ e ∈ es.map (fun e => (route e.1, e.1, e.2)), e.1 < N := by
      intro e he
      obtain ⟨e0, he0, rfl⟩ := List.mem_map.1 he
      exact (hroute e0 he0).2
    obtain ⟨s, T, he, hinv, hkeys, _, _⟩ := build_spec N _ hes
    refine ⟨s, ?_, ?_⟩
    · rw [emit_all_eq_add_all parter N hN route es _ hroute]
      exact he
    · intro i hi k
      rw [store_keys_spec s N T i hinv hi, hkeys i hi k]
      constructor
      · rintro ⟨v, hv⟩
        obtain ⟨e0, he0, heq⟩ := List.mem_map.1 hv
        simp only [Prod.mk.injEq] at heq
        obtain ⟨h1, h2, h3⟩ := heq
        subst h2
        exact ⟨⟨e0.2, he0⟩, h1⟩
      · rintro ⟨⟨v, hv⟩, hr⟩
        exact ⟨v, List.mem_map.2 ⟨(k, v), hv, by rw [hr]⟩⟩
  · intro s0 T hinv k v hk hkN
    obtain ⟨s1, he, hinv1, _⟩ := add_to_tree_spec s0 N T (route k) k v hinv hkN
    refine ⟨s1, ?_, ?_⟩
    · rw [MR_Emit_eq_add_to_tree parter N hN s0 k v (route k) hk hkN]
      exact he
    · intro j hj
      by_cases hjN : j < N
      · rw [store_spec s1 N _ j hinv1 hjN, store_spec s0 N T j hinv hjN,
          Function.update_noteq hj]
      · rw [store_out_of_range s1 N _ hinv1 j hjN, store_out_of_range s0 N T hinv j hjN]

/-- C5 at a concrete input: the default partitioner over two partitions. -/
theorem key_in_one_partition_witness :
    (((2 : Nat) : Int) < 2 ^ 31) ∧
    (∀ e ∈ [(([97] : Str), ([49] : Str)), ([98], [50]), ([97], [51])],
      MR_DefaultHashPartition true e.1 (2 : Nat) =
        .ok (((hash_loop true 5381 e.1 % 2).toNat : Nat) : Int) ∧
      (hash_loop true 5381 e.1 % 2).toNat < 2) ∧
    ((∃ s, emit_all (MR_DefaultHashPartition true) (2 : Nat) (initState 2)
        ([(([97] : Str), ([49] : Str)), ([98], [50]), ([97], [51])].map
          (fun e => (some e.1, some e.2))) = .ok s ∧
      ∀ i, i < 2 → ∀ k, k ∈ store_keys s i ↔
        (∃ v, (k, v) ∈ [(([97] : Str), ([49] : Str)), ([98], [50]), ([97], [51])]) ∧
          (hash_loop true 5381 k % 2).toNat = i) ∧
    (∀ (s0 : MR) (T : Nat → Shape), Inv s0 2 T → ∀ k v,
      MR_DefaultHashPartition true k (2 : Nat) =
        .ok (((hash_loop true 5381 k % 2).toNat : Nat) : Int) →
      (hash_loop true 5381 k % 2).toNat < 2 →
      ∃ s1, MR_Emit (MR_DefaultHashPartition true) (2 : Nat) s0 (some k) (some v) = .ok s1 ∧
        ∀ j, j ≠ (hash_loop true 5381 k % 2).toNat → store s1 j = store s0 j)) :=
  ⟨by decide, fun e _ => default_partition_nat true e.1 2 (by decide) (by decide),
    key_in_one_partition 2 (by decide) (MR_DefaultHashPartition true)
      (fun k => (hash_loop true 5381 k % 2).toNat)
      [([97], [49]), ([98], [50]), ([97], [51])]
      (fun e _ => default_partition_nat true e.1 2 (by decide) (by decide))⟩

theorem Shape.insert_present (a c : Nat) (key v : Str) :
    ∀ (t : Shape), t.Ordered → key ∈ t.keys →
      (t.insert a c key v).keys = t.keys ∧ (t.insert a c key v).addrs = t.addrs
  | .nil, _, h => by simp [Shape.keys] at h
  | .node b l k vs r, ho, h => by
    obtain ⟨hl, hr, ol, or⟩ := ho
    by_cases h0 : strcmp key k = 0
    · rw [Shape.insert_eq _ _ _ _ _ _ _ _ _ h0]
      exact ⟨rfl, rfl⟩
    · have hne : ¬ key = k := fun e => h0 (by rw [e, strcmp_self])
      simp only [Shape.keys, List.mem_append, List.mem_cons] at h
      by_cases hlt : strcmp key k < 0
      · rw [Shape.insert_lt _ _ _ _ _ _ _ _ _ h0 hlt]
        have hm : key ∈ l.keys := by
          rcases h with h | h | h
          · exact h
          · exact absurd h hne
          · have := hr key h; omega
        obtain ⟨e1, e2⟩ := Shape.insert_present a c key v l ol hm
        simp only [Shape.keys, Shape.addrs, e1, e2, and_self]
      · rw [Shape.insert_gt _ _ _ _ _ _ _ _ _ h0 hlt]
        have hm : key ∈ r.keys := by
          rcases h with h | h | h
          · have := hl key h; omega
          · exact absurd h hne
          · exact h
        obtain ⟨e1, e2⟩ := Shape.insert_present a c key v r or hm
        simp only [Shape.keys, Shape.addrs, e1, e2, and_self]

theorem perm_insert_right {α : Type} (l : List α) (k key : α) (X r : List α)
    (h : X.Perm (key :: r)) : (l ++ k :: X).Perm (key :: (l ++ k :: r)) := by
  have h1 : (l ++ k :: X).Perm (l ++ k :: key :: r) := (List.Perm.cons k h).append_left l
  have h2 : l ++ k :: key :: r = (l ++ [k]) ++ key :: r := by simp
  have h3 : key :: ((l ++ [k]) ++ r) = key :: (l ++ k :: r) := by simp
  rw [h2] at h1
  rw [← h3]
  exact h1.trans List.perm_middle

theorem Shape.insert_absent (a c : Nat) (key v : Str) :
    ∀ (t : Shape), key ∉ t.keys →
      (t.insert a c key v).keys.Perm (key :: t.keys) ∧
      (t.insert a c key v).addrs.Perm (a :: t.addrs)
  | .nil, _ => ⟨List.Perm.refl _, List.Perm.refl _⟩
  | .node b l k vs r, h => by
    simp only [Shape.keys, List.mem_append, List.mem_cons, not_or] at h
    have h0 : ¬ strcmp key k = 0 := fun e => h.2.1 (strcmp_eq_zero _ _ e)
    by_cases hlt : strcmp key k < 0
    · rw [Shape.insert_lt _ _ _ _ _ _ _ _ _ h0 hlt]
      obtain ⟨e1, e2⟩ := Shape.insert_absent a c key v l h.1
      simp only [Shape.keys, Shape.addrs]
      exact ⟨e1.append_right _, e2.append_right _⟩
    · rw [Shape.insert_gt _ _ _ _ _ _ _ _ _ h0 hlt]
      obtain ⟨e1, e2⟩ := Shape.insert_absent a c key v r h.2.2
      simp only [Shape.keys, Shape.addrs]
      exact ⟨perm_insert_right _ _ _ _ _ e1, perm_insert_right _ _ _ _ _ e2⟩

theorem Shape.dump_vals (k : Str) :
    ∀ (t : Shape),
      t.dump.flatMap (fun e => if e.2.1 = k then e.2.2.map Prod.snd else []) = t.vals k
  | .nil => rfl
  | .node a l k1 vs r => by
    simp only [Shape.dump, Shape.vals, List.flatMap_append, List.flatMap_cons,
      Shape.dump_vals k l, Shape.dump_vals k r]

theorem store_values_spec (s : MR) (N : Nat) (T : Nat → Shape) (p : Nat) (hinv : Inv s N T)
    (hp : p < N) (k : Str) : store_values s p k = (T p).vals k := by
  unfold store_values
  rw [store_spec s N T p hinv hp, Shape.dump_vals]

theorem Shape.mem_keys_of_mem_dump (t : Shape) (a : Nat) (k : Str) (cs : List (Nat × Str))
    (h : (a, k, cs) ∈ t.dump) : k ∈ t.keys := by
  rw [← Shape.dump_keys]
  exact List.mem_map.2 ⟨_, h, rfl⟩

/-- An emit of a key that is present puts the new cell at the head of the value list of
the node that holds the key. -/
theorem Shape.dump_insert_present (a c : Nat) (key v : Str) (a0 : Nat)
    (cs : List (Nat × Str)) :
    ∀ (t : Shape), t.Ordered → (a0, key, cs) ∈ t.dump →
      (a0, key, (c, v) :: cs) ∈ (t.insert a c key v).dump
  | .nil, _, h => by simp [Shape.dump] at h
  | .node b l k vs r, ho, h => by
    obtain ⟨hl, hr, ol, or⟩ := ho
    simp only [Shape.dump, List.mem_append, List.mem_cons, Prod.mk.injEq] at h
    by_cases h0 : strcmp key k = 0
    · rw [Shape.insert_eq _ _ _ _ _ _ _ _ _ h0]
      simp only [Shape.dump, List.mem_append, List.mem_cons, Prod.mk.injEq]
      rcases h with h | ⟨h1, _, h3⟩ | h
      · have := hl key (Shape.mem_keys_of_mem_dump l a0 key cs h); omega
      · exact Or.inr (Or.inl ⟨h1, strcmp_eq_zero _ _ h0, by rw [h3]⟩)
      · have := hr key (Shape.mem_keys_of_mem_dump r a0 key cs h); omega
    · by_cases hlt : strcmp key k < 0
      · rw [Shape.insert_lt _ _ _ _ _ _ _ _ _ h0 hlt]
        simp only [Shape.dump, List.mem_append, List.mem_cons, Prod.mk.injEq]
        rcases h with h | ⟨_, h2, _⟩ | h
        · exact Or.inl (Shape.dump_insert_present a c key v a0 cs l ol h)
        · exact absurd (by rw [h2, strcmp_self]) h0
        · have := hr key (Shape.mem_keys_of_mem_dump r a0 key cs h); omega
      · rw [Shape.insert_gt _ _ _ _ _ _ _ _ _ h0 hlt]
        simp only [Shape.dump, List.mem_append, List.mem_cons, Prod.mk.injEq]
        rcases h with h | ⟨_, h2, _⟩ | h
        · have := hl key (Shape.mem_keys_of_mem_dump l a0 key cs h); omega
        · exact absurd (by rw [h2, strcmp_self]) h0
        · exact Or.inr (Or.inr (Shape.dump_insert_present a c key v a0 cs r or h))

/-- An emit of a key that is not present puts a node with the one new cell into the
tree. -/
theorem Shape.dump_insert_absent (a c : Nat) (key v : Str) :
    ∀ (t : Shape), key ∉ t.keys → (a, key, [(c, v)]) ∈ (t.insert a c key v).dump
  | .nil, _ => by simp [Shape.insert, Shape.dump]
  | .node b l k vs r, h => by
    simp only [Shape.keys, List.mem_append, List.mem_cons, not_or] at h
    have h0 : ¬ strcmp key k = 0 := fun e => h.2.1 (strcmp_eq_zero _ _ e)
    by_cases hlt : strcmp key k < 0
    · rw [Shape.insert_lt _ _ _ _ _ _ _ _ _ h0 hlt]
      simp only [Shape.dump, List.mem_append]
      exact Or.inl (Shape.dump_insert_absent a c key v l h.1)
    · rw [Shape.insert_gt _ _ _ _ _ _ _ _ _ h0 hlt]
      simp only [Shape.dump, List.mem_append, List.mem_cons]
      exact Or.inr (Or.inr (Shape.dump_insert_absent a c key v r h.2.2))

/-- The state after a sequence of emits is a state of the build. -/
theorem Inv_of_build (N : Nat) (es : List (Nat × Str × Str)) (hes : ∀ e ∈ es, e.1 < N)
    (s : MR) (h : add_all (initState N) es = .ok s) : ∃ T, Inv s N T := by
  obtain ⟨s2, T, he, hinv, _⟩ := build_spec N es hes
  rw [h] at he
  simp only [Except.ok.injEq] at he
  subst he
  exact ⟨T, hinv⟩

theorem mem_store_keys_of_build (N : Nat) (es : List (Nat × Str × Str))
    (hes : ∀ e ∈ es, e.1 < N) (s : MR) (h : add_all (initState N) es = .ok s) (p : Nat)
    (hp : p < N) (k : Str) : k ∈ store_keys s p ↔ ∃ v, (p, k, v) ∈ es := by
  obtain ⟨s2, T, he, hinv, hkeys, _⟩ := build_spec N es hes
  rw [h] at he
  simp only [Except.ok.injEq] at he
  subst he
  rw [store_keys_spec s N T p hinv hp]
  exact hkeys p hp k

/-- C6: from a state of the build (the trees are strict search trees whose parent
back-links mirror the child links, as in the state `MR_Run` sets up), every
`add_to_tree` call returns a state of the build; the keys of the partition stay strictly
increasing, so no two nodes hold equal keys; the value is put at the head of the values
of the key and all other values stay as they are; an emit of a key already present adds
no node, leaves the key nodes where they are and pushes the new cell onto the value list
of the node that holds the key; an emit of a new key adds exactly one node, at the next
unused address, with the new cell as its only value. -/
theorem add_to_tree_keeps_search_tree (N : Nat) (s : MR) (T : Nat → Shape)
    (hinv : Inv s N T) (p : Nat) (hp : p < N) (key value : Str) :
    Inv (initState N) N (fun _ => .nil) ∧
    ∃ s' T', add_to_tree s p key value = .ok s' ∧ Inv s' N T' ∧
      (store_keys s' p).Pairwise (fun a b => strcmp a b < 0) ∧ (store_keys s' p).Nodup ∧
      store_values s' p key = value :: store_values s p key ∧
      (∀ q k', q < N → (q ≠ p ∨ k' ≠ key) → store_values s' q k' = store_values s q k') ∧
      (key ∈ store_keys s p → s'.nodes.length = s.nodes.length ∧
        store_keys s' p = store_keys s p ∧
        (store s' p).map (fun e => e.1) = (store s p).map (fun e => e.1) ∧
        ∀ a cs, (a, key, cs) ∈ store s p →
          (a, key, (s.cells.length, value) :: cs) ∈ store s' p) ∧
      (key ∉ store_keys s p → s'.nodes.length = s.nodes.length + 1 ∧
        (store_keys s' p).Perm (key :: store_keys s p) ∧
        ((store s' p).map (fun e => e.1)).Perm
          (s.nodes.length :: (store s p).map (fun e => e.1)) ∧
        (s.nodes.length, key, [(s.cells.length, value)]) ∈ store s' p) := by
  refine ⟨Inv_init N, ?_⟩
  obtain ⟨s', he, hinv', _, _, _, hnl⟩ := add_to_tree_spec s N T p key value hinv hp
  have hk' := store_keys_spec s' N _ p hinv' hp
  have hk := store_keys_spec s N T p hinv hp
  have hs' := store_spec s' N _ p hinv' hp
  have hs := store_spec s N T p hinv hp
  rw [Function.update_same] at hk' hs'
  have hsorted := Shape.keys_sorted _ (hinv'.ordered p hp)
  rw [Function.update_same] at hsorted
  have hsize := Shape.size_insert s.nodes.length s.cells.length key value (T p)
    (hinv.ordered p hp)
  refine ⟨s', _, he, hinv', ?_, ?_, ?_, ?_, ?_, ?_⟩
  · rw [hk']; exact hsorted
  · rw [hk']
    refine hsorted.imp ?_
    intro a b hab e
    rw [e, strcmp_self] at hab
    omega
  · rw [store_values_spec s' N _ p hinv' hp, store_values_spec s N T p hinv hp,
      Function.update_same, Shape.vals_insert _ _ _ _ _ _ (hinv.ordered p hp), if_pos rfl]
  · intro q k' hq hne
    rw [store_values_spec s' N _ q hinv' hq, store_values_spec s N T q hinv hq]
    by_cases hqp : q = p
    · subst hqp
      rw [Function.update_same, Shape.vals_insert _ _ _ _ _ _ (hinv.ordered q hq)]
      have hkk : k' ≠ key := by
        rcases hne with h | h
        · exact absurd rfl h
        · exact h
      rw [if_neg hkk]
    · rw [Function.update_noteq hqp]
  · intro hmem
    rw [hk] at hmem
    obtain ⟨e1, e2⟩ := Shape.insert_present s.nodes.length s.cells.length key value (T p)
      (hinv.ordered p hp) hmem
    rw [if_pos hmem] at hsize
    refine ⟨by omega, by rw [hk', hk, e1], ?_, ?_⟩
    · rw [hs', hs, Shape.dump_addrs, Shape.dump_addrs, e2]
    · intro a cs hm
      rw [hs] at hm
      rw [hs']
      exact Shape.dump_insert_present _ _ _ _ a cs (T p) (hinv.ordered p hp) hm
  · intro hmem
    rw [hk] at hmem
    obtain ⟨e1, e2⟩ := Shape.insert_absent s.nodes.length s.cells.length key value (T p) hmem
    rw [if_neg hmem] at hsize
    refine ⟨by omega, by rw [hk', hk]; exact e1, ?_, ?_⟩
    · rw [hs', hs, Shape.dump_addrs, Shape.dump_addrs]
      exact e2
    · rw [hs']
      exact Shape.dump_insert_absent _ _ _ _ (T p) hmem

/-- C6 at concrete inputs: on the tree built from the keys `b`, `a`, `c`, an emit of
the key `c`, which is present at the right child of the root, and an emit of the new
key `d`. -/
theorem add_to_tree_keeps_search_tree_witness :
    ∃ s, add_all (initState 1) [(0, [98], [49]), (0, [97], [50]), (0, [99], [51])] = .ok s ∧
      (0 < 1) ∧ [99] ∈ store_keys s 0 ∧ [100] ∉ store_keys s 0 ∧
      (∃ s' T', add_to_tree s 0 [99] [52] = .ok s' ∧ Inv s' 1 T' ∧
        (store_keys s' 0).Pairwise (fun a b => strcmp a b < 0) ∧ (store_keys s' 0).Nodup ∧
        store_values s' 0 [99] = [52] :: store_values s 0 [99] ∧
        (∀ q k', q < 1 → (q ≠ 0 ∨ k' ≠ [99]) → store_values s' q k' = store_values s q k') ∧
        s'.nodes.length = s.nodes.length ∧ store_keys s' 0 = store_keys s 0 ∧
        (store s' 0).map (fun e => e.1) = (store s 0).map (fun e => e.1) ∧
        ∀ a cs, (a, [99], cs) ∈ store s 0 →
          (a, [99], (s.cells.length, [52]) :: cs) ∈ store s' 0) ∧
      (∃ s' T', add_to_tree s 0 [100] [53] = .ok s' ∧ Inv s' 1 T' ∧
        (store_keys s' 0).Pairwise (fun a b => strcmp a b < 0) ∧ (store_keys s' 0).Nodup ∧
        store_values s' 0 [100] = [53] :: store_values s 0 [100] ∧
        s'.nodes.length = s.nodes.length + 1 ∧
        (store_keys s' 0).Perm ([100] :: store_keys s 0) ∧
        (s.nodes.length, [100], [(s.cells.length, [53])]) ∈ store s' 0) := by
  obtain ⟨s, hb⟩ : ∃ s, add_all (initState 1)
      [(0, [98], [49]), (0, [97], [50]), (0, [99], [51])] = .ok s := ⟨_, rfl⟩
  obtain ⟨T, hinv⟩ := Inv_of_build 1 [(0, [98], [49]), (0, [97], [50]), (0, [99], [51])]
    (by decide) s hb
  have hkeys := mem_store_keys_of_build 1 [(0, [98], [49]), (0, [97], [50]), (0, [99], [51])]
    (by decide) s hb 0 (by decide)
  have hin : [99] ∈ store_keys s 0 := (hkeys [99]).2 ⟨[51], by decide⟩
  have hout : [100] ∉ store_keys s 0 := by
    intro h
    obtain ⟨v, hv⟩ := (hkeys [100]).1 h
    simp at hv
  refine ⟨s, hb, by decide, hin, hout, ?_, ?_⟩
  · obtain ⟨_, s', T', he, hinv', h1, h2, h3, h4, h5, _⟩ :=
      add_to_tree_keeps_search_tree 1 s T hinv 0 (by decide) [99] [52]
    obtain ⟨h6, h7, h8, h9⟩ := h5 hin
    exact ⟨s', T', he, hinv', h1, h2, h3, h4, h6, h7, h8, h9⟩
  · obtain ⟨_, s', T', he, hinv', h1, h2, h3, _, _, h5⟩ :=
      add_to_tree_keeps_search_tree 1 s T hinv 0 (by decide) [100] [53]
    obtain ⟨h6, h7, _, h9⟩ := h5 hout
    exact ⟨s', T', he, hinv', h1, h2, h3, h6, h7, h9⟩

/-! ## What the drain functions release -/

theorem bind_eq_ok {ε α β : Type} {x : Except ε α} {f : α → Except ε β} {r : β}
    (h : Except.bind x f = .ok r) : ∃ v, x = .ok v ∧ f v = .ok r := by
  cases x with
  | error e => exact absurd h (by simp [Except.bind])
  | ok v => exact ⟨v, rfl, h⟩

theorem free_node_released (s s' : MR) (a : Nat) (h : free_node s a = .ok s') :
    s'.nodes[a]? = some none := by
  unfold free_node at h
  obtain ⟨s1, _, h⟩ := bind_eq_ok h
  simp only [freeNodeMem] at h
  split at h
  · rename_i n hn
    simp only [Except.ok.injEq] at h
    subst h
    exact List.getElem?_set_self (lt_of_get hn)
  · exact absurd h (by simp)
  · exact absurd h (by simp)

/-- A `get_low_key` call that finds a current minimum releases that node, which was live
before the call. -/
theorem get_low_key_releases (s s' : MR) (p a : Nat) (k : Option Str)
    (hlk : s.low_key[p]? = some (some a)) (h : get_low_key s p = .ok (k, s')) :
    (∃ n, s.nodes[a]? = some (some n)) ∧ s'.nodes[a]? = some none := by
  unfold get_low_key at h
  rw [rd_ok hlk] at h
  simp only [bind] at h
  obtain ⟨lk, hlk', h⟩ := bind_eq_ok h
  simp only [Except.ok.injEq] at hlk'
  subst hlk'
  simp only [] at h
  obtain ⟨dn, hr, h⟩ := bind_eq_ok h
  have hlive : ∃ n, s.nodes[a]? = some (some n) := by
    unfold readNode at hr
    split at hr
    · rename_i n hn; exact ⟨n, hn⟩
    · exact absurd hr (by simp)
    · exact absurd hr (by simp)
  refine ⟨hlive, ?_⟩
  obtain ⟨dk, dv, dl, dr, dp⟩ := dn
  cases dr with
  | none =>
    cases dp with
    | none =>
      simp only [] at h
      obtain ⟨heads, _, h⟩ := bind_eq_ok h
      obtain ⟨s1, hf, h⟩ := bind_eq_ok h
      simp only [pure, Except.pure, Except.ok.injEq, Prod.mk.injEq] at h
      rw [← h.2]
      exact free_node_released _ _ _ hf
    | some par =>
      simp only [] at h
      obtain ⟨lows, _, h⟩ := bind_eq_ok h
      obtain ⟨pn, _, h⟩ := bind_eq_ok h
      obtain ⟨s3, hf, h⟩ := bind_eq_ok h
      obtain ⟨n, _, h⟩ := bind_eq_ok h
      simp only [pure, Except.pure, Except.ok.injEq, Prod.mk.injEq] at h
      rw [← h.2]
      exact free_node_released _ _ _ hf
  | some temp =>
    simp only [] at h
    obtain ⟨head, _, h⟩ := bind_eq_ok h
    obtain ⟨s2, _, h⟩ := bind_eq_ok h
    obtain ⟨low, _, h⟩ := bind_eq_ok h
    obtain ⟨lows, _, h⟩ := bind_eq_ok h
    obtain ⟨s3, hf, h⟩ := bind_eq_ok h
    obtain ⟨n, _, h⟩ := bind_eq_ok h
    simp only [pure, Except.pure, Except.ok.injEq, Prod.mk.injEq] at h
    rw [← h.2]
    exact free_node_released _ _ _ hf

/-- A `get_low_key` call that finds no current minimum releases nothing. -/
theorem get_low_key_first_keeps_heap (s s' : MR) (p : Nat) (k : Option Str)
    (hlk : s.low_key[p]? = some none) (h : get_low_key s p = .ok (k, s')) :
    s'.nodes = s.nodes ∧ s'.cells = s.cells := by
  unfold get_low_key at h
  rw [rd_ok hlk] at h
  simp only [bind] at h
  obtain ⟨lk, hlk', h⟩ := bind_eq_ok h
  simp only [Except.ok.injEq] at hlk'
  subst hlk'
  simp only [] at h
  obtain ⟨head, _, h⟩ := bind_eq_ok h
  cases head with
  | none =>
    simp only [pure, Except.pure, Except.ok.injEq, Prod.mk.injEq] at h
    rw [← h.2]
    exact ⟨rfl, rfl⟩
  | some hd =>
    simp only [] at h
    obtain ⟨low, _, h⟩ := bind_eq_ok h
    obtain ⟨lows, _, h⟩ := bind_eq_ok h
    obtain ⟨n, _, h⟩ := bind_eq_ok h
    simp only [pure, Except.pure, Except.ok.injEq, Prod.mk.injEq] at h
    rw [← h.2]
    exact ⟨rfl, rfl⟩

/-- A `get_next_value` call releases nothing and writes to no node or cell. -/
theorem get_next_value_keeps_heap (s s' : MR) (key : Str) (p : Nat) (v : Option Str)
    (h : get_next_value s key p = .ok (v, s')) : s'.nodes = s.nodes ∧ s'.cells = s.cells := by
  unfold get_next_value at h
  simp only [bind] at h
  obtain ⟨nk, _, h⟩ := bind_eq_ok h
  obtain ⟨s1, h1, h⟩ := bind_eq_ok h
  have hs1 : s1.nodes = s.nodes ∧ s1.cells = s.cells := by
    split at h1
    · obtain ⟨flags, _, h1⟩ := bind_eq_ok h1
      obtain ⟨lk, _, h1⟩ := bind_eq_ok h1
      obtain ⟨a, _, h1⟩ := bind_eq_ok h1
      obtain ⟨n, _, h1⟩ := bind_eq_ok h1
      obtain ⟨curs, _, h1⟩ := bind_eq_ok h1
      simp only [pure, Except.pure, Except.ok.injEq] at h1
      rw [← h1]
      exact ⟨rfl, rfl⟩
    · simp only [pure, Except.pure, Except.ok.injEq] at h1
      rw [← h1]
      exact ⟨rfl, rfl⟩
  obtain ⟨cv, _, h⟩ := bind_eq_ok h
  cases cv with
  | none =>
    simp only [] at h
    obtain ⟨flags, _, h⟩ := bind_eq_ok h
    simp only [pure, Except.pure, Except.ok.injEq, Prod.mk.injEq] at h
    rw [← h.2]
    exact hs1
  | some c =>
    simp only [] at h
    obtain ⟨cell, _, h⟩ := bind_eq_ok h
    obtain ⟨curs, _, h⟩ := bind_eq_ok h
    simp only [pure, Except.pure, Except.ok.injEq, Prod.mk.injEq] at h
    rw [← h.2]
    exact hs1

theorem VList_live {cells : List (Option v_node)} :
    ∀ (vs : List (Nat × Str)), VList cells vs →
      ∀ c ∈ vs.map Prod.fst, ∃ v, cells[c]? = some (some v)
  | [], _, c, hc => by simp at hc
  | (c0, v) :: rest, h, c, hc => by
    simp only [List.map_cons, List.mem_cons] at hc
    rcases hc with rfl | hc
    · exact ⟨_, h.1⟩
    · exact VList_live rest h.2 c hc

theorem Rep_cells_live {nodes : List (Option bst_node)} {cells : List (Option v_node)} :
    ∀ (t : Shape) (par : Option Nat), Rep nodes cells par t →
      ∀ c ∈ t.cellAddrs, ∃ v, cells[c]? = some (some v)
  | .nil, _, _, c, hc => by simp [Shape.cellAddrs] at hc
  | .node b l k vs r, par, h, c, hc => by
    obtain ⟨_, h2, h3, h4⟩ := h
    simp only [Shape.cellAddrs, List.mem_append] at hc
    rcases hc with hc | hc | hc
    · exact Rep_cells_live l _ h3 c hc
    · exact VList_live vs h2 c hc
    · exact Rep_cells_live r _ h4 c hc

theorem Shape.mem_cellAddrs_iff :
    ∀ (t : Shape) (c : Nat), c ∈ t.cellAddrs ↔ ∃ e ∈ t.dump, c ∈ e.2.2.map Prod.fst
  | .nil, c => by simp [Shape.cellAddrs, Shape.dump]
  | .node a l k vs r, c => by
    simp only [Shape.cellAddrs, Shape.dump, List.mem_append, List.mem_cons,
      Shape.mem_cellAddrs_iff l c, Shape.mem_cellAddrs_iff r c]
    constructor
    · rintro (⟨e, he, hc⟩ | hc | ⟨e, he, hc⟩)
      · exact ⟨e, Or.inl he, hc⟩
      · exact ⟨(a, k, vs), Or.inr (Or.inl rfl), hc⟩
      · exact ⟨e, Or.inr (Or.inr he), hc⟩
    · rintro ⟨e, he | rfl | he, hc⟩
      · exact Or.inl ⟨e, he, hc⟩
      · exact Or.inr (Or.inl hc)
      · exact Or.inr (Or.inr ⟨e, he, hc⟩)

/-- C7: on a partition built by any sequence of emits, with a reduce callback that pulls
values to the end before it returns, the run of `reduce_thread` ends without a fault (a
second release of a node or cell, or a read of a released one, is a fault); the events
of the run are, for every key node of the partition in order, the key, its values, the
end-of-values answer and only then the release of the node; no node is released twice;
every key node and value cell of the partition is live before the run and released after
it, and no other node or cell changes.  In any state, a `get_low_key` call releases the
node that was the current minimum and `get_next_value` releases nothing. -/
theorem reduce_thread_memory_safe {σ : Type} (cb : Reducer σ) (hcb : PullsToEnd cb) (st : σ)
    (N : Nat) (es : List (Nat × Str × Str)) (p : Nat) (hp : p < N)
    (hes : ∀ e ∈ es, e.1 < N) (cbFuel : Nat) (hcf : es.length + 2 ≤ cbFuel) :
    (∃ s st' s' tr, add_all (initState N) es = .ok s ∧
      reduce_thread cb cbFuel st s p = .ok (st', s', tr) ∧
      tr = trace_of (store s p) ∧
      ((store s p).map (fun e => e.1)).Nodup ∧
      (∀ e ∈ store s p, (∃ n, s.nodes[e.1]? = some (some n)) ∧ s'.nodes[e.1]? = some none ∧
        ∀ c ∈ e.2.2, (∃ v, s.cells[c.1]? = some (some v)) ∧ s'.cells[c.1]? = some none) ∧
      (∀ x, x ∉ (store s p).map (fun e => e.1) → s'.nodes[x]? = s.nodes[x]?) ∧
      (∀ c, (∀ e ∈ store s p, c ∉ e.2.2.map Prod.fst) → s'.cells[c]? = s.cells[c]?)) ∧
    (∀ (s1 s2 : MR) (a : Nat) (k : Option Str), s1.low_key[p]? = some (some a) →
      get_low_key s1 p = .ok (k, s2) →
      (∃ n, s1.nodes[a]? = some (some n)) ∧ s2.nodes[a]? = some none) ∧
    (∀ (s1 s2 : MR) (k : Option Str), s1.low_key[p]? = some none →
      get_low_key s1 p = .ok (k, s2) → s2.nodes = s1.nodes ∧ s2.cells = s1.cells) ∧
    (∀ (s1 s2 : MR) (key : Str) (v : Option Str), get_next_value s1 key p = .ok (v, s2) →
      s2.nodes = s1.nodes ∧ s2.cells = s1.cells) := by
  refine ⟨?_, fun s1 s2 a k h1 h2 => get_low_key_releases s1 s2 p a k h1 h2,
    fun s1 s2 k h1 h2 => get_low_key_first_keeps_heap s1 s2 p k h1 h2,
    fun s1 s2 key v h => get_next_value_keeps_heap s1 s2 key p v h⟩
  obtain ⟨s, T, he, hinv, _, _, hlen⟩ := build_spec N es hes
  obtain ⟨st', s', hr, n1, n2, c1, c2, _⟩ := reduce_thread_spec cb hcb st N s T hinv p hp cbFuel
    (by rw [hlen]; exact hcf)
  have hs := store_spec s N T p hinv hp
  refine ⟨s, st', s', _, he, hr, by rw [hs], ?_, ?_, ?_, ?_⟩
  · rw [hs, Shape.dump_addrs]
    exact hinv.nodup p hp
  · intro e hem
    rw [hs] at hem
    have ha : e.1 ∈ (T p).addrs := by
      rw [← Shape.dump_addrs]
      exact List.mem_map.2 ⟨e, hem, rfl⟩
    refine ⟨Rep_live _ _ (hinv.rep p hp) _ ha, n1 _ ha, ?_⟩
    intro c hc
    have hcm : c.1 ∈ (T p).cellAddrs :=
      (Shape.mem_cellAddrs_iff (T p) c.1).2 ⟨e, hem, List.mem_map.2 ⟨c, hc, rfl⟩⟩
    exact ⟨Rep_cells_live _ _ (hinv.rep p hp) _ hcm, c1 _ hcm⟩
  · intro x hx
    rw [hs, Shape.dump_addrs] at hx
    exact n2 x hx
  · intro c hc
    apply c2
    intro hcm
    obtain ⟨e, hem, hce⟩ := (Shape.mem_cellAddrs_iff (T p) c).1 hcm
    exact hc e (by rw [hs]; exact hem) hce

/-- C7 at a concrete input: a partition with three key nodes and five value cells. -/
theorem reduce_thread_memory_safe_witness :
    PullsToEnd wc_reduce ∧ (0 < 1) ∧
    (∀ e ∈ [(0, [98], [49]), (0, [97], [50]), (0, [99], [51]), (0, [97], [52]),
      (0, [98], [53])], e.1 < 1) ∧ (5 + 2 ≤ 7) ∧
    Except.bind (add_all (initState 1) [(0, [98], [49]), (0, [97], [50]), (0, [99], [51]),
        (0, [97], [52]), (0, [98], [53])])
      (fun s => Except.map (fun r => (r.2.1.nodes, r.2.1.cells))
        (reduce_thread wc_reduce 7 [] s 0)) =
      .ok ([none, none, none], [none, none, none, none, none]) ∧
    ((∃ s st' s' tr, add_all (initState 1) [(0, [98], [49]), (0, [97], [50]), (0, [99], [51]),
        (0, [97], [52]), (0, [98], [53])] = .ok s ∧
      reduce_thread wc_reduce 7 [] s 0 = .ok (st', s', tr) ∧
      tr = trace_of (store s 0) ∧
      ((store s 0).map (fun e => e.1)).Nodup ∧
      (∀ e ∈ store s 0, (∃ n, s.nodes[e.1]? = some (some n)) ∧ s'.nodes[e.1]? = some none ∧
        ∀ c ∈ e.2.2, (∃ v, s.cells[c.1]? = some (some v)) ∧ s'.cells[c.1]? = some none) ∧
      (∀ x, x ∉ (store s 0).map (fun e => e.1) → s'.nodes[x]? = s.nodes[x]?) ∧
      (∀ c, (∀ e ∈ store s 0, c ∉ e.2.2.map Prod.fst) → s'.cells[c]? = s.cells[c]?)) ∧
    (∀ (s1 s2 : MR) (a : Nat) (k : Option Str), s1.low_key[0]? = some (some a) →
      get_low_key s1 0 = .ok (k, s2) →
      (∃ n, s1.nodes[a]? = some (some n)) ∧ s2.nodes[a]? = some none) ∧
    (∀ (s1 s2 : MR) (k : Option Str), s1.low_key[0]? = some none →
      get_low_key s1 0 = .ok (k, s2) → s2.nodes = s1.nodes ∧ s2.cells = s1.cells) ∧
    (∀ (s1 s2 : MR) (key : Str) (v : Option Str), get_next_value s1 key 0 = .ok (v, s2) →
      s2.nodes = s1.nodes ∧ s2.cells = s1.cells)) :=
  ⟨wc_reduce_pulls, by decide, by decide, by decide, rfl,
    reduce_thread_memory_safe wc_reduce wc_reduce_pulls [] 1 _ 0 (by decide) (by decide) 7
      (by decide)⟩

theorem emitted_ne_nil (es : List (Nat × Str × Str)) (p : Nat) (k v : Str)
    (h : (p, k, v) ∈ es) : emitted es p k ≠ [] := by
  unfold emitted
  intro e
  have hm : (p, k, v) ∈ es.filter (fun e => e.1 = p ∧ e.2.1 = k) := by
    rw [List.mem_filter]
    exact ⟨h, by simp⟩
  rw [List.map_eq_nil_iff] at e
  rw [e] at hm
  simp at hm

/-- C8: in the run of `reduce_thread` on a partition built by any sequence of emits,
with a callback that pulls values to the end, whenever end-of-values was reported for a
key, `get_low_key` released its node and handed out the next key, the next answer of
`get_next_value` is a value, and it is the value emitted last under that next key: the
one at the head of its list. -/
theorem iterator_restarts_at_head {σ : Type} (cb : Reducer σ) (hcb : PullsToEnd cb) (st : σ)
    (N : Nat) (es : List (Nat × Str × Str)) (p : Nat) (hp : p < N)
    (hes : ∀ e ∈ es, e.1 < N) (cbFuel : Nat) (hcf : es.length + 2 ≤ cbFuel) :
    ∃ s st' s' tr, add_all (initState N) es = .ok s ∧
      reduce_thread cb cbFuel st s p = .ok (st', s', tr) ∧
      ∀ pre a k rest, tr = pre ++ Event.endOfValues :: Event.destroyed a :: Event.key k :: rest →
        ∃ older v post, emitted es p k = older ++ [v] ∧ rest = Event.value v :: post ∧
          ∃ b c cs, (b, k, (c, v) :: cs) ∈ store s p := by
  obtain ⟨s, T, he, hinv, hkeys, hvals, hlen⟩ := build_spec N es hes
  obtain ⟨st', s', hr, _⟩ := reduce_thread_spec cb hcb st N s T hinv p hp cbFuel
    (by rw [hlen]; exact hcf)
  have hs := store_spec s N T p hinv hp
  refine ⟨s, st', s', _, he, hr, ?_⟩
  intro pre a k rest htr
  have htr' : trace_of (T p).dump =
      (pre ++ [Event.endOfValues, Event.destroyed a]) ++ Event.key k :: rest := by
    rw [htr]; simp
  obtain ⟨l1, b, vs, l2, e1, _, e3⟩ := trace_of_key_split k _ _ rest htr'
  have hmem : (b, k, vs) ∈ (T p).dump := by rw [e1]; simp
  have hv := Shape.vals_of_mem_dump (T p) (hinv.ordered p hp) b k vs hmem
  rw [hvals p hp k] at hv
  have hkm : k ∈ (T p).keys := by
    rw [← Shape.dump_keys]
    exact List.mem_map.2 ⟨_, hmem, rfl⟩
  obtain ⟨w, hw⟩ := (hkeys p hp k).1 hkm
  have hne := emitted_ne_nil es p k w hw
  obtain ⟨older, v, hov⟩ : ∃ older v, emitted es p k = older ++ [v] :=
    ⟨(emitted es p k).dropLast, (emitted es p k).getLast hne,
      (List.dropLast_append_getLast hne).symm⟩
  rw [hov, List.reverse_append] at hv
  cases vs with
  | nil => simp at hv
  | cons c0 cs =>
    obtain ⟨c, v0⟩ := c0
    simp only [List.reverse_cons, List.reverse_nil, List.nil_append, List.singleton_append,
      List.map_cons, List.cons.injEq] at hv
    obtain ⟨hv0, _⟩ := hv
    subst hv0
    refine ⟨older, v, cs.map (fun c => Event.value c.2) ++
      [Event.endOfValues, Event.destroyed b] ++ trace_of l2, hov, ?_, b, c, cs, ?_⟩
    · rw [e3]; simp
    · rw [hs]; exact hmem

/-- C8 at a concrete input: after the values of `a` ended, the first answer for `b` is
the value emitted last under `b`. -/
theorem iterator_restarts_at_head_witness :
    PullsToEnd wc_reduce ∧ (0 < 1) ∧
    (∀ e ∈ [(0, [97], [49]), (0, [98], [50]), (0, [97], [51]), (0, [98], [52])], e.1 < 1) ∧
    (4 + 2 ≤ 6) ∧
    Except.bind (add_all (initState 1)
        [(0, [97], [49]), (0, [98], [50]), (0, [97], [51]), (0, [98], [52])])
      (fun s => Except.map (fun r => r.2.2) (reduce_thread wc_reduce 6 [] s 0)) =
      .ok [Event.key [97], .value [51], .value [49], .endOfValues, .destroyed 0,
        .key [98], .value [52], .value [50], .endOfValues, .destroyed 1] ∧
    ∃ s st' s' tr, add_all (initState 1)
        [(0, [97], [49]), (0, [98], [50]), (0, [97], [51]), (0, [98], [52])] = .ok s ∧
      reduce_thread wc_reduce 6 [] s 0 = .ok (st', s', tr) ∧
      ∀ pre a k rest, tr = pre ++ Event.endOfValues :: Event.destroyed a :: Event.key k :: rest →
        ∃ older v post, emitted [(0, [97], [49]), (0, [98], [50]), (0, [97], [51]),
            (0, [98], [52])] 0 k = older ++ [v] ∧ rest = Event.value v :: post ∧
          ∃ b c cs, (b, k, (c, v) :: cs) ∈ store s 0 :=
  ⟨wc_reduce_pulls, by decide, by decide, by decide, rfl,
    iterator_restarts_at_head wc_reduce wc_reduce_pulls [] 1 _ 0 (by decide) (by decide) 6
      (by decide)⟩

/-- C9: for every key and every partition count `n` with `0 < n` (an `int`), whether
`char` is signed or not, `MR_DefaultHashPartition` returns an index `i` with
`0 <= i < n`; `MR_Emit` with the default partitioner then works on partition `i`, and
the lookup of `i` in an array of `n` entries is within the array. -/
theorem default_partition_in_range (cs : Bool) (key : Str) (n : Int) (hpos : 0 < n)
    (hint : n ≤ 2147483647) :
    ∃ i : Nat, MR_DefaultHashPartition cs key n = .ok (i : Int) ∧ (i : Int) < n ∧
      (∀ (s : MR) (value : Str),
        MR_Emit (MR_DefaultHashPartition cs) n s (some key) (some value) =
          add_to_tree s i key value) ∧
      (∀ (s : MR), (s.bst_heads.length : Int) = n → ∃ h, rd s.bst_heads i = .ok h) := by
  obtain ⟨N, rfl⟩ : ∃ N : Nat, n = (N : Int) := ⟨n.toNat, (Int.toNat_of_nonneg (by omega)).symm⟩
  have hN : (N : Int) < 2 ^ 31 := by norm_num; omega
  obtain ⟨h1, h2⟩ := default_partition_nat cs key N (by omega) hN
  refine ⟨_, h1, by omega, ?_, ?_⟩
  · intro s value
    exact MR_Emit_eq_add_to_tree (MR_DefaultHashPartition cs) N hN s key value _ h1 h2
  · intro s hlen
    have hl : (hash_loop cs 5381 key % (N : Int)).toNat < s.bst_heads.length := by omega
    exact ⟨_, rd_ok (List.getElem?_eq_getElem hl)⟩

/-- C9 at a concrete input: a key with a byte above 127 on a target with signed `char`,
seven partitions. -/
theorem default_partition_in_range_witness :
    ((0 : Int) < 7) ∧ ((7 : Int) ≤ 2147483647) ∧
    MR_DefaultHashPartition true [200, 97] 7 = .ok 5 ∧
    ∃ i : Nat, MR_DefaultHashPartition true [200, 97] 7 = .ok (i : Int) ∧ (i : Int) < 7 ∧
      (∀ (s : MR) (value : Str),
        MR_Emit (MR_DefaultHashPartition true) 7 s (some [200, 97]) (some value) =
          add_to_tree s i [200, 97] value) ∧
      (∀ (s : MR), (s.bst_heads.length : Int) = 7 → ∃ h, rd s.bst_heads i = .ok h) :=
  ⟨by decide, by decide, rfl, default_partition_in_range true [200, 97] 7 (by decide) (by decide)⟩

theorem foldl_hash_congr (cs : Bool) :
    ∀ (key : Str) (h : Int), (∀ b ∈ key, charToInt cs b = (b : Int)) →
      key.foldl (fun h b => (h * 33 + charToInt cs b) % 2 ^ 64) h =
        key.foldl (fun h b => (h * 33 + (b : Int)) % 2 ^ 64) h
  | [], _, _ => rfl
  | b :: key, h, hb => by
    have h0 := hb b (List.mem_cons_self _ _)
    have ih := foldl_hash_congr cs key ((h * 33 + (b : Int)) % 2 ^ 64)
      (fun x hx => hb x (List.mem_cons_of_mem _ hx))
    simp only [List.foldl_cons, h0]
    exact ih

/-- C10, the claim as stated fails: on a target where plain `char` is signed, the key
made of the single byte 200 and seven partitions give index 4, while the byte-value
formula gives 1. -/
theorem default_hash_signed_char_differs :
    MR_DefaultHashPartition true [200] 7 = .ok 4 ∧ spec_hash_partition [200] 7 = 1 ∧
    MR_DefaultHashPartition true [200] 7 ≠ .ok (spec_hash_partition [200] 7) := by
  refine ⟨rfl, rfl, ?_⟩
  intro h
  have h1 : MR_DefaultHashPartition true [200] 7 = .ok 4 := rfl
  have h2 : spec_hash_partition [200] 7 = 1 := rfl
  rw [h1, h2] at h
  simp at h

/-- C10 as amended: for every key and every partition count `n` with `0 < n` (an `int`),
`MR_DefaultHashPartition` returns `h mod n`, where `h` starts at 5381 and every `char` of
the key in order replaces `h` by `(h * 33 + c)` modulo `2 ^ 64`, `c` being the `char`
converted to `int` (the byte's value, less 256 for bytes from 128 on where plain `char`
is signed); where plain `char` is unsigned, or no byte of the key is above 127, this is
the byte-value formula. -/
theorem default_hash_formula (cs : Bool) (key : Str) (n : Int) (hpos : 0 < n)
    (hint : n ≤ 2147483647) :
    MR_DefaultHashPartition cs key n =
      .ok ((key.foldl (fun h b => (h * 33 + charToInt cs b) % 2 ^ 64) 5381) % n) ∧
    ((cs = false ∨ ∀ b ∈ key, b < 128) →
      MR_DefaultHashPartition cs key n = .ok (spec_hash_partition key n)) := by
  obtain ⟨h1, _, _⟩ := default_partition_ok cs key n hpos hint
  rw [hash_loop_eq_foldl] at h1
  refine ⟨h1, ?_⟩
  intro hc
  rw [h1]
  unfold spec_hash_partition
  rw [foldl_hash_congr cs key 5381]
  intro b hb
  unfold charToInt
  rcases hc with hc | hc
  · subst hc; simp
  · have := hc b hb
    rw [if_neg (by omega)]

/-- C10 as amended, at a concrete input: an ASCII key on a target with signed `char`. -/
theorem default_hash_formula_witness :
    ((0 : Int) < 7) ∧ ((7 : Int) ≤ 2147483647) ∧
    (MR_DefaultHashPartition true [97, 98] 7 =
      .ok (((([97, 98] : Str).foldl (fun h b => (h * 33 + charToInt true b) % 2 ^ 64) 5381)) % 7) ∧
    ((true = false ∨ ∀ b ∈ ([97, 98] : Str), b < 128) →
      MR_DefaultHashPartition true [97, 98] 7 = .ok (spec_hash_partition [97, 98] 7))) :=
  ⟨by decide, by decide, default_hash_formula true [97, 98] 7 (by decide) (by decide)⟩

theorem noExit_iff {α : Type} (x : Except Fault α) : NoExit x ↔ x ≠ .error .exit1 := by
  unfold NoExit
  split
  · simp
  · rename_i h
    constructor
    · intro _ e
      exact h e
    · intro _
      trivial

theorem noExit_ok {α : Type} (v : α) : NoExit (Except.ok v : Except Fault α) := trivial

theorem noExit_pure {α : Type} (v : α) : NoExit (pure v : Except Fault α) := trivial

theorem noExit_error {α : Type} (e : Fault) (h : e ≠ .exit1) :
    NoExit (Except.error e : Except Fault α) := by
  rw [noExit_iff]
  intro h1
  injection h1 with h2
  exact h h2

theorem noExit_bind {α β : Type} {x : Except Fault α} {f : α → Except Fault β}
    (hx : NoExit x) (hf : ∀ v, NoExit (f v)) : NoExit (x >>= f) := by
  cases x with
  | error e =>
    cases e <;> exact hx
  | ok v => exact hf v

theorem noExit_bind_ok {α β : Type} {x : Except Fault α} {f : α → Except Fault β}
    (hx : NoExit x) (hf : ∀ v, x = .ok v → NoExit (f v)) : NoExit (x >>= f) := by
  cases x with
  | error e =>
    cases e <;> exact hx
  | ok v => exact hf v rfl

theorem noExit_rd {α : Type} (xs : List α) (i : Nat) : NoExit (rd xs i) := by
  unfold rd; split
  · exact noExit_ok _
  · exact noExit_error _ (by decide)

theorem noExit_wr {α : Type} (xs : List α) (i : Nat) (v : α) : NoExit (wr xs i v) := by
  unfold wr; split
  · exact noExit_ok _
  · exact noExit_error _ (by decide)

theorem noExit_readNode (s : MR) (a : Nat) : NoExit (readNode s a) := by
  unfold readNode; split
  · exact noExit_ok _
  · exact noExit_error _ (by decide)
  · exact noExit_error _ (by decide)

theorem noExit_readCell (s : MR) (a : Nat) : NoExit (readCell s a) := by
  unfold readCell; split
  · exact noExit_ok _
  · exact noExit_error _ (by decide)
  · exact noExit_error _ (by decide)

theorem noExit_deref (p : Option Nat) : NoExit (deref p) := by
  unfold deref; split
  · exact noExit_ok _
  · exact noExit_error _ (by decide)

theorem noExit_freeCell (s : MR) (a : Nat) : NoExit (freeCell s a) := by
  unfold freeCell; split
  · exact noExit_ok _
  · exact noExit_error _ (by decide)
  · exact noExit_error _ (by decide)

theorem noExit_freeNodeMem (s : MR) (a : Nat) : NoExit (freeNodeMem s a) := by
  unfold freeNodeMem; split
  · exact noExit_ok _
  · exact noExit_error _ (by decide)
  · exact noExit_error _ (by decide)

theorem noExit_value_push (s : MR) (node : Nat) (value : Str) :
    NoExit (value_push s node value) := by
  unfold value_push
  repeat' (first
    | exact noExit_ok _ | exact noExit_pure _ | exact noExit_readNode _ _
    | apply noExit_bind | intro _ | dsimp only | split)

theorem noExit_add_loop (key value : Str) :
    ∀ (fuel : Nat) (s : MR) (p : Nat), NoExit (add_loop key value fuel s p)
  | 0, _, _ => noExit_error _ (by decide)
  | fuel + 1, s, p => by
    have ih := noExit_add_loop key value fuel
    unfold add_loop
    repeat' (first
      | exact noExit_ok _ | exact noExit_pure _ | exact noExit_readNode _ _
      | exact noExit_value_push _ _ _ | exact ih _ _
      | apply noExit_bind | intro _ | dsimp only | split)

theorem noExit_add_to_tree (s : MR) (p : Nat) (key value : Str) :
    NoExit (add_to_tree s p key value) := by
  unfold add_to_tree
  repeat' (first
    | exact noExit_ok _ | exact noExit_pure _ | exact noExit_readNode _ _
    | exact noExit_rd _ _ | exact noExit_wr _ _ _
    | exact noExit_value_push _ _ _ | exact noExit_add_loop _ _ _ _ _
    | apply noExit_bind | intro _ | dsimp only | split)

theorem noExit_free_values (node : Nat) :
    ∀ (fuel : Nat) (s : MR), NoExit (free_values node fuel s)
  | 0, _ => noExit_error _ (by decide)
  | fuel + 1, s => by
    have ih := noExit_free_values node fuel
    unfold free_values
    repeat' (first
      | exact noExit_ok _ | exact noExit_pure _ | exact noExit_readNode _ _
      | exact noExit_readCell _ _ | exact noExit_freeCell _ _ | exact ih _
      | apply noExit_bind | intro _ | dsimp only | split)

theorem noExit_free_node (s : MR) (node : Nat) : NoExit (free_node s node) := by
  unfold free_node
  exact noExit_bind (noExit_free_values _ _ _) (fun _ => noExit_freeNodeMem _ _)

theorem noExit_leftmost_loop :
    ∀ (fuel : Nat) (s : MR) (p : Nat), NoExit (leftmost_loop fuel s p)
  | 0, _, _ => noExit_error _ (by decide)
  | fuel + 1, s, p => by
    have ih := noExit_leftmost_loop fuel
    unfold leftmost_loop
    repeat' (first
      | exact noExit_ok _ | exact noExit_pure _ | exact noExit_readNode _ _
      | exact ih _ _
      | apply noExit_bind | intro _ | dsimp only | split)

theorem noExit_get_low_key (s : MR) (p : Nat) : NoExit (get_low_key s p) := by
  unfold get_low_key
  repeat' (first
    | exact noExit_ok _ | exact noExit_pure _ | exact noExit_readNode _ _
    | exact noExit_rd _ _ | exact noExit_wr _ _ _ | exact noExit_deref _
    | exact noExit_free_node _ _ | exact noExit_leftmost_loop _ _ _
    | apply noExit_bind | intro _ | dsimp only | split)

theorem noExit_get_next_value (s : MR) (key : Str) (p : Nat) :
    NoExit (get_next_value s key p) := by
  unfold get_next_value
  repeat' (first
    | exact noExit_ok _ | exact noExit_pure _ | exact noExit_readNode _ _
    | exact noExit_readCell _ _
    | exact noExit_rd _ _ | exact noExit_wr _ _ _ | exact noExit_deref _
    | apply noExit_bind | intro _ | dsimp only | split)

theorem noExit_run_reducer {σ : Type} (cb : Reducer σ) (key : Str) (p : Nat) :
    ∀ (fuel : Nat) (stp : Step σ) (s : MR), NoExit (run_reducer cb key p fuel stp s)
  | 0, _, _ => noExit_error _ (by decide)
  | _ + 1, .ret _, _ => noExit_ok _
  | fuel + 1, .pull st, s => by
    have ih := noExit_run_reducer cb key p fuel
    unfold run_reducer
    repeat' (first
      | exact noExit_ok _ | exact noExit_pure _ | exact noExit_get_next_value _ _ _
      | exact ih _ _
      | apply noExit_bind | intro _)

theorem noExit_reduce_loop {σ : Type} (cb : Reducer σ) (cbFuel p : Nat) :
    ∀ (fuel : Nat) (st : σ) (s : MR), NoExit (reduce_loop cb cbFuel p fuel st s)
  | 0, _, _ => noExit_error _ (by decide)
  | fuel + 1, st, s => by
    have ih := noExit_reduce_loop cb cbFuel p fuel
    unfold reduce_loop
    repeat' (first
      | exact noExit_ok _ | exact noExit_pure _ | exact noExit_get_low_key _ _
      | exact noExit_rd _ _ | exact noExit_run_reducer _ _ _ _ _ _
      | exact ih _ _
      | apply noExit_bind | intro _ | dsimp only | split)

theorem noExit_reduce_all {σ : Type} (cb : Reducer σ) (cbFuel : Nat) :
    ∀ (ps : List Nat) (st : σ) (s : MR), NoExit (reduce_all cb cbFuel st s ps)
  | [], _, _ => noExit_ok _
  | p :: ps, st, s => by
    have ih := noExit_reduce_all cb cbFuel ps
    unfold reduce_all
    repeat' (first
      | exact noExit_ok _ | exact noExit_pure _
      | exact noExit_reduce_loop _ _ _ _ _ _
      | exact ih _ _
      | apply noExit_bind | intro _)

theorem noExit_default_partition (cs : Bool) (key : Str) (n : Int) :
    NoExit (MR_DefaultHashPartition cs key n) := by
  unfold MR_DefaultHashPartition
  dsimp only
  split
  · exact noExit_error _ (by decide)
  · exact noExit_ok _

theorem noExit_MR_Emit (parter : Partitioner) (N : Int) (s : MR) (k v : Str)
    (hp : NoExit (parter k N)) : NoExit (MR_Emit parter N s (some k) (some v)) := by
  unfold MR_Emit
  dsimp only
  apply noExit_bind hp
  intro i
  dsimp only
  split
  · exact noExit_error _ (by decide)
  · exact noExit_add_to_tree _ _ _ _

theorem files_get_unit (units : List Str) (cf : Nat) (h : cf < units.length) :
    (units.map some ++ [none])[cf]? = some (some (units.get ⟨cf, h⟩)) := by
  rw [List.getElem?_append_left (by simpa using h)]
  simp [List.getElem?_eq_getElem h]

theorem files_get_end (units : List Str) :
    (units.map some ++ [none])[units.length]? = some none := by
  have : units.length = (units.map some).length := by simp
  rw [List.getElem?_append_right (by simp)]
  simp

theorem units_work_drop (mapper : Mapper) (units : List Str) (cf : Nat) (h : cf < units.length) :
    units_work mapper (units.drop cf) =
      (mapper (units.get ⟨cf, h⟩)).length + 2 + units_work mapper (units.drop (cf + 1)) := by
  have : units.drop cf = units.get ⟨cf, h⟩ :: units.drop (cf + 1) :=
    List.drop_eq_getElem_cons h
  unfold units_work
  rw [this, List.map_cons, List.sum_cons]

theorem units_work_drop_le (mapper : Mapper) (units : List Str) :
    ∀ (a b : Nat), a ≤ b → units_work mapper (units.drop b) ≤ units_work mapper (units.drop a) := by
  intro a b hab
  induction hab with
  | refl => exact le_refl _
  | step hab ih =>
    rename_i c
    by_cases h : c < units.length
    · rw [units_work_drop mapper units c h] at ih
      show units_work mapper (units.drop (c + 1)) ≤ _
      omega
    · have : units.drop (c + 1) = [] := List.drop_eq_nil_of_le (by omega)
      show units_work mapper (units.drop (c + 1)) ≤ _
      rw [this]
      simp [units_work]

theorem take_succ_get (units : List Str) (cf : Nat) (h : cf < units.length) :
    units.take (cf + 1) = units.take cf ++ [units.get ⟨cf, h⟩] := by
  rw [List.take_succ, List.getElem?_eq_getElem h]
  rfl

theorem map_step_none (mapper : Mapper) (parter : Partitioner) (N : Int)
    (files : List (Option Str)) (m : MapPhase) (i : Nat) (h : m.threads[i]? = none) :
    map_step mapper parter N files m i = .ok m := by
  unfold map_step
  rw [h]

theorem map_step_finished (mapper : Mapper) (parter : Partitioner) (N : Int)
    (files : List (Option Str)) (m : MapPhase) (i : Nat) (t : MapThread)
    (h : m.threads[i]? = some t) (hf : t.finished = true) :
    map_step mapper parter N files m i = .ok m := by
  unfold map_step
  rw [h]
  dsimp only
  rw [if_pos hf]

theorem map_step_emit_eq (mapper : Mapper) (parter : Partitioner) (N : Int)
    (files : List (Option Str)) (m : MapPhase) (i : Nat) (t : MapThread)
    (k v : Option Str) (rest : List (Option Str × Option Str))
    (h : m.threads[i]? = some t) (hf : t.finished = false) (hp : t.pending = (k, v) :: rest) :
    map_step mapper parter N files m i =
      (MR_Emit parter N m.mr k v >>= fun s1 =>
        pure ⟨s1, m.current_file, m.threads.set i ⟨rest, t.file, t.finished⟩, m.calls⟩) := by
  unfold map_step
  rw [h]
  dsimp only
  rw [if_neg (by rw [hf]; decide), hp]

theorem map_step_emit (mapper : Mapper) (parter : Partitioner) (N : Int)
    (files : List (Option Str)) (m : MapPhase) (i : Nat) (t : MapThread)
    (k v : Option Str) (rest : List (Option Str × Option Str)) (s1 : MR)
    (h : m.threads[i]? = some t) (hf : t.finished = false) (hp : t.pending = (k, v) :: rest)
    (he : MR_Emit parter N m.mr k v = .ok s1) :
    map_step mapper parter N files m i =
      .ok ⟨s1, m.current_file, m.threads.set i ⟨rest, t.file, t.finished⟩, m.calls⟩ := by
  rw [map_step_emit_eq mapper parter N files m i t k v rest h hf hp, he]
  rfl

theorem map_step_call (mapper : Mapper) (parter : Partitioner) (N : Int)
    (files : List (Option Str)) (m : MapPhase) (i : Nat) (t : MapThread) (f : Str)
    (h : m.threads[i]? = some t) (hf : t.finished = false) (hp : t.pending = [])
    (hfile : t.file = some f) :
    map_step mapper parter N files m i =
      .ok ⟨m.mr, m.current_file, m.threads.set i ⟨mapper f, none, t.finished⟩,
        m.calls ++ [f]⟩ := by
  unfold map_step
  rw [h]
  dsimp only
  rw [if_neg (by rw [hf]; decide), hp]
  dsimp only
  rw [hfile]
  rfl

theorem map_step_fetch (mapper : Mapper) (parter : Partitioner) (N : Int)
    (files : List (Option Str)) (m : MapPhase) (i : Nat) (t : MapThread) (f : Str)
    (h : m.threads[i]? = some t) (hf : t.finished = false) (hp : t.pending = [])
    (hnone : t.file = none) (hfile : files[m.current_file]? = some (some f)) :
    map_step mapper parter N files m i =
      .ok ⟨m.mr, m.current_file + 1, m.threads.set i ⟨t.pending, some f, t.finished⟩,
        m.calls⟩ := by
  unfold map_step
  rw [h]
  dsimp only
  rw [if_neg (by rw [hf]; decide), hp]
  dsimp only
  rw [hnone]
  dsimp only
  unfold next_file
  rw [hfile]
  rfl

theorem map_step_last (mapper : Mapper) (parter : Partitioner) (N : Int)
    (files : List (Option Str)) (m : MapPhase) (i : Nat) (t : MapThread)
    (h : m.threads[i]? = some t) (hf : t.finished = false) (hp : t.pending = [])
    (hnone : t.file = none) (hfile : files[m.current_file]? = some none) :
    map_step mapper parter N files m i =
      .ok ⟨m.mr, m.current_file, m.threads.set i ⟨t.pending, t.file, true⟩, m.calls⟩ := by
  unfold map_step
  rw [h]
  dsimp only
  rw [if_neg (by rw [hf]; decide), hp]
  dsimp only
  rw [hnone]
  dsimp only
  unfold next_file
  rw [hfile]
  rfl

theorem map_step_beyond (mapper : Mapper) (parter : Partitioner) (N : Int)
    (files : List (Option Str)) (m : MapPhase) (i : Nat) (t : MapThread)
    (h : m.threads[i]? = some t) (hf : t.finished = false) (hp : t.pending = [])
    (hnone : t.file = none) (hfile : files[m.current_file]? = none) :
    map_step mapper parter N files m i = .error .outOfBounds := by
  unfold map_step
  rw [h]
  dsimp only
  rw [if_neg (by rw [hf]; decide), hp]
  dsimp only
  rw [hnone]
  dsimp only
  unfold next_file
  rw [hfile]
  rfl

/-- The units of a list of workers after one worker was replaced. -/
theorem filterMap_file_set :
    ∀ (l : List MapThread) (i : Nat) (t t2 : MapThread), l[i]? = some t →
      (t2.file.toList ++ l.filterMap (fun t => t.file)).Perm
        (t.file.toList ++ (l.set i t2).filterMap (fun t => t.file))
  | [], _, _, _, h => by simp at h
  | x :: l, 0, t, t2, h => by
    simp only [List.getElem?_cons_zero, Option.some.injEq] at h
    subst h
    simp only [List.set_cons_zero]
    have e : ∀ (y : MapThread) (r : List MapThread),
        (y :: r).filterMap (fun t => t.file) = y.file.toList ++ r.filterMap (fun t => t.file) := by
      intro y r
      cases hy : y.file <;> simp [List.filterMap_cons, hy]
    rw [e, e]
    exact List.perm_append_comm_assoc _ _ _
  | x :: l, i + 1, t, t2, h => by
    simp only [List.getElem?_cons_succ] at h
    have ih := filterMap_file_set l i t t2 h
    simp only [List.set_cons_succ]
    have e : ∀ (y : MapThread) (r : List MapThread),
        (y :: r).filterMap (fun t => t.file) = y.file.toList ++ r.filterMap (fun t => t.file) := by
      intro y r
      cases hy : y.file <;> simp [List.filterMap_cons, hy]
    rw [e, e]
    exact (List.perm_append_comm_assoc _ _ _).trans
      ((ih.append_left _).trans (List.perm_append_comm_assoc _ _ _))

theorem noExit_next_file (files : List (Option Str)) (cf : Nat) : NoExit (next_file files cf) := by
  unfold next_file
  split
  · exact noExit_ok _
  · exact noExit_ok _
  · exact noExit_error _ (by decide)

theorem present_set (files : List (Option Str)) (m : MapPhase) (i : Nat) (t2 : MapThread)
    (mr : MR) (cf : Nat) (calls : List Str) (h : Present files m)
    (h2 : (∀ e ∈ t2.pending, ∃ (k v : Str), e = (some k, some v)) ∧
      ∀ f, t2.file = some f → some f ∈ files) :
    Present files ⟨mr, cf, m.threads.set i t2, calls⟩ := by
  intro t3 ht3
  rcases List.mem_or_eq_of_mem_set ht3 with h1 | h1
  · exact h t3 h1
  · rw [h1]; exact h2

/-- A step of a map worker whose emits all pass a key and a value does not end in
`exit(1)` and leaves such a state. -/
theorem map_step_present (mapper : Mapper) (parter : Partitioner) (N : Int)
    (files : List (Option Str)) (m : MapPhase) (i : Nat)
    (hm : ∀ f, some f ∈ files → ∀ e ∈ mapper f, ∃ (k v : Str), e = (some k, some v))
    (hp : ∀ k, NoExit (parter k N)) (h : Present files m) :
    NoExit (map_step mapper parter N files m i) ∧
    ∀ m', map_step mapper parter N files m i = .ok m' → Present files m' := by
  cases hti : m.threads[i]? with
  | none =>
    rw [map_step_none _ _ _ _ _ _ hti]
    refine ⟨noExit_ok _, fun m' he => ?_⟩
    simp only [Except.ok.injEq] at he
    rw [← he]; exact h
  | some t =>
    have htm : t ∈ m.threads := List.getElem?_mem hti
    cases hf : t.finished with
    | true =>
      rw [map_step_finished _ _ _ _ _ _ t hti hf]
      refine ⟨noExit_ok _, fun m' he => ?_⟩
      simp only [Except.ok.injEq] at he
      rw [← he]; exact h
    | false =>
      cases hpd : t.pending with
      | cons e rest =>
        obtain ⟨k, v⟩ := e
        obtain ⟨k0, v0, hkv⟩ := (h t htm).1 (k, v) (by rw [hpd]; exact List.mem_cons_self _ _)
        simp only [Prod.mk.injEq] at hkv
        obtain ⟨hk, hv⟩ := hkv
        subst hk; subst hv
        rw [map_step_emit_eq _ _ _ _ _ _ t _ _ rest hti hf hpd]
        refine ⟨noExit_bind (noExit_MR_Emit _ _ _ _ _ (hp k0)) (fun _ => noExit_pure _),
          fun m' he => ?_⟩
        obtain ⟨s1, _, he2⟩ := bind_eq_ok he
        simp only [pure, Except.pure, Except.ok.injEq] at he2
        rw [← he2]
        refine present_set files m i _ _ _ _ h ⟨?_, (h t htm).2⟩
        intro e he3
        exact (h t htm).1 e (by rw [hpd]; exact List.mem_cons_of_mem _ he3)
      | nil =>
        cases hfl : t.file with
        | some f =>
          rw [map_step_call _ _ _ _ _ _ t f hti hf hpd hfl]
          refine ⟨noExit_ok _, fun m' he => ?_⟩
          simp only [Except.ok.injEq] at he
          rw [← he]
          refine present_set files m i _ _ _ _ h ⟨?_, ?_⟩
          · exact hm f ((h t htm).2 f hfl)
          · intro f2 hf2; cases hf2
        | none =>
          cases hfiles : files[m.current_file]? with
          | none =>
            rw [map_step_beyond _ _ _ _ _ _ t hti hf hpd hfl hfiles]
            exact ⟨noExit_error _ (by decide), fun m' he => by cases he⟩
          | some file =>
            cases file with
            | none =>
              rw [map_step_last _ _ _ _ _ _ t hti hf hpd hfl hfiles]
              refine ⟨noExit_ok _, fun m' he => ?_⟩
              simp only [Except.ok.injEq] at he
              rw [← he]
              exact present_set files m i _ _ _ _ h (h t htm)
            | some f =>
              rw [map_step_fetch _ _ _ _ _ _ t f hti hf hpd hfl hfiles]
              refine ⟨noExit_ok _, fun m' he => ?_⟩
              simp only [Except.ok.injEq] at he
              rw [← he]
              refine present_set files m i _ _ _ _ h ⟨(h t htm).1, ?_⟩
              intro f2 hf2
              simp only [Option.some.injEq] at hf2
              rw [← hf2]
              exact List.getElem?_mem hfiles

theorem map_steps_present (mapper : Mapper) (parter : Partitioner) (N : Int)
    (files : List (Option Str))
    (hm : ∀ f, some f ∈ files → ∀ e ∈ mapper f, ∃ (k v : Str), e = (some k, some v))
    (hp : ∀ k, NoExit (parter k N)) :
    ∀ (sched : List Nat) (m : MapPhase), Present files m →
      NoExit (map_steps mapper parter N files m sched) ∧
      ∀ m', map_steps mapper parter N files m sched = .ok m' → Present files m'
  | [], m, h => ⟨noExit_ok _, fun m' he => by
      simp only [map_steps, Except.ok.injEq] at he
      rw [← he]; exact h⟩
  | i :: sched, m, h => by
    obtain ⟨h1, h2⟩ := map_step_present mapper parter N files m i hm hp h
    constructor
    · unfold map_steps
      cases he : map_step mapper parter N files m i with
      | error e => rw [he] at h1; cases e <;> exact h1
      | ok m1 =>
        exact (map_steps_present mapper parter N files hm hp sched m1 (h2 m1 he)).1
    · intro m' he
      unfold map_steps at he
      obtain ⟨m1, he1, he2⟩ := bind_eq_ok he
      exact (map_steps_present mapper parter N files hm hp sched m1 (h2 m1 he1)).2 m' he2

theorem map_thread_present (mapper : Mapper) (parter : Partitioner) (N : Int)
    (files : List (Option Str))
    (hm : ∀ f, some f ∈ files → ∀ e ∈ mapper f, ∃ (k v : Str), e = (some k, some v))
    (hp : ∀ k, NoExit (parter k N)) (i : Nat) :
    ∀ (fuel : Nat) (m : MapPhase), Present files m →
      NoExit (map_thread mapper parter N files i fuel m) ∧
      ∀ m', map_thread mapper parter N files i fuel m = .ok m' → Present files m'
  | 0, m, h => ⟨noExit_error _ (by decide), fun m' he => by simp [map_thread] at he⟩
  | fuel + 1, m, h => by
    unfold map_thread
    cases hti : m.threads[i]? with
    | none =>
      refine ⟨noExit_ok _, fun m' he => ?_⟩
      simp only [Except.ok.injEq] at he
      rw [← he]; exact h
    | some t =>
      dsimp only
      by_cases hf : t.finished = true
      · rw [if_pos hf]
        refine ⟨noExit_ok _, fun m' he => ?_⟩
        simp only [Except.ok.injEq] at he
        rw [← he]; exact h
      · rw [if_neg hf]
        obtain ⟨h1, h2⟩ := map_step_present mapper parter N files m i hm hp h
        constructor
        · cases he : map_step mapper parter N files m i with
          | error e => rw [he] at h1; cases e <;> exact h1
          | ok m1 =>
            exact (map_thread_present mapper parter N files hm hp i fuel m1 (h2 m1 he)).1
        · intro m' he
          obtain ⟨m1, he1, he2⟩ := bind_eq_ok he
          exact (map_thread_present mapper parter N files hm hp i fuel m1 (h2 m1 he1)).2 m' he2

theorem map_join_present (mapper : Mapper) (parter : Partitioner) (N : Int)
    (files : List (Option Str))
    (hm : ∀ f, some f ∈ files → ∀ e ∈ mapper f, ∃ (k v : Str), e = (some k, some v))
    (hp : ∀ k, NoExit (parter k N)) (fuel : Nat) :
    ∀ (is : List Nat) (m : MapPhase), Present files m →
      NoExit (map_join mapper parter N files fuel m is)
  | [], m, h => noExit_ok _
  | i :: is, m, h => by
    have h1 := map_thread_present mapper parter N files hm hp i fuel m h
    unfold map_join
    cases he : map_thread mapper parter N files i fuel m with
    | error e => rw [he] at h1; cases e <;> exact h1.1
    | ok m1 =>
      exact map_join_present mapper parter N files hm hp fuel is m1 (h1.2 m1 he)

theorem present_start (files : List (Option Str)) (s : MR) (n cf : Nat)
    (calls : List Str) :
    Present files ⟨s, cf, List.replicate n ⟨[], none, false⟩, calls⟩ := by
  intro t ht
  rw [List.eq_of_mem_replicate ht]
  constructor
  · intro e he
    simp at he
  · intro f hf
    cases hf

/-- With array sizes that are positive and within `int`, a valid configuration, a map
callback that passes a key and a value to every `MR_Emit` and a partition function that
returns, `MR_Run` does not end in `exit(1)`. -/
theorem noExit_MR_Run {σ : Type} (cs : Bool) (sched : List Nat) (cbFuel : Nat) (st : σ)
    (argv : List Str) (mapper : Mapper) (num_mappers : Int) (reducer : Reducer σ)
    (num_reducers : Int) (partition : Option Partitioner)
    (hvalid : ¬ ((argv.length : Int) ≤ 1 ∨ num_mappers ≤ 0 ∨ num_reducers ≤ 0))
    (hm : ∀ f ∈ argv.drop 1, ∀ e ∈ mapper f, ∃ (k v : Str), e = (some k, some v))
    (hp : ∀ f, partition = some f → ∀ k, NoExit (f k num_reducers)) :
    NoExit (MR_Run cs sched cbFuel st argv (some mapper) num_mappers (some reducer)
      num_reducers partition) := by
  unfold MR_Run
  by_cases ho : num_reducers + num_mappers < -(2 ^ 31) ∨ 2 ^ 31 ≤ num_reducers + num_mappers
  · rw [if_pos ho]
    exact noExit_error _ (by decide)
  rw [if_neg ho]
  by_cases hv : num_reducers + num_mappers ≤ 0 ∨ num_reducers ≤ 0
  · rw [if_pos hv]
    exact noExit_error _ (by decide)
  rw [if_neg hv]
  dsimp only
  rw [if_neg hvalid]
  have hm2 : ∀ f, some f ∈ (argv.drop 1).map some ++ [none] →
      ∀ e ∈ mapper f, ∃ (k v : Str), e = (some k, some v) := by
    intro f hf
    simp only [List.mem_append, List.mem_map, Option.some.injEq, exists_eq_right,
      List.mem_singleton] at hf
    rcases hf with hf | hf
    · exact hm f hf
    · cases hf
  have hp2 : ∀ k, NoExit ((match partition with
      | none => MR_DefaultHashPartition cs
      | some f => f) k num_reducers) := by
    intro k
    cases partition with
    | none => exact noExit_default_partition _ _ _
    | some f => exact hp f rfl k
  have h1 := map_steps_present mapper _ num_reducers _ hm2 hp2 sched _
    (present_start ((argv.drop 1).map some ++ [none]) (initState num_reducers.toNat)
      num_mappers.toNat 0 [])
  refine noExit_bind_ok h1.1 ?_
  intro m1 hok
  refine noExit_bind (map_join_present mapper _ num_reducers _ hm2 hp2 _ _ m1 (h1.2 m1 hok)) ?_
  intro m2
  exact noExit_reduce_all _ _ _ _ _

/-- A worker count that makes the size of one of the arrays `threads` or
`partition_nums` non-positive is undefined behaviour before the arguments are
checked. -/
theorem MR_Run_bad_array {σ : Type} (cs : Bool) (sched : List Nat) (cbFuel : Nat)
    (st : σ) (argv : List Str) (map : Option Mapper) (num_mappers : Int)
    (reduce : Option (Reducer σ)) (num_reducers : Int) (partition : Option Partitioner)
    (hlo : -(2 ^ 31) ≤ num_reducers + num_mappers) (hhi : num_reducers + num_mappers < 2 ^ 31)
    (h : num_reducers + num_mappers ≤ 0 ∨ num_reducers ≤ 0) :
    MR_Run cs sched cbFuel st argv map num_mappers reduce num_reducers partition =
      .error .badArraySize := by
  unfold MR_Run
  rw [if_neg (by omega), if_pos h]

/-- Where both array sizes are positive, `MR_Run` ends in `exit(1)` when the argument
vector names no unit, a callback is NULL or `num_mappers` is not positive, whatever the
callbacks and the schedule are; with a map callback that passes a key and a value to
every `MR_Emit` and a partition function that returns it does not end in `exit(1)`
otherwise; and a NULL partition function is the default hash partitioner. -/
theorem MR_Run_validation {σ : Type} (cs : Bool) (sched : List Nat) (cbFuel : Nat)
    (st : σ) (argv : List Str) (map : Option Mapper) (num_mappers : Int)
    (reduce : Option (Reducer σ)) (num_reducers : Int) (partition : Option Partitioner)
    (hhi : num_reducers + num_mappers < 2 ^ 31) (hsum : 0 < num_reducers + num_mappers)
    (hred : 0 < num_reducers) :
    ((argv.length : Int) ≤ 1 ∨ map = none ∨ reduce = none ∨ num_mappers ≤ 0 →
      MR_Run cs sched cbFuel st argv map num_mappers reduce num_reducers partition =
        .error .exit1) ∧
    (∀ mapper reducer, map = some mapper → reduce = some reducer →
      (∀ f ∈ argv.drop 1, ∀ e ∈ mapper f, e.1 ≠ none ∧ e.2 ≠ none) →
      (∀ f, partition = some f → ∀ k, f k num_reducers ≠ .error .exit1) →
      1 < (argv.length : Int) → 0 < num_mappers →
      MR_Run cs sched cbFuel st argv map num_mappers reduce num_reducers partition ≠
        .error .exit1) ∧
    MR_Run cs sched cbFuel st argv map num_mappers reduce num_reducers none =
      MR_Run cs sched cbFuel st argv map num_mappers reduce num_reducers
        (some (MR_DefaultHashPartition cs)) := by
  refine ⟨?_, ?_, rfl⟩
  · intro h
    unfold MR_Run
    rw [if_neg (by omega), if_neg (by omega)]
    cases map with
    | none => rfl
    | some mapper =>
      cases reduce with
      | none => rfl
      | some reducer =>
        have h2 : (argv.length : Int) ≤ 1 ∨ num_mappers ≤ 0 ∨ num_reducers ≤ 0 := by
          rcases h with h | h | h | h
          · exact Or.inl h
          · cases h
          · cases h
          · exact Or.inr (Or.inl h)
        dsimp only
        rw [if_pos h2]
  · intro mapper reducer hm hr hemit hpart h1 h2
    subst hm; subst hr
    have hvalid : ¬ ((argv.length : Int) ≤ 1 ∨ num_mappers ≤ 0 ∨ num_reducers ≤ 0) := by
      omega
    refine (noExit_iff _).1 (noExit_MR_Run cs sched cbFuel st argv mapper num_mappers reducer
      num_reducers partition hvalid ?_ ?_)
    · intro f hf e he
      obtain ⟨h1, h2⟩ := hemit f hf e he
      obtain ⟨k, v⟩ := e
      cases k with
      | none => exact absurd rfl h1
      | some k =>
        cases v with
        | none => exact absurd rfl h2
        | some v => exact ⟨k, v, rfl⟩
    · intro f hf k
      exact (noExit_iff _).2 (hpart f hf k)

/-- C11: `MR_Run` declares the arrays `threads[num_reducers+num_mappers]` and
`partition_nums[num_reducers]` before it checks its arguments.  With the units, the
callbacks and one mapper of the word-count scenario, `num_reducers = 0` does not reach
the check and `exit(1)`: the array size 0 is undefined behaviour; the same holds for
`num_mappers = -5000` with one reducer, where the sum is negative.  The configurations
the check does reach end in `exit(1)`: `num_mappers = 0` with one reducer (also with a
map callback that would pass NULL to `MR_Emit` and a partition function that would
fault), an argument vector that names no unit, a NULL map callback and a NULL reduce
callback. -/
theorem MR_Run_arrays_before_validation :
    MR_Run true [] 5 ([] : List (Str × Nat)) wc_argv (some wc_map) 1 (some wc_reduce) 0 none =
      .error .badArraySize ∧
    MR_Run true [] 5 ([] : List (Str × Nat)) wc_argv (some wc_map) (-5000) (some wc_reduce) 1
      none = .error .badArraySize ∧
    MR_Run true [0, 0] 5 ([] : List (Str × Nat)) wc_argv (some (fun _ => [(none, none)])) 0
      (some wc_reduce) 1 (some (fun _ _ => .error .divByZero)) = .error .exit1 ∧
    MR_Run true [] 5 ([] : List (Str × Nat)) [[112]] (some wc_map) 1 (some wc_reduce) 1 none =
      .error .exit1 ∧
    MR_Run true [] 5 ([] : List (Str × Nat)) wc_argv none 1 (some wc_reduce) 1 none =
      .error .exit1 ∧
    MR_Run true [] 5 ([] : List (Str × Nat)) wc_argv (some wc_map) 1 none 1 none =
      .error .exit1 :=
  ⟨rfl, rfl, rfl, rfl, rfl, rfl⟩

/-- C12: `MR_Emit` ends in `exit(1)` when the key or the value is NULL, whatever the
partition function is (it is not called, and no state comes back); with a key and a
value, also empty strings, and a partition function that returns, it does not end in
`exit(1)`; and on a built state with the partition number in range it returns, the key
is in the store of that partition with the value at the head of its value list, before
the values it had, and the values of every other key and partition are as before. -/
theorem MR_Emit_fatal_iff_null (parter : Partitioner) (num_partitions : Int) (s : MR)
    (key value : Option Str) :
    (key = none ∨ value = none →
      MR_Emit parter num_partitions s key value = .error .exit1) ∧
    (∀ k v, key = some k → value = some v → parter k num_partitions ≠ .error .exit1 →
      MR_Emit parter num_partitions s key value ≠ .error .exit1) ∧
    (∀ (k v : Str) (N : Nat) (T : Nat → Shape) (i : Nat), key = some k → value = some v →
      num_partitions = (N : Int) → (N : Int) < 2 ^ 31 → Inv s N T →
      parter k num_partitions = .ok (i : Int) → i < N →
      ∃ s', MR_Emit parter num_partitions s key value = .ok s' ∧ (∃ T', Inv s' N T') ∧
        k ∈ store_keys s' i ∧ store_values s' i k = v :: store_values s i k ∧
        ∀ j k', j < N → (j ≠ i ∨ k' ≠ k) → store_values s' j k' = store_values s j k') := by
  refine ⟨?_, ?_, ?_⟩
  · intro h
    rcases h with h | h
    · subst h; rfl
    · subst h
      cases key <;> rfl
  · intro k v hk hv hp
    subst hk; subst hv
    exact (noExit_iff _).1 (noExit_MR_Emit parter num_partitions s k v ((noExit_iff _).2 hp))
  · intro k v N T i hk hv hN hlt hinv hpart hi
    subst hk; subst hv; subst hN
    rw [MR_Emit_eq_add_to_tree parter N hlt s k v i hpart hi]
    obtain ⟨s', he, hinv', _⟩ := add_to_tree_spec s N T i k v hinv hi
    refine ⟨s', he, ⟨_, hinv'⟩, ?_, ?_, ?_⟩
    · rw [store_keys_spec s' N _ i hinv' hi, Function.update_same, Shape.mem_keys_insert]
      exact Or.inl rfl
    · rw [store_values_spec s' N _ i hinv' hi, store_values_spec s N T i hinv hi,
        Function.update_same, Shape.vals_insert _ _ _ _ _ _ (hinv.ordered i hi), if_pos rfl]
    · intro j k' hj hne
      rw [store_values_spec s' N _ j hinv' hj, store_values_spec s N T j hinv hj]
      by_cases hji : j = i
      · subst hji
        rw [Function.update_same, Shape.vals_insert _ _ _ _ _ _ (hinv.ordered j hj)]
        have hk : k' ≠ k := by
          rcases hne with h | h
          · exact absurd rfl h
          · exact h
        rw [if_neg hk]
      · rw [Function.update_noteq hji]

theorem MR_Emit_fatal_iff_null_witness :
    MR_Emit (fun _ _ => .error .divByZero) 1 (initState 1) none (some []) = .error .exit1 ∧
    MR_Emit (fun _ _ => .error .divByZero) 1 (initState 1) (some []) none = .error .exit1 ∧
    MR_Emit (MR_DefaultHashPartition true) 1 (initState 1) (some []) (some []) ≠
      .error .exit1 ∧
    ∃ s', MR_Emit (MR_DefaultHashPartition true) 1 (initState 1) (some []) (some []) = .ok s' ∧
      (∃ T', Inv s' 1 T') ∧
      [] ∈ store_keys s' 0 ∧ store_values s' 0 [] = [] :: store_values (initState 1) 0 [] ∧
      ∀ j k', j < 1 → (j ≠ 0 ∨ k' ≠ []) →
        store_values s' j k' = store_values (initState 1) j k' :=
  ⟨(MR_Emit_fatal_iff_null (fun _ _ => .error .divByZero) 1 (initState 1) none (some [])).1
      (Or.inl rfl),
   (MR_Emit_fatal_iff_null (fun _ _ => .error .divByZero) 1 (initState 1) (some []) none).1
      (Or.inr rfl),
   (MR_Emit_fatal_iff_null (MR_DefaultHashPartition true) 1 (initState 1) (some [])
      (some [])).2.1 [] [] rfl rfl ((noExit_iff _).1 (noExit_default_partition true [] 1)),
   (MR_Emit_fatal_iff_null (MR_DefaultHashPartition true) 1 (initState 1) (some [])
      (some [])).2.2 [] [] 1 (fun _ => .nil) 0 rfl rfl rfl (by decide) (Inv_init 1) rfl
      (by decide)⟩

theorem solo_work_of (mapper : Mapper) (units : List Str) (m : MapPhase) (i : Nat)
    (t : MapThread) (h : m.threads[i]? = some t) (hf : t.finished = false) :
    solo_work mapper units m i =
      thread_work mapper t + units_work mapper (units.drop m.current_file) := by
  unfold solo_work
  rw [h]
  dsimp only
  rw [if_neg (by rw [hf]; decide)]

theorem solo_work_finished (mapper : Mapper) (units : List Str) (m : MapPhase) (i : Nat)
    (t : MapThread) (h : m.threads[i]? = some t) (hf : t.finished = true) :
    solo_work mapper units m i = 0 := by
  unfold solo_work
  rw [h]
  dsimp only
  rw [if_pos hf]

theorem thread_work_eq (mapper : Mapper) (pending : List (Option Str × Option Str))
    (file : Option Str) (fin : Bool) :
    thread_work mapper ⟨pending, file, fin⟩ =
      pending.length + (match file with
        | some f => (mapper f).length + 1
        | none => 0) + 1 := rfl

/-- Replacing a worker by one that holds the same unit does not change the units
held. -/
theorem held_same (l : List MapThread) (i : Nat) (t t2 : MapThread) (h : l[i]? = some t)
    (hfile : t2.file = t.file) :
    ((l.set i t2).filterMap (fun t => t.file)).Perm (l.filterMap (fun t => t.file)) := by
  have := filterMap_file_set l i t t2 h
  rw [hfile] at this
  exact ((List.perm_append_left_iff _).1 this).symm

/-- One step of a map worker in a state of the map phase. -/
theorem map_step_spec (mapper : Mapper) (parter : Partitioner) (N : Nat) (units : List Str)
    (hN : (N : Int) < 2 ^ 31) (hgood : ∀ u ∈ units, ∀ e ∈ mapper u, GoodEmit parter N e)
    (m : MapPhase) (i : Nat) (hinv : MapInv mapper parter N units m) :
    ∃ m', map_step mapper parter (N : Int) (units.map some ++ [none]) m i = .ok m' ∧
      MapInv mapper parter N units m' ∧ m'.threads.length = m.threads.length ∧
      (∀ j, j ≠ i → m'.threads[j]? = m.threads[j]?) ∧
      m.current_file ≤ m'.current_file ∧
      (∀ t, m.threads[i]? = some t → t.finished = false →
        solo_work mapper units m' i + 1 = solo_work mapper units m i) ∧
      (∀ t, m.threads[i]? = some t → t.finished = true → m' = m) ∧
      (m.threads[i]? = none → m' = m) := by
  cases hti : m.threads[i]? with
  | none =>
    refine ⟨m, map_step_none _ _ _ _ _ _ hti, hinv, rfl, fun _ _ => rfl, le_refl _, ?_, ?_,
      fun _ => rfl⟩
    · intro t ht; cases ht
    · intro t ht; cases ht
  | some t =>
    have htm : t ∈ m.threads := List.getElem?_mem hti
    have hil : i < m.threads.length := lt_of_get hti
    have hsolo : ∀ (m2 : MapPhase) (t2 : MapThread), m2.threads = m.threads.set i t2 →
        t.finished = false →
        (t2.finished = false → thread_work mapper t2 +
          units_work mapper (units.drop m2.current_file) + 1 =
          thread_work mapper t + units_work mapper (units.drop m.current_file)) →
        (t2.finished = true → thread_work mapper t +
          units_work mapper (units.drop m.current_file) = 1) →
        ∀ t3, some t = some t3 → t3.finished = false →
          solo_work mapper units m2 i + 1 = solo_work mapper units m i := by
      intro m2 t2 hth hf h1 h2 t3 ht3 _
      have hg : m2.threads[i]? = some t2 := by
        rw [hth]; exact List.getElem?_set_self hil
      rw [solo_work_of mapper units m i t hti hf]
      cases hf2 : t2.finished with
      | true =>
        rw [solo_work_finished mapper units m2 i t2 hg hf2, h2 hf2]
      | false =>
        rw [solo_work_of mapper units m2 i t2 hg hf2]
        exact h1 hf2
    have hfinF : ∀ t3, some t = some t3 → t.finished = false → t3.finished = true →
        ∀ (m2 : MapPhase), m2 = m := by
      intro t3 ht3 hf hf3
      simp only [Option.some.injEq] at ht3
      subst ht3
      rw [hf] at hf3; cases hf3
    cases hf : t.finished with
    | true =>
      refine ⟨m, map_step_finished _ _ _ _ _ _ t hti hf, hinv, rfl, fun _ _ => rfl, le_refl _,
        ?_, fun _ _ _ => rfl, ?_⟩
      · intro t2 ht2 hf2
        simp only [Option.some.injEq] at ht2
        subst ht2
        rw [hf] at hf2; cases hf2
      · intro h; cases h
    | false =>
      cases hp : t.pending with
      | cons e rest =>
        obtain ⟨k, v⟩ := e
        obtain ⟨k0, v0, i0, hkv, hpart, hi0⟩ := hinv.good t htm (k, v)
          (by rw [hp]; exact List.mem_cons_self _ _)
        simp only [Prod.mk.injEq] at hkv
        obtain ⟨hk, hv⟩ := hkv
        subst hk; subst hv
        obtain ⟨T, hT⟩ := hinv.inv
        obtain ⟨s1, he, hinv1, _⟩ := add_to_tree_spec m.mr N T i0 k0 v0 hT hi0
        have hemit : MR_Emit parter (N : Int) m.mr (some k0) (some v0) = .ok s1 := by
          rw [MR_Emit_eq_add_to_tree parter N hN m.mr k0 v0 i0 hpart hi0, he]
        refine ⟨_, map_step_emit _ _ _ _ _ _ t _ _ rest s1 hti hf hp hemit, ?_, ?_, ?_, le_refl _,
          ?_, ?_, ?_⟩
        · refine ⟨⟨_, hinv1⟩, hinv.cursor, ?_, ?_, ?_, ?_⟩
          · exact ((held_same m.threads i t ⟨rest, t.file, t.finished⟩ hti rfl).append_left
              _).trans hinv.calls
          · intro t2 ht2 e he2
            rcases List.mem_or_eq_of_mem_set ht2 with h1 | h1
            · exact hinv.good t2 h1 e he2
            · rw [h1] at he2
              exact hinv.good t htm e (by rw [hp]; exact List.mem_cons_of_mem _ he2)
          · intro t2 ht2 f hf2
            rcases List.mem_or_eq_of_mem_set ht2 with h1 | h1
            · exact hinv.held t2 h1 f hf2
            · rw [h1] at hf2
              exact hinv.held t htm f hf2
          · intro t2 ht2 hf2
            rcases List.mem_or_eq_of_mem_set ht2 with h1 | h1
            · exact hinv.fin t2 h1 hf2
            · rw [h1] at hf2
              rw [hf] at hf2; cases hf2
        · exact List.length_set _ _ _
        · intro j hj
          exact List.getElem?_set_ne (fun e => hj e.symm)
        · refine hsolo _ _ rfl hf ?_ ?_
          · intro _
            unfold thread_work
            dsimp only
            rw [hp]
            simp only [List.length_cons]
            omega
          · intro h; rw [hf] at h; cases h
        · intro t3 ht3 hf3
          exact hfinF t3 ht3 hf hf3 _
        · intro h; cases h
      | nil =>
        cases hfl : t.file with
        | some f =>
          refine ⟨_, map_step_call mapper _ _ _ _ _ t f hti hf hp hfl, ?_, ?_, ?_, le_refl _,
            ?_, ?_, ?_⟩
          · refine ⟨hinv.inv, hinv.cursor, ?_, ?_, ?_, ?_⟩
            · have h1 := filterMap_file_set m.threads i t ⟨mapper f, none, t.finished⟩ hti
              rw [hfl] at h1
              simp only [Option.toList, List.nil_append, List.singleton_append] at h1
              show ((m.calls ++ [f]) ++ _).Perm _
              rw [List.append_assoc, List.singleton_append]
              exact (h1.symm.append_left _).trans hinv.calls
            · intro t2 ht2 e he2
              rcases List.mem_or_eq_of_mem_set ht2 with h1 | h1
              · exact hinv.good t2 h1 e he2
              · rw [h1] at he2
                exact hinv.held t htm f hfl e he2
            · intro t2 ht2 f2 hf2
              rcases List.mem_or_eq_of_mem_set ht2 with h1 | h1
              · exact hinv.held t2 h1 f2 hf2
              · rw [h1] at hf2
                cases hf2
            · intro t2 ht2 hf2
              rcases List.mem_or_eq_of_mem_set ht2 with h1 | h1
              · exact hinv.fin t2 h1 hf2
              · rw [h1] at hf2
                rw [hf] at hf2; cases hf2
          · exact List.length_set _ _ _
          · intro j hj
            exact List.getElem?_set_ne (fun e => hj e.symm)
          · refine hsolo _ _ rfl hf ?_ ?_
            · intro _
              unfold thread_work
              dsimp only
              rw [hp, hfl]
              simp only [List.length_nil]
              omega
            · intro h; rw [hf] at h; cases h
          · intro t3 ht3 hf3
            exact hfinF t3 ht3 hf hf3 _
          · intro h; cases h
        | none =>
          rcases Nat.lt_or_ge m.current_file units.length with hlt | hge
          · have hfile := files_get_unit units m.current_file hlt
            refine ⟨_, map_step_fetch mapper _ _ _ _ _ t _ hti hf hp hfl hfile, ?_, ?_, ?_,
              Nat.le_succ _, ?_, ?_, ?_⟩
            · refine ⟨hinv.inv, hlt, ?_, ?_, ?_, ?_⟩
              · have h1 := filterMap_file_set m.threads i t
                  ⟨t.pending, some (units.get ⟨m.current_file, hlt⟩), t.finished⟩ hti
                rw [hfl] at h1
                simp only [Option.toList, List.nil_append, List.singleton_append] at h1
                show (m.calls ++ _).Perm (units.take (m.current_file + 1))
                rw [take_succ_get units m.current_file hlt]
                refine (h1.symm.append_left _).trans ?_
                refine List.perm_middle.trans ?_
                exact (List.perm_append_singleton _ _).symm.trans (hinv.calls.append_right _)
              · intro t2 ht2 e he2
                rcases List.mem_or_eq_of_mem_set ht2 with h1 | h1
                · exact hinv.good t2 h1 e he2
                · rw [h1] at he2
                  exact hinv.good t htm e he2
              · intro t2 ht2 f2 hf2
                rcases List.mem_or_eq_of_mem_set ht2 with h1 | h1
                · exact hinv.held t2 h1 f2 hf2
                · rw [h1] at hf2
                  simp only [Option.some.injEq] at hf2
                  rw [← hf2]
                  exact hgood _ (List.get_mem _ _ _)
              · intro t2 ht2 hf2
                rcases List.mem_or_eq_of_mem_set ht2 with h1 | h1
                · have := (hinv.fin t2 h1 hf2).2.2
                  omega
                · rw [h1] at hf2
                  rw [hf] at hf2; cases hf2
            · exact List.length_set _ _ _
            · intro j hj
              exact List.getElem?_set_ne (fun e => hj e.symm)
            · refine hsolo _ _ rfl hf ?_ ?_
              · intro _
                unfold thread_work
                dsimp only
                rw [hp, hfl, units_work_drop mapper units m.current_file hlt]
                simp only [List.length_nil]
                omega
              · intro h; rw [hf] at h; cases h
            · intro t3 ht3 hf3
              exact hfinF t3 ht3 hf hf3 _
            · intro h; cases h
          · have hcf : m.current_file = units.length := le_antisymm hinv.cursor hge
            have hfile : (units.map some ++ [none])[m.current_file]? = some none := by
              rw [hcf]; exact files_get_end units
            refine ⟨_, map_step_last mapper _ _ _ _ _ t hti hf hp hfl hfile, ?_, ?_, ?_,
              le_refl _, ?_, ?_, ?_⟩
            · refine ⟨hinv.inv, hinv.cursor, ?_, ?_, ?_, ?_⟩
              · exact ((held_same m.threads i t ⟨t.pending, t.file, true⟩ hti rfl).append_left
                  _).trans hinv.calls
              · intro t2 ht2 e he2
                rcases List.mem_or_eq_of_mem_set ht2 with h1 | h1
                · exact hinv.good t2 h1 e he2
                · rw [h1] at he2
                  exact hinv.good t htm e he2
              · intro t2 ht2 f2 hf2
                rcases List.mem_or_eq_of_mem_set ht2 with h1 | h1
                · exact hinv.held t2 h1 f2 hf2
                · rw [h1] at hf2
                  exact hinv.held t htm f2 hf2
              · intro t2 ht2 hf2
                rcases List.mem_or_eq_of_mem_set ht2 with h1 | h1
                · exact hinv.fin t2 h1 hf2
                · rw [h1]
                  exact ⟨hp, hfl, hcf⟩
            · exact List.length_set _ _ _
            · intro j hj
              exact List.getElem?_set_ne (fun e => hj e.symm)
            · refine hsolo _ _ rfl hf ?_ ?_
              · intro h; cases h
              · intro _
                unfold thread_work
                rw [hp, hfl, hcf, List.drop_length]
                simp [units_work]
            · intro t3 ht3 hf3
              exact hfinF t3 ht3 hf hf3 _
            · intro h; cases h

/-- Steps of the map workers under any schedule keep the invariant of the map phase. -/
theorem map_steps_spec (mapper : Mapper) (parter : Partitioner) (N : Nat) (units : List Str)
    (hN : (N : Int) < 2 ^ 31) (hgood : ∀ u ∈ units, ∀ e ∈ mapper u, GoodEmit parter N e) :
    ∀ (sched : List Nat) (m : MapPhase), MapInv mapper parter N units m →
      ∃ m', map_steps mapper parter (N : Int) (units.map some ++ [none]) m sched = .ok m' ∧
        MapInv mapper parter N units m' ∧ m'.threads.length = m.threads.length
  | [], m, h => ⟨m, rfl, h, rfl⟩
  | i :: sched, m, h => by
    obtain ⟨m1, he1, h1, hl1, _⟩ := map_step_spec mapper parter N units hN hgood m i h
    obtain ⟨m2, he2, h2, hl2⟩ := map_steps_spec mapper parter N units hN hgood sched m1 h1
    refine ⟨m2, ?_, h2, hl2.trans hl1⟩
    unfold map_steps
    rw [he1]
    exact he2

/-- A map worker run alone returns, within the bound `solo_work`. -/
theorem map_thread_spec (mapper : Mapper) (parter : Partitioner) (N : Nat) (units : List Str)
    (hN : (N : Int) < 2 ^ 31) (hgood : ∀ u ∈ units, ∀ e ∈ mapper u, GoodEmit parter N e)
    (i : Nat) :
    ∀ (fuel : Nat) (m : MapPhase), MapInv mapper parter N units m →
      solo_work mapper units m i < fuel →
      ∃ m', map_thread mapper parter (N : Int) (units.map some ++ [none]) i fuel m = .ok m' ∧
        MapInv mapper parter N units m' ∧ m'.threads.length = m.threads.length ∧
        (∀ j, j ≠ i → m'.threads[j]? = m.threads[j]?) ∧
        m.current_file ≤ m'.current_file ∧
        (∀ t, m'.threads[i]? = some t → t.finished = true) ∧
        (∀ t, m.threads[i]? = some t → t.finished = true → m' = m)
  | 0, m, _, hlt => absurd hlt (Nat.not_lt_zero _)
  | fuel + 1, m, h, hlt => by
    unfold map_thread
    cases hti : m.threads[i]? with
    | none =>
      refine ⟨m, rfl, h, rfl, fun _ _ => rfl, le_refl _, ?_, ?_⟩
      · intro t ht; rw [hti] at ht; cases ht
      · intro t ht; cases ht
    | some t =>
      dsimp only
      cases hf : t.finished with
      | true =>
        rw [if_pos rfl]
        refine ⟨m, rfl, h, rfl, fun _ _ => rfl, le_refl _, ?_, fun _ _ _ => rfl⟩
        intro t2 ht2
        rw [hti] at ht2
        simp only [Option.some.injEq] at ht2
        subst ht2
        exact hf
      | false =>
        rw [if_neg (by decide)]
        obtain ⟨m1, he1, h1, hl1, hj1, hc1, hs1, _, _⟩ :=
          map_step_spec mapper parter N units hN hgood m i h
        have hs := hs1 t hti hf
        obtain ⟨m2, he2, h2, hl2, hj2, hc2, hf2, _⟩ :=
          map_thread_spec mapper parter N units hN hgood i fuel m1 h1 (by omega)
        refine ⟨m2, ?_, h2, hl2.trans hl1, ?_, le_trans hc1 hc2, hf2, ?_⟩
        · rw [he1]
          exact he2
        · intro j hj
          rw [hj2 j hj, hj1 j hj]
        · intro t2 ht2 hft2
          simp only [Option.some.injEq] at ht2
          subst ht2
          rw [hf] at hft2; cases hft2

/-- The join of the map workers returns, and every worker it names has returned. -/
theorem map_join_spec (mapper : Mapper) (parter : Partitioner) (N : Nat) (units : List Str)
    (hN : (N : Int) < 2 ^ 31) (hgood : ∀ u ∈ units, ∀ e ∈ mapper u, GoodEmit parter N e)
    (fuel : Nat) (hfuel : 1 < fuel) :
    ∀ (is : List Nat) (m : MapPhase), MapInv mapper parter N units m →
      (∀ i ∈ is, ∀ t, m.threads[i]? = some t →
        thread_work mapper t + units_work mapper (units.drop m.current_file) < fuel) →
      ∃ m', map_join mapper parter (N : Int) (units.map some ++ [none]) fuel m is = .ok m' ∧
        MapInv mapper parter N units m' ∧ m'.threads.length = m.threads.length ∧
        (∀ i ∈ is, ∀ t, m'.threads[i]? = some t → t.finished = true) ∧
        (∀ (j : Nat) (t : MapThread), m.threads[j]? = some t → t.finished = true →
          m'.threads[j]? = some t) ∧
        m.current_file ≤ m'.current_file
  | [], m, h, _ => ⟨m, rfl, h, rfl, fun _ hi _ _ => absurd hi (List.not_mem_nil _),
      fun _ _ ht _ => ht, le_refl _⟩
  | i :: is, m, h, hb => by
    have hsolo : solo_work mapper units m i < fuel := by
      unfold solo_work
      cases hti : m.threads[i]? with
      | none => dsimp only; omega
      | some t =>
        dsimp only
        split
        · omega
        · exact hb i (List.mem_cons_self _ _) t hti
    obtain ⟨m1, he1, h1, hl1, hj1, hc1, hf1, hsame1⟩ :=
      map_thread_spec mapper parter N units hN hgood i fuel m h hsolo
    have hb1 : ∀ j ∈ is, ∀ t, m1.threads[j]? = some t →
        thread_work mapper t + units_work mapper (units.drop m1.current_file) < fuel := by
      intro j hj t ht
      by_cases hji : j = i
      · subst hji
        obtain ⟨hp, hfl, hcf⟩ := h1.fin t (List.getElem?_mem ht) (hf1 t ht)
        unfold thread_work
        rw [hp, hfl, hcf, List.drop_length]
        simp only [units_work, List.map_nil, List.sum_nil, List.length_nil]
        omega
      · rw [hj1 j hji] at ht
        have := hb j (List.mem_cons_of_mem _ hj) t ht
        have := units_work_drop_le mapper units _ _ hc1
        omega
    obtain ⟨m2, he2, h2, hl2, hf2, hst2, hc2⟩ :=
      map_join_spec mapper parter N units hN hgood fuel hfuel is m1 h1 hb1
    have hst1 : ∀ (j : Nat) (t : MapThread), m.threads[j]? = some t → t.finished = true →
        m1.threads[j]? = some t := by
      intro j t ht hft
      by_cases hji : j = i
      · subst hji
        rw [hsame1 t ht hft]; exact ht
      · rw [hj1 j hji]; exact ht
    refine ⟨m2, ?_, h2, hl2.trans hl1, ?_, ?_, le_trans hc1 hc2⟩
    · unfold map_join
      rw [he1]
      exact he2
    · intro j hj t ht
      rcases List.mem_cons.1 hj with hji | hjis
      · subst hji
        have hlen : j < m1.threads.length := by
          have := lt_of_get ht
          omega
        have hg : m1.threads[j]? = some (m1.threads.get ⟨j, hlen⟩) :=
          List.getElem?_eq_getElem hlen
        have hfin := hf1 _ hg
        have := hst2 j _ hg hfin
        rw [this] at ht
        simp only [Option.some.injEq] at ht
        rw [← ht]; exact hfin
      · exact hf2 j hjis t ht
    · intro j t ht hft
      exact hst2 j t (hst1 j t ht hft) hft

theorem le_sum_of_mem (f : MapThread → Nat) :
    ∀ (l : List MapThread) (t : MapThread), t ∈ l → f t ≤ (l.map f).sum
  | [], _, h => by cases h
  | x :: l, t, h => by
    rw [List.map_cons, List.sum_cons]
    rcases List.mem_cons.1 h with h1 | h1
    · subst h1; omega
    · have := le_sum_of_mem f l t h1
      omega

theorem filterMap_file_nil :
    ∀ (l : List MapThread), (∀ t ∈ l, t.file = none) → l.filterMap (fun t => t.file) = []
  | [], _ => rfl
  | x :: l, h => by
    rw [List.filterMap_cons, h x (List.mem_cons_self _ _)]
    exact filterMap_file_nil l (fun t ht => h t (List.mem_cons_of_mem _ ht))

theorem MapInv_start (mapper : Mapper) (parter : Partitioner) (N : Nat) (units : List Str)
    (M : Nat) :
    MapInv mapper parter N units
      ⟨initState N, 0, List.replicate M ⟨[], none, false⟩, []⟩ where
  inv := ⟨_, Inv_init N⟩
  cursor := Nat.zero_le _
  calls := by
    show (([] : List Str) ++ (List.replicate M (⟨[], none, false⟩ : MapThread)).filterMap
      (fun (t : MapThread) => t.file)).Perm (units.take 0)
    have hnil : ∀ t ∈ List.replicate M (⟨[], none, false⟩ : MapThread), t.file = none := by
      intro t ht
      rw [List.eq_of_mem_replicate ht]
    rw [filterMap_file_nil _ hnil]
    exact List.Perm.refl _
  good := by
    intro t ht e he
    rw [List.eq_of_mem_replicate ht] at he
    simp at he
  held := by
    intro t ht f hf
    rw [List.eq_of_mem_replicate ht] at hf
    cases hf
  fin := by
    intro t ht hf
    rw [List.eq_of_mem_replicate ht] at hf
    cases hf

/-- The map phase of `MR_Run` under any schedule: the schedule and the join return, and
after the join every worker has returned and holds nothing, the cursor is at the end of
the unit list and the callback has been invoked on every unit, once each. -/
theorem map_phase_spec (mapper : Mapper) (parter : Partitioner) (N : Nat) (units : List Str)
    (hN : (N : Int) < 2 ^ 31) (hgood : ∀ u ∈ units, ∀ e ∈ mapper u, GoodEmit parter N e)
    (M : Nat) (hM : 0 < M) (sched : List Nat) :
    ∃ m1 m2, map_steps mapper parter (N : Int) (units.map some ++ [none])
        ⟨initState N, 0, List.replicate M ⟨[], none, false⟩, []⟩ sched = .ok m1 ∧
      map_join mapper parter (N : Int) (units.map some ++ [none])
        (units_work mapper units + (m1.threads.map (thread_work mapper)).sum + 1) m1
        (List.range M) = .ok m2 ∧
      m2.threads.length = M ∧
      (∀ t ∈ m2.threads, t.finished = true ∧ t.pending = [] ∧ t.file = none) ∧
      m2.current_file = units.length ∧ m2.calls.Perm units ∧ ∃ T, Inv m2.mr N T := by
  obtain ⟨m1, he1, h1, hl1⟩ := map_steps_spec mapper parter N units hN hgood sched _
    (MapInv_start mapper parter N units M)
  have hl1' : m1.threads.length = M := by
    rw [hl1]; exact List.length_replicate _ _
  have h0 : 0 < m1.threads.length := by rw [hl1']; exact hM
  have hsum : 1 ≤ (m1.threads.map (thread_work mapper)).sum := by
    have := le_sum_of_mem (thread_work mapper) m1.threads _ (List.get_mem _ 0 h0)
    unfold thread_work at this ⊢
    omega
  obtain ⟨m2, he2, h2, hl2, hf2, _, _⟩ := map_join_spec mapper parter N units hN hgood
    (units_work mapper units + (m1.threads.map (thread_work mapper)).sum + 1) (by omega)
    (List.range M) m1 h1 (by
      intro i _ t ht
      have a1 := le_sum_of_mem (thread_work mapper) m1.threads t (List.getElem?_mem ht)
      have a2 := units_work_drop_le mapper units 0 m1.current_file (Nat.zero_le _)
      rw [List.drop_zero] at a2
      omega)
  have hall : ∀ t ∈ m2.threads, t.finished = true := by
    intro t ht
    obtain ⟨j, hj⟩ := List.mem_iff_getElem?.1 ht
    have hjl : j < M := by
      have := lt_of_get hj
      omega
    exact hf2 j (List.mem_range.2 hjl) t hj
  have hcur : m2.current_file = units.length := by
    have hlen : 0 < m2.threads.length := by omega
    have hm := List.get_mem m2.threads 0 hlen
    exact (h2.fin _ hm (hall _ hm)).2.2
  refine ⟨m1, m2, he1, he2, by omega, ?_, hcur, ?_, h2.inv⟩
  · intro t ht
    exact ⟨hall t ht, (h2.fin t ht (hall t ht)).1, (h2.fin t ht (hall t ht)).2.1⟩
  · have hc := h2.calls
    rw [filterMap_file_nil _ (fun t ht => (h2.fin t ht (hall t ht)).2.1), List.append_nil, hcur,
      List.take_length] at hc
    exact hc

/-- The phases of `MR_Run` on a valid configuration whose emits `MR_Emit` carries out:
the map phase returns under any schedule, and `MR_Run` is the reduce phase run on the
state the join of the map workers leaves. -/
theorem MR_Run_phases {σ : Type} (cs : Bool) (sched : List Nat) (cbFuel : Nat) (st : σ)
    (argv : List Str) (mapper : Mapper) (M : Nat) (reducer : Reducer σ) (N : Nat)
    (partition : Option Partitioner) (hargv : 1 < argv.length) (hM : 0 < M) (hN0 : 0 < N)
    (hN : (N : Int) + (M : Int) < 2 ^ 31)
    (hgood : ∀ u ∈ argv.drop 1, ∀ e ∈ mapper u,
      GoodEmit (partition.getD (MR_DefaultHashPartition cs)) N e) :
    ∃ m1 m2, map_steps mapper (partition.getD (MR_DefaultHashPartition cs)) (N : Int)
        ((argv.drop 1).map some ++ [none])
        ⟨initState N, 0, List.replicate M ⟨[], none, false⟩, []⟩ sched = .ok m1 ∧
      map_join mapper (partition.getD (MR_DefaultHashPartition cs)) (N : Int)
        ((argv.drop 1).map some ++ [none])
        (units_work mapper (argv.drop 1) + (m1.threads.map (thread_work mapper)).sum + 1) m1
        (List.range M) = .ok m2 ∧
      m2.threads.length = M ∧
      (∀ t ∈ m2.threads, t.finished = true ∧ t.pending = [] ∧ t.file = none) ∧
      m2.current_file = (argv.drop 1).length ∧ m2.calls.Perm (argv.drop 1) ∧
      (∃ T, Inv m2.mr N T) ∧
      MR_Run cs sched cbFuel st argv (some mapper) (M : Int) (some reducer) (N : Int)
        partition = reduce_all reducer cbFuel st m2.mr (List.range N) := by
  have hN1 : (N : Int) < 2 ^ 31 := by omega
  obtain ⟨m1, m2, he1, he2, hl, hfin, hcur, hcalls, hT⟩ :=
    map_phase_spec mapper (partition.getD (MR_DefaultHashPartition cs)) N (argv.drop 1) hN1
      hgood M hM sched
  refine ⟨m1, m2, he1, he2, hl, hfin, hcur, hcalls, hT, ?_⟩
  have hvalid : ¬ ((argv.length : Int) ≤ 1 ∨ (M : Int) ≤ 0 ∨ (N : Int) ≤ 0) := by omega
  unfold MR_Run
  rw [if_neg (by omega), if_neg (by omega)]
  dsimp only
  rw [if_neg hvalid]
  simp only [Int.toNat_ofNat]
  cases partition with
  | none =>
    simp only [Option.getD_none] at he1 he2
    dsimp only
    rw [he1]
    simp only [bind, Except.bind]
    rw [he2]
  | some f =>
    simp only [Option.getD_some] at he1 he2
    dsimp only
    rw [he1]
    simp only [bind, Except.bind]
    rw [he2]

theorem next_file_unit (units : List Str) (cf : Nat) (h : cf < units.length) :
    next_file (units.map some ++ [none]) cf = .ok (some (units.get ⟨cf, h⟩), cf + 1) := by
  unfold next_file
  rw [files_get_unit units cf h]

theorem next_file_end (units : List Str) :
    next_file (units.map some ++ [none]) units.length = .ok (none, units.length) := by
  unfold next_file
  rw [files_get_end units]

/-- Requests to the dispatcher from any cursor position within the unit list. -/
theorem requests_spec (units : List Str) :
    ∀ (m cf : Nat), cf ≤ units.length →
      requests (units.map some ++ [none]) m cf =
        .ok (((units.drop cf).take m).map some ++
          List.replicate (m - (units.length - cf)) none, min (cf + m) units.length)
  | 0, cf, h => by
    simp only [requests, List.take_zero, List.map_nil, Nat.zero_sub, List.replicate_zero,
      List.append_nil, Nat.add_zero]
    rw [Nat.min_eq_left h]
  | m + 1, cf, h => by
    unfold requests
    rcases Nat.lt_or_ge cf units.length with hlt | hge
    · rw [next_file_unit units cf hlt]
      simp only [bind, Except.bind]
      rw [requests_spec units m (cf + 1) hlt]
      have hd : units.drop cf = units.get ⟨cf, hlt⟩ :: units.drop (cf + 1) :=
        List.drop_eq_getElem_cons hlt
      rw [hd]
      simp only [pure, Except.pure, List.take_succ_cons, List.map_cons, List.cons_append]
      have e1 : m + 1 - (units.length - cf) = m - (units.length - (cf + 1)) := by omega
      have e2 : cf + 1 + m = cf + (m + 1) := by omega
      rw [e1, e2]
    · have hcf : cf = units.length := le_antisymm h hge
      subst hcf
      rw [next_file_end units]
      simp only [bind, Except.bind]
      rw [requests_spec units m units.length (le_refl _)]
      simp only [pure, Except.pure, List.drop_length, List.take_nil, List.map_nil,
        List.nil_append, Nat.sub_self, Nat.sub_zero]
      have e3 : min (units.length + m) units.length = min (units.length + (m + 1)) units.length := by
        rw [Nat.min_eq_right (by omega), Nat.min_eq_right (by omega)]
      rw [e3]
      rfl

theorem goodEmit_default (cs : Bool) (N : Nat) (hN0 : 0 < N) (hN : (N : Int) < 2 ^ 31)
    (k v : Str) : GoodEmit (MR_DefaultHashPartition cs) N (some k, some v) :=
  ⟨k, v, _, rfl, (default_partition_nat cs k N hN0 hN).1, (default_partition_nat cs k N hN0 hN).2⟩

theorem wc_map_good (cs : Bool) (N : Nat) (hN0 : 0 < N) (hN : (N : Int) < 2 ^ 31) (u : Str) :
    ∀ e ∈ wc_map u, GoodEmit (MR_DefaultHashPartition cs) N e := by
  intro e he
  unfold wc_map at he
  obtain ⟨w, _, hw⟩ := List.mem_map.1 he
  rw [← hw]
  exact goodEmit_default cs N hN0 hN _ _

/-- With two workers the callback can be entered on the second unit before the first:
worker 0 fetches `a b a`, worker 1 fetches `b c` and calls the callback, then worker 0
calls it. -/
theorem map_calls_out_of_order :
    ∃ m1, map_steps wc_map (MR_DefaultHashPartition true) 1 ((wc_argv.drop 1).map some ++ [none])
        ⟨initState 1, 0, List.replicate 2 ⟨[], none, false⟩, []⟩ [0, 1, 1, 0] = .ok m1 ∧
      m1.current_file = 2 ∧ m1.calls = [[98, 32, 99], [97, 32, 98, 32, 97]] :=
  ⟨_, rfl, rfl, rfl⟩

/-- C13: on the unit list `argv[1..]` followed by NULL, `m` requests to the dispatcher
starting at cursor 0 return the first `min m n` units in order, each once, then NULL for
every further request, and leave the cursor at `min m n`, so a request after the `n`-th
does not advance it; and in `MR_Run`, with any number of map workers and any schedule,
the map phase returns and the units the map callback has then been invoked on are the
units `argv[1..]`, each once (in the order in which the workers got to call it), the
program name `argv[0]` not being among the units. -/
theorem dispatcher_hands_out_each_unit_once (cs : Bool) (sched : List Nat)
    (argv : List Str) (mapper : Mapper) (M N : Nat) (partition : Option Partitioner)
    (m : Nat) (hargv : 1 < argv.length) (hM : 0 < M) (hN0 : 0 < N)
    (hN : (N : Int) + (M : Int) < 2 ^ 31)
    (hgood : ∀ u ∈ argv.drop 1, ∀ e ∈ mapper u,
      GoodEmit (partition.getD (MR_DefaultHashPartition cs)) N e) :
    requests ((argv.drop 1).map some ++ [none]) m 0 =
      .ok (((argv.drop 1).take m).map some ++
        List.replicate (m - (argv.drop 1).length) none, min m (argv.drop 1).length) ∧
    ∃ m1 m2, map_steps mapper (partition.getD (MR_DefaultHashPartition cs)) (N : Int)
        ((argv.drop 1).map some ++ [none])
        ⟨initState N, 0, List.replicate M ⟨[], none, false⟩, []⟩ sched = .ok m1 ∧
      map_join mapper (partition.getD (MR_DefaultHashPartition cs)) (N : Int)
        ((argv.drop 1).map some ++ [none])
        (units_work mapper (argv.drop 1) + (m1.threads.map (thread_work mapper)).sum + 1) m1
        (List.range M) = .ok m2 ∧
      (∀ t ∈ m2.threads, t.file = none) ∧
      m2.current_file = (argv.drop 1).length ∧ m2.calls.Perm (argv.drop 1) := by
  constructor
  · have := requests_spec (argv.drop 1) m 0 (Nat.zero_le _)
    simp only [List.drop_zero, Nat.sub_zero, Nat.zero_add] at this
    exact this
  · obtain ⟨m1, m2, he1, he2, _, hfin, hcur, hcalls, _, _⟩ :=
      MR_Run_phases cs sched 0 () argv mapper M ⟨fun _ _ _ => .ret (), fun _ _ => .ret ()⟩ N
        partition hargv hM hN0 hN hgood
    exact ⟨m1, m2, he1, he2, fun t ht => (hfin t ht).2.2, hcur, hcalls⟩

theorem dispatcher_hands_out_each_unit_once_witness :
    requests ((wc_argv.drop 1).map some ++ [none]) 5 0 =
      .ok (((wc_argv.drop 1).take 5).map some ++
        List.replicate (5 - (wc_argv.drop 1).length) none, min 5 (wc_argv.drop 1).length) ∧
    ∃ m1 m2, map_steps wc_map ((none : Option Partitioner).getD (MR_DefaultHashPartition true))
        ((1 : Nat) : Int) ((wc_argv.drop 1).map some ++ [none])
        ⟨initState 1, 0, List.replicate 2 ⟨[], none, false⟩, []⟩ [0, 1, 1, 0] = .ok m1 ∧
      map_join wc_map ((none : Option Partitioner).getD (MR_DefaultHashPartition true))
        ((1 : Nat) : Int) ((wc_argv.drop 1).map some ++ [none])
        (units_work wc_map (wc_argv.drop 1) + (m1.threads.map (thread_work wc_map)).sum + 1) m1
        (List.range 2) = .ok m2 ∧
      (∀ t ∈ m2.threads, t.file = none) ∧
      m2.current_file = (wc_argv.drop 1).length ∧ m2.calls.Perm (wc_argv.drop 1) :=
  dispatcher_hands_out_each_unit_once true [0, 1, 1, 0] wc_argv wc_map 2 1 none 5 (by decide)
    (by decide) (by decide) (by decide)
    (fun u _ => wc_map_good true 1 (by decide) (by decide) u)

/-- C14: in `MR_Run`, under any schedule of the map workers, the join of the map workers
returns, and in the state it leaves every map worker has returned with no emit left to
make and no unit fetched that it has not passed to the callback, the dispatcher is at
the end of the unit list and the callback has been invoked on every unit, once each; the
reduce phase, in which every `get_low_key` call,
`get_next_value` call and reduce callback invocation lies, starts from that state,
which is a built state of all partitions. -/
theorem map_workers_joined_before_reduce {σ : Type} (cs : Bool) (sched : List Nat)
    (cbFuel : Nat) (st : σ) (argv : List Str) (mapper : Mapper) (M : Nat)
    (reducer : Reducer σ) (N : Nat) (partition : Option Partitioner)
    (hargv : 1 < argv.length) (hM : 0 < M) (hN0 : 0 < N)
    (hN : (N : Int) + (M : Int) < 2 ^ 31)
    (hgood : ∀ u ∈ argv.drop 1, ∀ e ∈ mapper u,
      GoodEmit (partition.getD (MR_DefaultHashPartition cs)) N e) :
    ∃ m1 m2, map_steps mapper (partition.getD (MR_DefaultHashPartition cs)) (N : Int)
        ((argv.drop 1).map some ++ [none])
        ⟨initState N, 0, List.replicate M ⟨[], none, false⟩, []⟩ sched = .ok m1 ∧
      map_join mapper (partition.getD (MR_DefaultHashPartition cs)) (N : Int)
        ((argv.drop 1).map some ++ [none])
        (units_work mapper (argv.drop 1) + (m1.threads.map (thread_work mapper)).sum + 1) m1
        (List.range M) = .ok m2 ∧
      m2.threads.length = M ∧
      (∀ t ∈ m2.threads, t.finished = true ∧ t.pending = [] ∧ t.file = none) ∧
      m2.current_file = (argv.drop 1).length ∧ m2.calls.Perm (argv.drop 1) ∧
      (∃ T, Inv m2.mr N T) ∧
      MR_Run cs sched cbFuel st argv (some mapper) (M : Int) (some reducer) (N : Int)
        partition = reduce_all reducer cbFuel st m2.mr (List.range N) := by
  obtain ⟨m1, m2, he1, he2, hl, hfin, hcur, hcalls, hT, hrun⟩ :=
    MR_Run_phases cs sched cbFuel st argv mapper M reducer N partition hargv hM hN0 hN hgood
  exact ⟨m1, m2, he1, he2, hl, hfin, hcur, hcalls, hT, hrun⟩

theorem map_workers_joined_before_reduce_witness :
    ∃ m1 m2, map_steps wc_map ((none : Option Partitioner).getD (MR_DefaultHashPartition true))
        ((2 : Nat) : Int) ((wc_argv.drop 1).map some ++ [none])
        ⟨initState 2, 0, List.replicate 3 ⟨[], none, false⟩, []⟩ [2, 0, 0, 1, 2] = .ok m1 ∧
      map_join wc_map ((none : Option Partitioner).getD (MR_DefaultHashPartition true))
        ((2 : Nat) : Int) ((wc_argv.drop 1).map some ++ [none])
        (units_work wc_map (wc_argv.drop 1) + (m1.threads.map (thread_work wc_map)).sum + 1) m1
        (List.range 3) = .ok m2 ∧
      m2.threads.length = 3 ∧
      (∀ t ∈ m2.threads, t.finished = true ∧ t.pending = [] ∧ t.file = none) ∧
      m2.current_file = (wc_argv.drop 1).length ∧ m2.calls.Perm (wc_argv.drop 1) ∧
      (∃ T, Inv m2.mr 2 T) ∧
      MR_Run true [2, 0, 0, 1, 2] 10 ([] : List (Str × Nat)) wc_argv (some wc_map)
        ((3 : Nat) : Int) (some wc_reduce) ((2 : Nat) : Int) none =
        reduce_all wc_reduce 10 [] m2.mr (List.range 2) :=
  map_workers_joined_before_reduce true [2, 0, 0, 1, 2] 10 [] wc_argv wc_map 3 wc_reduce 2 none
    (by decide) (by decide) (by decide) (by decide)
    (fun u _ => wc_map_good true 2 (by decide) (by decide) u)

theorem wr_eq {α : Type} {xs ys : List α} {i : Nat} {v : α} (h : wr xs i v = .ok ys) :
    ys = xs.set i v ∧ i < xs.length := by
  unfold wr at h
  split at h
  · simp only [Except.ok.injEq] at h
    exact ⟨h.symm, by assumption⟩
  · cases h

theorem rd_eq {α : Type} {xs : List α} {i : Nat} {x : α} (h : rd xs i = .ok x) :
    xs[i]? = some x := by
  unfold rd at h
  split at h
  · simp only [Except.ok.injEq] at h
    rw [← h]; assumption
  · cases h

theorem IterFrame.refl (s : MR) (p : Nat) : IterFrame s s p :=
  ⟨rfl, rfl, rfl, rfl, rfl, rfl, fun _ _ => ⟨rfl, rfl⟩⟩

theorem IterFrame.trans {s s1 s2 : MR} {p : Nat} (h1 : IterFrame s s1 p)
    (h2 : IterFrame s1 s2 p) : IterFrame s s2 p := by
  obtain ⟨a1, a2, a3, a4, a5, a6, a7⟩ := h1
  obtain ⟨b1, b2, b3, b4, b5, b6, b7⟩ := h2
  refine ⟨b1.trans a1, b2.trans a2, b3.trans a3, b4.trans a4, b5.trans a5, b6.trans a6, ?_⟩
  intro q hq
  exact ⟨(b7 q hq).1.trans (a7 q hq).1, (b7 q hq).2.trans (a7 q hq).2⟩

theorem IterFrame.set_flag (s : MR) (p : Nat) (v : Int) :
    IterFrame s { s with new_key := s.new_key.set p v } p :=
  ⟨rfl, rfl, rfl, rfl, rfl, List.length_set _ _ _, fun _ hq =>
    ⟨rfl, List.getElem?_set_ne (fun e => hq e.symm)⟩⟩

theorem IterFrame.set_cur (s : MR) (p : Nat) (v : Option Nat) :
    IterFrame s { s with cur_values := s.cur_values.set p v } p :=
  ⟨rfl, rfl, rfl, rfl, List.length_set _ _ _, rfl, fun _ hq =>
    ⟨List.getElem?_set_ne (fun e => hq e.symm), rfl⟩⟩

/-- A `get_next_value` call that returns changes at most the value cursor and the
new-key flag of its partition. -/
theorem get_next_value_frame (s s' : MR) (key : Str) (p : Nat) (v : Option Str)
    (h : get_next_value s key p = .ok (v, s')) :
    IterFrame s s' p ∧ p < s.new_key.length ∧ p < s.cur_values.length := by
  unfold get_next_value at h
  simp only [bind] at h
  obtain ⟨nk, hnk, h⟩ := bind_eq_ok h
  have hpl := lt_of_get (rd_eq hnk)
  obtain ⟨s1, h1, h⟩ := bind_eq_ok h
  have hs1 : IterFrame s s1 p := by
    split at h1
    · obtain ⟨flags, hfl, h1⟩ := bind_eq_ok h1
      obtain ⟨lk, _, h1⟩ := bind_eq_ok h1
      obtain ⟨a, _, h1⟩ := bind_eq_ok h1
      obtain ⟨n, _, h1⟩ := bind_eq_ok h1
      obtain ⟨curs, hcu, h1⟩ := bind_eq_ok h1
      simp only [pure, Except.pure, Except.ok.injEq] at h1
      rw [← h1, (wr_eq hfl).1, (wr_eq hcu).1]
      exact (IterFrame.set_flag s p 0).trans (IterFrame.set_cur _ p _)
    · simp only [pure, Except.pure, Except.ok.injEq] at h1
      rw [← h1]
      exact IterFrame.refl s p
  obtain ⟨cv, hcv, h⟩ := bind_eq_ok h
  have hcl : p < s.cur_values.length := by
    have := lt_of_get (rd_eq hcv)
    rw [hs1.2.2.2.2.1] at this
    exact this
  refine ⟨?_, hpl, hcl⟩
  cases cv with
  | none =>
    simp only [] at h
    obtain ⟨flags, hfl, h⟩ := bind_eq_ok h
    simp only [pure, Except.pure, Except.ok.injEq, Prod.mk.injEq] at h
    rw [← h.2, (wr_eq hfl).1]
    exact hs1.trans (IterFrame.set_flag s1 p 1)
  | some c =>
    simp only [] at h
    obtain ⟨cell, _, h⟩ := bind_eq_ok h
    obtain ⟨curs, hcu, h⟩ := bind_eq_ok h
    simp only [pure, Except.pure, Except.ok.injEq, Prod.mk.injEq] at h
    rw [← h.2, (wr_eq hcu).1]
    exact hs1.trans (IterFrame.set_cur s1 p _)

/-- A `get_low_key` call on a partition whose current-minimum reference points to a
released node reads that node. -/
theorem get_low_key_dangling (s : MR) (p d : Nat) (hlk : s.low_key[p]? = some (some d))
    (hd : s.nodes[d]? = some none) : get_low_key s p = .error .useAfterFree := by
  unfold get_low_key
  rw [rd_ok hlk]
  simp only [bind, Except.bind]
  unfold readNode
  rw [hd]

theorem get_low_key_lt (s s' : MR) (p : Nat) (k : Option Str)
    (h : get_low_key s p = .ok (k, s')) : p < s.low_key.length := by
  unfold get_low_key at h
  simp only [bind] at h
  obtain ⟨lk, hlk, _⟩ := bind_eq_ok h
  exact lt_of_get (rd_eq hlk)

/-- The leftmost node of a stored tree is the root, or the left child of its parent. -/
theorem Rep_min_link {nodes : List (Option bst_node)} {cells : List (Option v_node)} :
    ∀ (t : Shape) (par : Option Nat) (d : Nat), Rep nodes cells par t → t.minAddr = some d →
      (t.root = some d ∧ t.minParent par = par) ∨
      ∃ pp n, t.minParent par = some pp ∧ nodes[pp]? = some (some n) ∧ n.left = some d ∧
        pp ∈ t.addrs
  | .nil, _, d, _, h => by simp [Shape.minAddr] at h
  | .node a .nil k vs r, par, d, _, h => by
    simp only [Shape.minAddr, Option.some.injEq] at h
    subst h
    exact Or.inl ⟨rfl, rfl⟩
  | .node a (.node b l1 k1 vs1 r1) k vs r, par, d, hrep, h => by
    rw [Shape.minAddr_node_node] at h
    rw [Shape.minParent_node_node]
    right
    rcases Rep_min_link (.node b l1 k1 vs1 r1) (some a) d hrep.2.2.1 h with ⟨h1, h2⟩ | ⟨pp, n, h1, h2, h3, h4⟩
    · refine ⟨a, _, h2, hrep.1, ?_, by simp [Shape.addrs]⟩
      exact h1
    · exact ⟨pp, n, h1, h2, h3, by rw [Shape.addrs]; exact List.mem_append_left _ h4⟩

/-- After the removal of the leftmost node its right child, if any, has the parent
the removed node had. -/
theorem Rep_delMin_child {nodes : List (Option bst_node)} {cells : List (Option v_node)} :
    ∀ (t : Shape) (par : Option Nat), Rep nodes cells par t.delMin →
      ∀ c, t.minRight.root = some c →
        ∃ n, nodes[c]? = some (some n) ∧ n.parent = t.minParent par
  | .nil, _, _, c, h => by simp [Shape.minRight, Shape.root] at h
  | .node a .nil k vs r, par, hrep, c, h => by
    rw [Shape.delMin_node_nil] at hrep
    cases r with
    | nil => simp [Shape.minRight, Shape.root] at h
    | node c2 l2 k2 vs2 r2 =>
      simp only [Shape.minRight, Shape.root, Option.some.injEq] at h
      subst h
      exact ⟨_, hrep.1, rfl⟩
  | .node a (.node b l1 k1 vs1 r1) k vs r, par, hrep, c, h => by
    rw [Shape.delMin_node_node] at hrep
    rw [Shape.minRight_node_node] at h
    rw [Shape.minParent_node_node]
    exact Rep_delMin_child (.node b l1 k1 vs1 r1) (some a) hrep.2.2.1 c h

/-- After the removal of a leftmost node that was not the root, the left link of its
parent points to what was its right child. -/
theorem Rep_delMin_parent {nodes : List (Option bst_node)} {cells : List (Option v_node)} :
    ∀ (b : Nat) (l1 : Shape) (k1 : Str) (vs1 : List (Nat × Str)) (r1 : Shape) (a : Nat)
      (na : bst_node), nodes[a]? = some (some na) →
      na.left = (Shape.node b l1 k1 vs1 r1).delMin.root →
      Rep nodes cells (some a) (Shape.node b l1 k1 vs1 r1).delMin →
      ∃ pp n, (Shape.node b l1 k1 vs1 r1).minParent (some a) = some pp ∧
        nodes[pp]? = some (some n) ∧ n.left = (Shape.node b l1 k1 vs1 r1).minRight.root
  | b, .nil, k1, vs1, r1, a, na, hna, hl, _ => ⟨a, na, rfl, hna, hl⟩
  | b, .node b2 l2 k2 vs2 r2, k1, vs1, r1, a, na, _, _, hrep => by
    rw [Shape.delMin_node_node] at hrep
    rw [Shape.minParent_node_node, Shape.minRight_node_node]
    exact Rep_delMin_parent b2 l2 k2 vs2 r2 b _ hrep.1 rfl hrep.2.2.1

theorem Shape.mem_dump_of_mem_delMin (t : Shape) (e : Nat × Str × List (Nat × Str))
    (h : e ∈ t.delMin.dump) : e ∈ t.dump := by
  cases t with
  | nil => exact h
  | node a l k vs r =>
    obtain ⟨d, hd, _⟩ := Shape.addrs_delMin (.node a l k vs r) (by simp)
    rw [Shape.dump_delMin _ d hd]
    exact List.mem_cons_of_mem _ h

theorem Shape.mem_cellAddrs_of_mem_delMin (t : Shape) (c : Nat)
    (h : c ∈ t.delMin.cellAddrs) : c ∈ t.cellAddrs := by
  rw [Shape.cellAddrs_delMin t]
  exact List.mem_append_right _ h

theorem Shape.minCells_subset (t : Shape) (c : Nat)
    (h : c ∈ t.minCells.map Prod.fst) : c ∈ t.cellAddrs := by
  rw [Shape.cellAddrs_delMin t]
  exact List.mem_append_left _ h

/-- The store of a partition whose tree the heaps store. -/
theorem store_of_rep (s : MR) (p : Nat) (t : Shape) (hhd : s.bst_heads[p]? = some t.root)
    (hrep : Rep s.nodes s.cells none t) (hnd : t.addrs.Nodup) (hcnd : t.cellAddrs.Nodup) :
    store s p = t.dump := by
  unfold store
  rw [hhd]
  exact tree_dump_spec s t none _ hrep hcnd (Rep_size_le _ _ hrep hnd)

theorem DrainInv.store (s : MR) (N : Nat) (T : Nat → Shape) (hinv : DrainInv s N T)
    (p : Nat) (hp : p < N) : store s p = (T p).dump :=
  store_of_rep s p (T p) (hinv.heads p hp) (hinv.rep p hp) (hinv.nodup p hp)
    (hinv.cnodup p hp)

/-- A built state whose key nodes all have a value satisfies the drain invariant. -/
theorem DrainInv.of_inv (s : MR) (N : Nat) (T : Nat → Shape) (hinv : Inv s N T)
    (hval : ∀ i, i < N → ∀ e ∈ (T i).dump, e.2.2 ≠ []) : DrainInv s N T where
  heads_len := hinv.heads_len
  low_len := by rw [hinv.low]; exact List.length_replicate _ _
  cur_len := by rw [hinv.cur]; exact List.length_replicate _ _
  flags_len := by rw [hinv.flags]; exact List.length_replicate _ _
  heads := hinv.heads
  rep := hinv.rep
  ordered := hinv.ordered
  nodup := hinv.nodup
  cnodup := hinv.cnodup
  apart := hinv.apart
  capart := hinv.capart
  valued := hval
  low := fun i hi => Or.inl (by rw [hinv.low]; exact replicate_get N i none hi)

/-- The state after a sequence of emits satisfies the drain invariant. -/
theorem DrainInv.of_build (N : Nat) (es : List (Nat × Str × Str)) (hes : ∀ e ∈ es, e.1 < N)
    (s : MR) (h : add_all (initState N) es = .ok s) :
    ∃ T, DrainInv s N T ∧ Inv s N T := by
  obtain ⟨s2, T, he, hinv, hkeys, hvals, _⟩ := build_spec N es hes
  rw [h] at he
  simp only [Except.ok.injEq] at he
  subst he
  refine ⟨T, DrainInv.of_inv s N T hinv ?_, hinv⟩
  intro i hi e he hnil
  obtain ⟨a, k, vs⟩ := e
  dsimp only at hnil
  subst hnil
  have h1 := Shape.vals_of_mem_dump (T i) (hinv.ordered i hi) a k [] he
  have h2 : k ∈ (T i).keys := by
    rw [← Shape.dump_keys]
    exact List.mem_map.2 ⟨_, he, rfl⟩
  obtain ⟨v, hv⟩ := (hkeys i hi k).1 h2
  have h3 := emitted_ne_nil es i k v hv
  rw [hvals i hi k] at h1
  simp only [List.map_nil, List.reverse_eq_nil_iff] at h1
  exact h3 h1

/-- The drain invariant after the first `get_low_key` call on a partition with a
non-empty tree: only the current-minimum reference of the partition changes. -/
theorem DrainInv.first (s : MR) (N : Nat) (T : Nat → Shape) (p : Nat) (hinv : DrainInv s N T)
    (hp : p < N) (hne : T p ≠ .nil) :
    DrainInv { s with low_key := s.low_key.set p (T p).minAddr } N T where
  heads_len := hinv.heads_len
  low_len := by
    show (s.low_key.set p (T p).minAddr).length = N
    rw [List.length_set]; exact hinv.low_len
  cur_len := hinv.cur_len
  flags_len := hinv.flags_len
  heads := hinv.heads
  rep := hinv.rep
  ordered := hinv.ordered
  nodup := hinv.nodup
  cnodup := hinv.cnodup
  apart := hinv.apart
  capart := hinv.capart
  valued := hinv.valued
  low := by
    intro i hi
    show (s.low_key.set p (T p).minAddr)[i]? = some none ∨
      (T i ≠ .nil ∧ (s.low_key.set p (T p).minAddr)[i]? = some (T i).minAddr) ∨
      (T i = .nil ∧ ∃ d, (s.low_key.set p (T p).minAddr)[i]? = some (some d) ∧
        s.nodes[d]? = some none)
    by_cases hip : i = p
    · subst hip
      rw [List.getElem?_set_self (by rw [hinv.low_len]; exact hi)]
      exact Or.inr (Or.inl ⟨hne, rfl⟩)
    · rw [List.getElem?_set_ne (fun e => hip e.symm)]
      exact hinv.low i hi

/-- The drain invariant after a `get_low_key` call that releases the current minimum
of partition `p`: the tree of the partition loses its leftmost node. -/
theorem DrainInv.next (s s' : MR) (N : Nat) (T : Nat → Shape) (p d : Nat)
    (hinv : DrainInv s N T) (hp : p < N) (hne : T p ≠ .nil) (hd : (T p).minAddr = some d)
    (hR : Rep s'.nodes s'.cells none (T p).delMin)
    (e1 : s'.bst_heads = s.bst_heads.set p (T p).delMin.root)
    (e2 : s'.low_key = s.low_key.set p
      (if (T p).delMin = .nil then some d else (T p).delMin.minAddr))
    (e3 : s'.cur_values = s.cur_values) (e4 : s'.new_key = s.new_key)
    (n2 : s'.nodes[d]? = some none)
    (n3 : ∀ x, x ∉ (T p).addrs → s'.nodes[x]? = s.nodes[x]?)
    (c3 : ∀ c, c ∉ (T p).minCells.map Prod.fst → s'.cells[c]? = s.cells[c]?) :
    DrainInv s' N (Function.update T p (T p).delMin) := by
  obtain ⟨_, f2, _, f4, _, _, _⟩ :=
    Shape.delMin_facts (T p) d hne hd (hinv.nodup p hp) (hinv.cnodup p hp)
  have hTp : Function.update T p (T p).delMin p = (T p).delMin := Function.update_same _ _ _
  have hTq : ∀ q, q ≠ p → Function.update T p (T p).delMin q = T q :=
    fun q hq => Function.update_noteq hq _ _
  refine ⟨?_, ?_, ?_, ?_, ?_, ?_, ?_, ?_, ?_, ?_, ?_, ?_, ?_⟩
  · rw [e1, List.length_set]; exact hinv.heads_len
  · rw [e2, List.length_set]; exact hinv.low_len
  · rw [e3]; exact hinv.cur_len
  · rw [e4]; exact hinv.flags_len
  · intro i hi
    by_cases hip : i = p
    · subst hip
      rw [hTp, e1, List.getElem?_set_self (by rw [hinv.heads_len]; exact hi)]
    · rw [hTq i hip, e1, List.getElem?_set_ne (fun e => hip e.symm)]
      exact hinv.heads i hi
  · intro i hi
    by_cases hip : i = p
    · subst hip
      rw [hTp]; exact hR
    · rw [hTq i hip]
      refine Rep_frame (T i) none (hinv.rep i hi) ?_ ?_
      · intro a ha
        exact n3 a (fun hap => hinv.apart i p hi hp hip a ha hap)
      · intro c hc
        exact c3 c (fun hcp => hinv.capart i p hi hp hip c hc
          (Shape.minCells_subset (T p) c hcp))
  · intro i hi
    by_cases hip : i = p
    · subst hip
      rw [hTp]; exact Shape.ordered_delMin _ (hinv.ordered i hi)
    · rw [hTq i hip]; exact hinv.ordered i hi
  · intro i hi
    by_cases hip : i = p
    · subst hip
      rw [hTp]; exact f2
    · rw [hTq i hip]; exact hinv.nodup i hi
  · intro i hi
    by_cases hip : i = p
    · subst hip
      rw [hTp]; exact f4
    · rw [hTq i hip]; exact hinv.cnodup i hi
  · intro i j hi hj hij a ha hb
    by_cases hip : i = p
    · subst hip
      have hjp : j ≠ i := fun e => hij e.symm
      rw [hTp] at ha
      rw [hTq j hjp] at hb
      exact hinv.apart i j hi hj hij a (Shape.mem_addrs_of_mem_delMin _ a ha) hb
    · rw [hTq i hip] at ha
      by_cases hjp : j = p
      · subst hjp
        rw [hTp] at hb
        exact hinv.apart i j hi hj hij a ha (Shape.mem_addrs_of_mem_delMin _ a hb)
      · rw [hTq j hjp] at hb
        exact hinv.apart i j hi hj hij a ha hb
  · intro i j hi hj hij a ha hb
    by_cases hip : i = p
    · subst hip
      have hjp : j ≠ i := fun e => hij e.symm
      rw [hTp] at ha
      rw [hTq j hjp] at hb
      exact hinv.capart i j hi hj hij a (Shape.mem_cellAddrs_of_mem_delMin _ a ha) hb
    · rw [hTq i hip] at ha
      by_cases hjp : j = p
      · subst hjp
        rw [hTp] at hb
        exact hinv.capart i j hi hj hij a ha (Shape.mem_cellAddrs_of_mem_delMin _ a hb)
      · rw [hTq j hjp] at hb
        exact hinv.capart i j hi hj hij a ha hb
  · intro i hi e he
    by_cases hip : i = p
    · subst hip
      rw [hTp] at he
      exact hinv.valued i hi e (Shape.mem_dump_of_mem_delMin _ e he)
    · rw [hTq i hip] at he
      exact hinv.valued i hi e he
  · intro i hi
    by_cases hip : i = p
    · subst hip
      rw [hTp, e2, List.getElem?_set_self (by rw [hinv.low_len]; exact hi)]
      by_cases hnil : (T i).delMin = .nil
      · rw [if_pos hnil]
        exact Or.inr (Or.inr ⟨hnil, d, rfl, n2⟩)
      · rw [if_neg hnil]
        exact Or.inr (Or.inl ⟨hnil, rfl⟩)
    · rw [hTq i hip, e2, List.getElem?_set_ne (fun e => hip e.symm)]
      rcases hinv.low i hi with h1 | h1 | ⟨h1, d2, h2, h3⟩
      · exact Or.inl h1
      · exact Or.inr (Or.inl h1)
      · refine Or.inr (Or.inr ⟨h1, d2, h2, ?_⟩)
        rw [n3 d2 ?_]
        · exact h3
        · intro hm
          obtain ⟨n, hn⟩ := Rep_live (T p) none (hinv.rep p hp) d2 hm
          rw [hn] at h3
          cases h3

/-- A `get_low_key` call that returns in a state of the drain phase: the drain
invariant holds afterwards, with the tree of the partition unchanged (first call) or
without its leftmost node; the other partitions, the value cursors and the new-key
flags are as before; a key that is handed out is the key of the leftmost node of the
tree that is left, and that node is the new current minimum. -/
theorem get_low_key_drain (s s' : MR) (N : Nat) (T : Nat → Shape) (p : Nat) (k : Option Str)
    (hinv : DrainInv s N T) (h : get_low_key s p = .ok (k, s')) :
    p < N ∧ ∃ T', DrainInv s' N T' ∧ (∀ q, q ≠ p → T' q = T q) ∧
      s'.cur_values = s.cur_values ∧ s'.new_key = s.new_key ∧
      (∀ q, q ≠ p → s'.low_key[q]? = s.low_key[q]? ∧ s'.bst_heads[q]? = s.bst_heads[q]?) ∧
      (∀ key, k = some key →
        T' p ≠ .nil ∧ s'.low_key[p]? = some (T' p).minAddr ∧ key = (T' p).minKey) ∧
      (k = none → T' p = .nil) ∧
      (T' p = T p ∨ T' p = (T p).delMin) := by
  have hp : p < N := by
    have := get_low_key_lt s s' p k h
    rw [hinv.low_len] at this
    exact this
  refine ⟨hp, ?_⟩
  rcases hinv.low p hp with hl | ⟨hne, hl⟩ | ⟨_, d, hl, hd⟩
  · by_cases hT : T p = .nil
    · have hhd := hinv.heads p hp
      rw [hT] at hhd
      rw [get_low_key_empty s p hl hhd] at h
      simp only [Except.ok.injEq, Prod.mk.injEq] at h
      obtain ⟨hk, hs⟩ := h
      subst hk; subst hs
      exact ⟨T, hinv, fun _ _ => rfl, rfl, rfl, fun _ _ => ⟨rfl, rfl⟩,
        fun key hk => Option.noConfusion hk, fun _ => hT, Or.inl rfl⟩
    · rw [get_low_key_first s p (T p) hT hl (hinv.heads p hp) (hinv.rep p hp)
        (hinv.nodup p hp)] at h
      simp only [Except.ok.injEq, Prod.mk.injEq] at h
      obtain ⟨hk, hs⟩ := h
      subst hk; subst hs
      refine ⟨T, DrainInv.first s N T p hinv hp hT, fun _ _ => rfl, rfl, rfl, ?_, ?_, ?_,
        Or.inl rfl⟩
      · intro q hq
        exact ⟨List.getElem?_set_ne (fun e => hq e.symm), rfl⟩
      · intro key hk
        simp only [Option.some.injEq] at hk
        refine ⟨hT, ?_, hk.symm⟩
        exact List.getElem?_set_self (by rw [hinv.low_len]; exact hp)
      · intro hk; cases hk
  · obtain ⟨d, hd, _⟩ := Rep_min (T p) none hne (hinv.rep p hp)
    rw [hd] at hl
    obtain ⟨s2, he, hR, e1, e2, e3, e4, _, n2, n3, _, _, c3⟩ :=
      get_low_key_next s p (T p) d hne hd hl (hinv.heads p hp) (hinv.rep p hp)
        (hinv.nodup p hp) (hinv.cnodup p hp)
    rw [he] at h
    simp only [Except.ok.injEq, Prod.mk.injEq] at h
    obtain ⟨hk, hs⟩ := h
    subst hs
    have hTp : Function.update T p (T p).delMin p = (T p).delMin := Function.update_same _ _ _
    refine ⟨Function.update T p (T p).delMin,
      DrainInv.next s s2 N T p d hinv hp hne hd hR e1 e2 e3 e4 n2 n3 c3,
      fun q hq => Function.update_noteq hq _ _, e3, e4, ?_, ?_, ?_, Or.inr hTp⟩
    · intro q hq
      rw [e1, e2]
      exact ⟨List.getElem?_set_ne (fun e => hq e.symm),
        List.getElem?_set_ne (fun e => hq e.symm)⟩
    · intro key hkey
      rw [hTp]
      have hne2 : (T p).delMin ≠ .nil := by
        intro hnil
        rw [← hk, hnil] at hkey
        simp [Shape.keys] at hkey
      refine ⟨hne2, ?_, ?_⟩
      · rw [e2, List.getElem?_set_self (by rw [hinv.low_len]; exact hp), if_neg hne2]
      · rw [← hk, Shape.keys_delMin _ hne2] at hkey
        simp only [List.head?_cons, Option.some.injEq] at hkey
        exact hkey.symm
    · intro hnone
      rw [hTp]
      rw [hnone] at hk
      apply Shape.keys_eq_nil
      cases hks : (T p).delMin.keys with
      | nil => rfl
      | cons x xs => rw [hks] at hk; simp at hk
  · rw [get_low_key_dangling s p d hl hd] at h
    cases h

/-- The drain invariant does not depend on the value cursors and the new-key flags. -/
theorem DrainInv.of_frame (s s' : MR) (N : Nat) (T : Nat → Shape) (p : Nat)
    (hinv : DrainInv s N T) (hf : IterFrame s s' p) : DrainInv s' N T := by
  obtain ⟨a1, a2, a3, a4, a5, a6, _⟩ := hf
  refine ⟨?_, ?_, ?_, ?_, ?_, ?_, hinv.ordered, hinv.nodup, hinv.cnodup, hinv.apart,
    hinv.capart, hinv.valued, ?_⟩
  · rw [a3]; exact hinv.heads_len
  · rw [a4]; exact hinv.low_len
  · rw [a5]; exact hinv.cur_len
  · rw [a6]; exact hinv.flags_len
  · rw [a3]; exact hinv.heads
  · rw [a1, a2]; exact hinv.rep
  · rw [a1, a4]; exact hinv.low

theorem drain_op_inv (s s' : MR) (N : Nat) (T : Nat → Shape) (op : DrainOp)
    (r : Option Str) (hinv : DrainInv s N T) (h : drain_op s op = .ok (r, s')) :
    ∃ T', DrainInv s' N T' := by
  cases op with
  | low p =>
    obtain ⟨_, T', h1, _⟩ := get_low_key_drain s s' N T p r hinv h
    exact ⟨T', h1⟩
  | next key p =>
    exact ⟨T, DrainInv.of_frame s s' N T p hinv (get_next_value_frame s s' key p r h).1⟩

theorem drain_ops_inv (N : Nat) :
    ∀ (ops : List DrainOp) (s s' : MR) (T : Nat → Shape), DrainInv s N T →
      drain_ops s ops = .ok s' → ∃ T', DrainInv s' N T'
  | [], s, s', T, hinv, h => by
    simp only [drain_ops, Except.ok.injEq] at h
    subst h
    exact ⟨T, hinv⟩
  | op :: ops, s, s', T, hinv, h => by
    unfold drain_ops at h
    obtain ⟨⟨r, s1⟩, h1, h2⟩ := bind_eq_ok h
    obtain ⟨T1, hinv1⟩ := drain_op_inv s s1 N T op r hinv h1
    exact drain_ops_inv N ops s1 s' T1 hinv1 h2

/-- Every state reached from a sequence of emits by calls of the drain interface
satisfies the drain invariant. -/
theorem drain_reach (N : Nat) (es : List (Nat × Str × Str)) (hes : ∀ e ∈ es, e.1 < N)
    (ops : List DrainOp) (s0 s : MR) (hb : add_all (initState N) es = .ok s0)
    (hops : drain_ops s0 ops = .ok s) : ∃ T, DrainInv s N T := by
  obtain ⟨T0, h0, _⟩ := DrainInv.of_build N es hes s0 hb
  exact drain_ops_inv N ops s0 s T0 h0 hops

theorem Shape.root_eq_none : ∀ (t : Shape), t.root = none → t = .nil
  | .nil, _ => rfl
  | .node _ _ _ _ _, h => by simp [Shape.root] at h

theorem Shape.size_pos_of_ne : ∀ (t : Shape), t ≠ .nil → 0 < t.size
  | .nil, h => absurd rfl h
  | .node _ l _ _ r, _ => by simp only [Shape.size]; omega

/-- The pointer changes of a `get_low_key` call that removes the leftmost node of a
tree with at least two nodes, read off the tree that is left. -/
theorem delMin_links {nodes : List (Option bst_node)} {cells : List (Option v_node)}
    (t : Shape) (h2 : 2 ≤ t.size) (a : Nat) (ha : t.delMin.minAddr = some a)
    (heads : Option Nat) (hheads : heads = t.delMin.root)
    (hR : Rep nodes cells none t.delMin) :
    (t.minRight.root = none → ∃ pn, t.minParent none = some a ∧
      nodes[a]? = some (some pn) ∧ pn.left = none) ∧
    (∀ c, t.minRight.root = some c →
      (∃ cn, nodes[c]? = some (some cn) ∧ cn.parent = t.minParent none) ∧
      (t.minParent none = none → heads = some c) ∧
      (∀ pp, t.minParent none = some pp →
        ∃ pn, nodes[pp]? = some (some pn) ∧ pn.left = some c)) := by
  cases t with
  | nil => simp [Shape.size] at h2
  | node a0 l k0 vs0 r =>
    cases l with
    | nil =>
      constructor
      · intro hr
        have : r = .nil := Shape.root_eq_none r hr
        subst this
        simp [Shape.size] at h2
      · intro c hc
        refine ⟨Rep_delMin_child _ none hR c hc, ?_, ?_⟩
        · intro _
          rw [hheads]
          exact hc
        · intro pp hpp
          simp [Shape.minParent] at hpp
    | node b l1 k1 vs1 r1 =>
      rw [Shape.delMin_node_node] at hR
      obtain ⟨pp, pn, h1, h3, h4⟩ :=
        Rep_delMin_parent b l1 k1 vs1 r1 a0 _ hR.1 rfl hR.2.2.1
      rw [Shape.minParent_node_node, Shape.minRight_node_node]
      constructor
      · intro hr
        have hnil := Shape.root_eq_none _ hr
        have := Shape.minAddr_delMin_of_leaf a0 b l1 k1 vs1 r1 k0 vs0 r pp hnil h1
        rw [this] at ha
        simp only [Option.some.injEq] at ha
        subst ha
        exact ⟨pn, h1, h3, by rw [h4, hr]⟩
      · intro c hc
        refine ⟨?_, ?_, ?_⟩
        · have := Rep_delMin_child (.node a0 (.node b l1 k1 vs1 r1) k0 vs0 r) none
            (by rw [Shape.delMin_node_node]; exact hR) c
            (by rw [Shape.minRight_node_node]; exact hc)
          rw [Shape.minParent_node_node] at this
          exact this
        · intro hpar
          rw [h1] at hpar
          cases hpar
        · intro pp2 hpar
          rw [h1] at hpar
          simp only [Option.some.injEq] at hpar
          subst hpar
          exact ⟨pn, h3, by rw [h4, hc]⟩

/-- C15: on a stored tree in strict search-tree order with at least two key nodes whose
leftmost node is the current minimum, `get_low_key` returns a key; the store afterwards
is the store before without its first entry, the previous minimum, whose node is
released, so every other key node and its value list is as before; the returned key is
the key of the new first entry, below every other key left, and that node is the new
current minimum.  The removed node had no left child; when it had no right child its
parent is the new minimum and has no left child any more; otherwise its right child
has taken its parent, and is the new root or the left child of that parent. -/
theorem get_low_key_removes_minimum (s : MR) (p : Nat) (t : Shape) (d : Nat)
    (hrep : Rep s.nodes s.cells none t) (hord : t.Ordered) (hnd : t.addrs.Nodup)
    (hcnd : t.cellAddrs.Nodup) (hhd : s.bst_heads[p]? = some t.root)
    (hd : t.minAddr = some d) (hlk : s.low_key[p]? = some (some d)) (h2 : 2 ≤ t.size) :
    ∃ dn vs0 k s' a vs rest,
      s.nodes[d]? = some (some dn) ∧ dn.left = none ∧
      get_low_key s p = .ok (some k, s') ∧
      store s p = (d, dn.key, vs0) :: store s' p ∧ s'.nodes[d]? = some none ∧
      store s' p = (a, k, vs) :: rest ∧ (∀ e ∈ rest, strcmp k e.2.1 < 0) ∧
      s'.low_key[p]? = some (some a) ∧
      (store_keys s' p).Pairwise (fun x y => strcmp x y < 0) ∧
      (dn.right = none →
        ∃ pn, dn.parent = some a ∧ s'.nodes[a]? = some (some pn) ∧ pn.left = none) ∧
      (∀ c, dn.right = some c →
        (∃ cn, s'.nodes[c]? = some (some cn) ∧ cn.parent = dn.parent) ∧
        (dn.parent = none → s'.bst_heads[p]? = some (some c)) ∧
        (∀ pp, dn.parent = some pp →
          ∃ pn, s'.nodes[pp]? = some (some pn) ∧ pn.left = some c)) := by
  have hne : t ≠ .nil := by
    intro h; subst h; simp [Shape.size] at h2
  obtain ⟨d1, hd1, hn, _, _⟩ := Rep_min t none hne hrep
  rw [hd] at hd1
  simp only [Option.some.injEq] at hd1
  subst hd1
  obtain ⟨s', he, hR, e1, e2, _, _, _, n2, _, _, _, _⟩ :=
    get_low_key_next s p t d hne hd hlk hhd hrep hnd hcnd
  obtain ⟨_, f2, _, f4, _, _, f7⟩ := Shape.delMin_facts t d hne hd hnd hcnd
  have hne2 : t.delMin ≠ .nil := by
    intro h
    rw [h] at f7
    simp [Shape.size] at f7
    omega
  have hph : p < s.bst_heads.length := lt_of_get hhd
  have hpl : p < s.low_key.length := lt_of_get hlk
  have hhd2 : s'.bst_heads[p]? = some t.delMin.root := by
    rw [e1, List.getElem?_set_self hph]
  have hst := store_of_rep s p t hhd hrep hnd hcnd
  have hst2 := store_of_rep s' p t.delMin hhd2 hR f2 f4
  obtain ⟨a, ha, _⟩ := Rep_min t.delMin none hne2 hR
  have hdump := Shape.dump_delMin t d hd
  have hdump2 := Shape.dump_delMin t.delMin a ha
  have hkeys := Shape.keys_delMin t.delMin hne2
  have hsorted := Shape.keys_sorted t.delMin (Shape.ordered_delMin t hord)
  obtain ⟨l1, l2⟩ := delMin_links t h2 a ha t.delMin.root rfl hR
  refine ⟨_, t.minCells, t.delMin.minKey, s', a, t.delMin.minCells, t.delMin.delMin.dump, hn,
    rfl, ?_, ?_, n2, ?_, ?_, ?_, ?_, ?_, ?_⟩
  · rw [he, hkeys]
    rfl
  · rw [hst, hst2, hdump]
  · rw [hst2, hdump2]
  · intro e he2
    rw [hkeys] at hsorted
    have := (List.pairwise_cons.1 hsorted).1 e.2.1
    apply this
    rw [← Shape.dump_keys]
    exact List.mem_map.2 ⟨e, he2, rfl⟩
  · rw [e2, List.getElem?_set_self hpl, if_neg hne2, ha]
  · unfold store_keys
    rw [hst2, Shape.dump_keys]
    exact hsorted
  · intro hr
    exact l1 hr
  · intro c hc
    obtain ⟨m1, m2, m3⟩ := l2 c hc
    refine ⟨m1, ?_, m3⟩
    intro hpar
    rw [hhd2, m2 hpar]

theorem get_low_key_removes_minimum_witness :
    ∃ s0 s, add_all (initState 1) [(0, [98], [49]), (0, [97], [50]), (0, [99], [51])] =
        .ok s0 ∧
      get_low_key s0 0 = .ok (some [97], s) ∧
      Rep s.nodes s.cells none
        (.node 0 (.node 1 .nil [97] [(1, [50])] .nil) [98] [(0, [49])]
          (.node 2 .nil [99] [(2, [51])] .nil)) ∧
      s.bst_heads[0]? = some (some 0) ∧ s.low_key[0]? = some (some 1) ∧
      ∃ dn vs0 k s' a vs rest,
        s.nodes[1]? = some (some dn) ∧ dn.left = none ∧
        get_low_key s 0 = .ok (some k, s') ∧
        store s 0 = (1, dn.key, vs0) :: store s' 0 ∧ s'.nodes[1]? = some none ∧
        store s' 0 = (a, k, vs) :: rest ∧ (∀ e ∈ rest, strcmp k e.2.1 < 0) ∧
        s'.low_key[0]? = some (some a) ∧
        (store_keys s' 0).Pairwise (fun x y => strcmp x y < 0) ∧
        (dn.right = none →
          ∃ pn, dn.parent = some a ∧ s'.nodes[a]? = some (some pn) ∧ pn.left = none) ∧
        (∀ c, dn.right = some c →
          (∃ cn, s'.nodes[c]? = some (some cn) ∧ cn.parent = dn.parent) ∧
          (dn.parent = none → s'.bst_heads[0]? = some (some c)) ∧
          (∀ pp, dn.parent = some pp →
            ∃ pn, s'.nodes[pp]? = some (some pn) ∧ pn.left = some c)) :=
  ⟨_, _, rfl, rfl, ⟨rfl, ⟨rfl, trivial⟩, ⟨rfl, ⟨rfl, trivial⟩, trivial, trivial⟩,
      ⟨rfl, ⟨rfl, trivial⟩, trivial, trivial⟩⟩, rfl, rfl,
    get_low_key_removes_minimum _ 0
      (.node 0 (.node 1 .nil [97] [(1, [50])] .nil) [98] [(0, [49])]
        (.node 2 .nil [99] [(2, [51])] .nil)) 1
      ⟨rfl, ⟨rfl, trivial⟩, ⟨rfl, ⟨rfl, trivial⟩, trivial, trivial⟩,
        ⟨rfl, ⟨rfl, trivial⟩, trivial, trivial⟩⟩
      (by simp [Shape.Ordered, Shape.keys, strcmp]) (by decide) (by decide) rfl rfl rfl
      (by decide)⟩

/-- C16: in every state reached from a sequence of emits by calls of the drain
interface, a `get_low_key` call that returns a key leaves the tree of the partition a
stored tree (child links and parent back-links agree) in strict search-tree order with
strictly increasing keys, and the current-minimum reference points to the leftmost
node: the node holds the returned key, is first in the store, has no left child, is the
root when it has no parent, and otherwise is the left child of its parent. -/
theorem drain_keeps_leftmost_minimum (N : Nat) (es : List (Nat × Str × Str))
    (hes : ∀ e ∈ es, e.1 < N) (ops : List DrainOp) (s0 s : MR) (p : Nat) (k : Str) (s' : MR)
    (hb : add_all (initState N) es = .ok s0) (hops : drain_ops s0 ops = .ok s)
    (hk : get_low_key s p = .ok (some k, s')) :
    ∃ t d n, Rep s'.nodes s'.cells none t ∧ t.Ordered ∧ t.addrs.Nodup ∧
      s'.bst_heads[p]? = some t.root ∧ store s' p = t.dump ∧
      (store_keys s' p).Pairwise (fun a b => strcmp a b < 0) ∧
      s'.low_key[p]? = some (some d) ∧ s'.nodes[d]? = some (some n) ∧ n.key = k ∧
      n.left = none ∧ (∃ vs rest, store s' p = (d, k, vs) :: rest) ∧
      (n.parent = none → s'.bst_heads[p]? = some (some d)) ∧
      (∀ pp, n.parent = some pp → ∃ pn, s'.nodes[pp]? = some (some pn) ∧ pn.left = some d) := by
  obtain ⟨T, hinv⟩ := drain_reach N es hes ops s0 s hb hops
  obtain ⟨hp, T', hinv', _, _, _, _, hkey, _, _⟩ := get_low_key_drain s s' N T p (some k) hinv hk
  obtain ⟨hne, hlow, hmin⟩ := hkey k rfl
  have hrep := hinv'.rep p hp
  obtain ⟨d, hd, hn, _, _⟩ := Rep_min (T' p) none hne hrep
  have hst := DrainInv.store s' N T' hinv' p hp
  refine ⟨T' p, d, _, hrep, hinv'.ordered p hp, hinv'.nodup p hp, hinv'.heads p hp, hst, ?_,
    ?_, hn, hmin.symm, rfl, ?_, ?_, ?_⟩
  · unfold store_keys
    rw [hst, Shape.dump_keys]
    exact Shape.keys_sorted _ (hinv'.ordered p hp)
  · rw [hlow, hd]
  · rw [hst, Shape.dump_delMin _ d hd, hmin]
    exact ⟨_, _, rfl⟩
  · intro hpar
    dsimp only at hpar
    rcases Rep_min_link (T' p) none d hrep hd with ⟨h1, _⟩ | ⟨pp, pn, h1, _, _, _⟩
    · rw [hinv'.heads p hp, h1]
    · rw [h1] at hpar; cases hpar
  · intro pp hpar
    dsimp only at hpar
    rcases Rep_min_link (T' p) none d hrep hd with ⟨_, h2⟩ | ⟨pp2, pn, h1, h2, h3, _⟩
    · rw [h2] at hpar; cases hpar
    · rw [h1] at hpar
      simp only [Option.some.injEq] at hpar
      subst hpar
      exact ⟨pn, h2, h3⟩

theorem drain_keeps_leftmost_minimum_witness :
    ∃ s0 s s', add_all (initState 1) [(0, [98], [49]), (0, [97], [50]), (0, [99], [51])] =
        .ok s0 ∧
      drain_ops s0 [.low 0, .next [97] 0, .next [97] 0] = .ok s ∧
      get_low_key s 0 = .ok (some [98], s') ∧
      ∃ t d n, Rep s'.nodes s'.cells none t ∧ t.Ordered ∧ t.addrs.Nodup ∧
        s'.bst_heads[0]? = some t.root ∧ store s' 0 = t.dump ∧
        (store_keys s' 0).Pairwise (fun a b => strcmp a b < 0) ∧
        s'.low_key[0]? = some (some d) ∧ s'.nodes[d]? = some (some n) ∧ n.key = [98] ∧
        n.left = none ∧ (∃ vs rest, store s' 0 = (d, [98], vs) :: rest) ∧
        (n.parent = none → s'.bst_heads[0]? = some (some d)) ∧
        (∀ pp, n.parent = some pp →
          ∃ pn, s'.nodes[pp]? = some (some pn) ∧ pn.left = some d) :=
  ⟨_, _, _, rfl, rfl, rfl,
    drain_keeps_leftmost_minimum 1 [(0, [98], [49]), (0, [97], [50]), (0, [99], [51])]
      (by decide) [.low 0, .next [97] 0, .next [97] 0] _ _ 0 [98] _ rfl rfl rfl⟩

/-- C17, the claim as stated fails: on a partition that holds the single pair
`("k", "v")`, the first `get_low_key` call hands out the key and the second one, made
while that node is the last node, clears the store, releases the node and returns NULL;
after it the current-minimum reference `low_key[0]` is not NULL but still points to the
released node, and a third `get_low_key` call does not report empty: it reads that
node. -/
theorem get_low_key_after_exhaustion :
    ∃ s1 s2 s3, add_to_tree (initState 1) 0 [107] [118] = .ok s1 ∧
      get_low_key s1 0 = .ok (some [107], s2) ∧
      get_low_key s2 0 = .ok (none, s3) ∧
      s3.bst_heads = [none] ∧ s3.nodes = [none] ∧ s3.cells = [none] ∧
      s3.low_key = [some 0] ∧
      get_low_key s3 0 = .error .useAfterFree :=
  ⟨_, _, _, rfl, rfl, rfl, rfl, rfl, rfl, rfl, rfl⟩

/-- C17, amended: when `get_low_key` is called while the current minimum is a node
without right child and without parent, it returns NULL; the root of the partition is
NULL afterwards, so its store is empty, and the node and its value cells are released;
nothing else changes: all other nodes and cells, the value cursors, the new-key flags
and the current-minimum references are as before, so the reference of the partition
still points to the released node.  The loop of `reduce_thread` returns on this answer
without a further call; a further `get_low_key` call would read the released node. -/
theorem get_low_key_last_node (s : MR) (p d : Nat) (n : bst_node) (vs : List (Nat × Str))
    (hn : s.nodes[d]? = some (some n)) (hr : n.right = none) (hpar : n.parent = none)
    (hv : n.v_head = vhead vs) (hvl : VList s.cells vs) (hnd : (vs.map Prod.fst).Nodup)
    (hlk : s.low_key[p]? = some (some d)) (hph : p < s.bst_heads.length) :
    ∃ s', get_low_key s p = .ok (none, s') ∧
      s'.bst_heads = s.bst_heads.set p none ∧ store s' p = [] ∧
      s'.nodes[d]? = some none ∧ (∀ c ∈ vs.map Prod.fst, s'.cells[c]? = some none) ∧
      (∀ x, x ≠ d → s'.nodes[x]? = s.nodes[x]?) ∧
      (∀ c, c ∉ vs.map Prod.fst → s'.cells[c]? = s.cells[c]?) ∧
      s'.low_key = s.low_key ∧ s'.low_key[p]? = some (some d) ∧
      s'.cur_values = s.cur_values ∧ s'.new_key = s.new_key ∧
      (∀ (σ : Type) (cb : Reducer σ) (cbFuel fuel : Nat) (st : σ),
        reduce_loop cb cbFuel p (fuel + 1) st s = .ok (st, s', [Event.destroyed d])) ∧
      get_low_key s' p = .error .useAfterFree := by
  obtain ⟨s', he, _, n2, n3, _, c2, c3, e1, e2, e3, e4⟩ :=
    free_node_spec d vs { s with bst_heads := s.bst_heads.set p none } n hn hv hvl hnd
  have hg : get_low_key s p = .ok (none, s') := by
    unfold get_low_key
    rw [rd_ok hlk]
    simp only [bind, Except.bind]
    rw [readNode_ok hn]
    simp only []
    rw [hr, hpar]
    simp only []
    rw [wr_ok none hph]
    simp only []
    rw [he]
    rfl
  have hlow : s'.low_key[p]? = some (some d) := by rw [e2]; exact hlk
  have hheads : s'.bst_heads[p]? = some none := by
    rw [e1]
    exact List.getElem?_set_self hph
  refine ⟨s', hg, e1, ?_, n2, c2, n3, c3, e2, hlow, e3, e4, ?_, ?_⟩
  · unfold store
    rw [hheads]
    cases s'.nodes.length <;> rfl
  · intro σ cb cbFuel fuel st
    rw [reduce_loop, rd_ok hlk]
    simp only [bind, Except.bind]
    rw [hg]
    rfl
  · exact get_low_key_dangling s' p d hlow n2

theorem get_low_key_last_node_witness :
    ∃ s0 s n, add_to_tree (initState 1) 0 [107] [118] = .ok s0 ∧
      get_low_key s0 0 = .ok (some [107], s) ∧
      s.nodes[0]? = some (some n) ∧ n.right = none ∧ n.parent = none ∧
      n.v_head = vhead [(0, [118])] ∧ VList s.cells [(0, [118])] ∧
      s.low_key[0]? = some (some 0) ∧
      ∃ s', get_low_key s 0 = .ok (none, s') ∧
        s'.bst_heads = s.bst_heads.set 0 none ∧ store s' 0 = [] ∧
        s'.nodes[0]? = some none ∧
        (∀ c ∈ [(0, [118])].map Prod.fst, s'.cells[c]? = some none) ∧
        (∀ x, x ≠ 0 → s'.nodes[x]? = s.nodes[x]?) ∧
        (∀ c, c ∉ [(0, [118])].map Prod.fst → s'.cells[c]? = s.cells[c]?) ∧
        s'.low_key = s.low_key ∧ s'.low_key[0]? = some (some 0) ∧
        s'.cur_values = s.cur_values ∧ s'.new_key = s.new_key ∧
        (∀ (σ : Type) (cb : Reducer σ) (cbFuel fuel : Nat) (st : σ),
          reduce_loop cb cbFuel 0 (fuel + 1) st s = .ok (st, s', [Event.destroyed 0])) ∧
        get_low_key s' 0 = .error .useAfterFree :=
  ⟨_, _, _, rfl, rfl, rfl, rfl, rfl, rfl, ⟨rfl, trivial⟩, rfl,
    get_low_key_last_node _ 0 0 _ [(0, [118])] rfl rfl rfl rfl ⟨rfl, trivial⟩ (by decide) rfl
      (by decide)⟩

theorem store_of_no_head (s : MR) (q : Nat) (h : s.bst_heads[q]? = none) : store s q = [] := by
  unfold store
  rw [h]

/-- C18: in every state reached from a sequence of emits by calls of the drain
interface, a `get_low_key` or `get_next_value` call on partition `p` that returns
leaves every other partition `q` as it was: its store (key nodes with their value
lists), its tree root, its current-minimum reference, its value cursor and its new-key
flag. -/
theorem drain_call_leaves_other_partitions (N : Nat) (es : List (Nat × Str × Str))
    (hes : ∀ e ∈ es, e.1 < N) (ops : List DrainOp) (s0 s : MR) (op : DrainOp)
    (r : Option Str) (s' : MR) (q : Nat)
    (hb : add_all (initState N) es = .ok s0) (hops : drain_ops s0 ops = .ok s)
    (hcall : drain_op s op = .ok (r, s')) (hq : q ≠ op.part) :
    store s' q = store s q ∧ s'.bst_heads[q]? = s.bst_heads[q]? ∧
      s'.low_key[q]? = s.low_key[q]? ∧ s'.cur_values[q]? = s.cur_values[q]? ∧
      s'.new_key[q]? = s.new_key[q]? := by
  obtain ⟨T, hinv⟩ := drain_reach N es hes ops s0 s hb hops
  cases op with
  | low p =>
    have hqp : q ≠ p := hq
    obtain ⟨_, T', hinv', hT, e3, e4, hfr, _⟩ := get_low_key_drain s s' N T p r hinv hcall
    refine ⟨?_, (hfr q hqp).2, (hfr q hqp).1, by rw [e3], by rw [e4]⟩
    rcases Nat.lt_or_ge q N with hlt | hge
    · rw [DrainInv.store s' N T' hinv' q hlt, DrainInv.store s N T hinv q hlt, hT q hqp]
    · have h1 : s.bst_heads[q]? = none :=
        List.getElem?_eq_none (by rw [hinv.heads_len]; exact hge)
      have h2 : s'.bst_heads[q]? = none := by rw [(hfr q hqp).2]; exact h1
      rw [store_of_no_head s q h1, store_of_no_head s' q h2]
  | next key p =>
    have hqp : q ≠ p := hq
    obtain ⟨hf, _, _⟩ := get_next_value_frame s s' key p r hcall
    have hinv' := DrainInv.of_frame s s' N T p hinv hf
    obtain ⟨_, _, a3, a4, _, _, a7⟩ := hf
    refine ⟨?_, by rw [a3], by rw [a4], (a7 q hqp).1, (a7 q hqp).2⟩
    rcases Nat.lt_or_ge q N with hlt | hge
    · rw [DrainInv.store s' N T hinv' q hlt, DrainInv.store s N T hinv q hlt]
    · have h1 : s.bst_heads[q]? = none :=
        List.getElem?_eq_none (by rw [hinv.heads_len]; exact hge)
      have h2 : s'.bst_heads[q]? = none := by rw [a3]; exact h1
      rw [store_of_no_head s q h1, store_of_no_head s' q h2]

theorem drain_call_leaves_other_partitions_witness :
    (∃ s0 s s', add_all (initState 2) [(0, [97], [49]), (1, [98], [50]), (0, [99], [51])] =
        .ok s0 ∧
      drain_ops s0 [.low 0, .low 1, .next [98] 1] = .ok s ∧
      drain_op s (.low 0) = .ok (some [99], s') ∧ 1 ≠ (DrainOp.low 0).part ∧
      (store s' 1 = store s 1 ∧ s'.bst_heads[1]? = s.bst_heads[1]? ∧
        s'.low_key[1]? = s.low_key[1]? ∧ s'.cur_values[1]? = s.cur_values[1]? ∧
        s'.new_key[1]? = s.new_key[1]?)) ∧
    (∃ s0 s s', add_all (initState 2) [(0, [97], [49]), (1, [98], [50]), (0, [99], [51])] =
        .ok s0 ∧
      drain_ops s0 [.low 0, .low 1] = .ok s ∧
      drain_op s (.next [98] 1) = .ok (some [50], s') ∧ 0 ≠ (DrainOp.next [98] 1).part ∧
      (store s' 0 = store s 0 ∧ s'.bst_heads[0]? = s.bst_heads[0]? ∧
        s'.low_key[0]? = s.low_key[0]? ∧ s'.cur_values[0]? = s.cur_values[0]? ∧
        s'.new_key[0]? = s.new_key[0]?)) :=
  ⟨⟨_, _, _, rfl, rfl, rfl, by decide,
    drain_call_leaves_other_partitions 2 [(0, [97], [49]), (1, [98], [50]), (0, [99], [51])]
      (by decide) [.low 0, .low 1, .next [98] 1] _ _ (.low 0) (some [99]) _ 1 rfl rfl rfl
      (by decide)⟩,
   ⟨_, _, _, rfl, rfl, rfl, by decide,
    drain_call_leaves_other_partitions 2 [(0, [97], [49]), (1, [98], [50]), (0, [99], [51])]
      (by decide) [.low 0, .low 1] _ _ (.next [98] 1) (some [50]) _ 0 rfl rfl rfl
      (by decide)⟩⟩

/-- C19: after any sequence of emits every key node of every partition has a non-empty
value list; and in every state reached from there by calls of the drain interface, when
`get_low_key` hands out a key and the new-key flag of the partition is raised, the next
`get_next_value` call returns a value, the one at the head of the value list of the key,
and not the end-of-values answer. -/
theorem first_value_request_returns_value (N : Nat) (es : List (Nat × Str × Str))
    (hes : ∀ e ∈ es, e.1 < N) (ops : List DrainOp) (s0 s : MR) (p : Nat) (k : Str) (s1 : MR)
    (hb : add_all (initState N) es = .ok s0) (hops : drain_ops s0 ops = .ok s)
    (hk : get_low_key s p = .ok (some k, s1)) (hreset : s1.new_key[p]? = some 1) :
    (∀ i, i < N → ∀ e ∈ store s0 i, e.2.2 ≠ []) ∧
    ∃ v s2 a c cs rest, get_next_value s1 k p = .ok (some v, s2) ∧
      store s1 p = (a, k, (c, v) :: cs) :: rest := by
  constructor
  · obtain ⟨T0, h0, _⟩ := DrainInv.of_build N es hes s0 hb
    intro i hi e he
    rw [DrainInv.store s0 N T0 h0 i hi] at he
    exact h0.valued i hi e he
  · obtain ⟨T, hinv⟩ := drain_reach N es hes ops s0 s hb hops
    obtain ⟨hp, T', hinv', _, _, _, _, hkey, _, _⟩ :=
      get_low_key_drain s s1 N T p (some k) hinv hk
    obtain ⟨hne, hlow, hmin⟩ := hkey k rfl
    have hrep := hinv'.rep p hp
    obtain ⟨d, hd, hn, hvl, _⟩ := Rep_min (T' p) none hne hrep
    have hst := DrainInv.store s1 N T' hinv' p hp
    have hdump := Shape.dump_delMin (T' p) d hd
    have hval := hinv'.valued p hp (d, (T' p).minKey, (T' p).minCells)
      (by rw [hdump]; exact List.mem_cons_self _ _)
    dsimp only at hval
    cases hmc : (T' p).minCells with
    | nil => exact absurd hmc hval
    | cons cv tl =>
      obtain ⟨c, v⟩ := cv
      rw [hmc] at hn hvl hdump
      rw [hd] at hlow
      have hcl : p < s1.cur_values.length := by rw [hinv'.cur_len]; exact hp
      have hfl : p < s1.new_key.length := by rw [hinv'.flags_len]; exact hp
      have hgv : ∃ s2, get_next_value s1 k p = .ok (some v, s2) := by
        rw [get_next_value_new s1 k p d _ hreset hlow hn hcl]
        exact ⟨_, get_next_value_some _ k p c v tl (List.getElem?_set_self hfl)
          (List.getElem?_set_self hcl) hvl.1⟩
      obtain ⟨s2, hs2⟩ := hgv
      exact ⟨v, s2, d, c, tl, _, hs2, by rw [hst, hdump, hmin]⟩

theorem first_value_request_returns_value_witness :
    ∃ s0 s s1, add_all (initState 1) [(0, [98], [49]), (0, [97], [50]), (0, [97], [51])] =
        .ok s0 ∧
      drain_ops s0 [] = .ok s ∧ get_low_key s 0 = .ok (some [97], s1) ∧
      s1.new_key[0]? = some 1 ∧
      (∀ i, i < 1 → ∀ e ∈ store s0 i, e.2.2 ≠ []) ∧
      ∃ v s2 a c cs rest, get_next_value s1 [97] 0 = .ok (some v, s2) ∧
        store s1 0 = (a, [97], (c, v) :: cs) :: rest :=
  ⟨_, _, _, rfl, rfl, rfl, rfl,
    first_value_request_returns_value 1 [(0, [98], [49]), (0, [97], [50]), (0, [97], [51])]
      (by decide) [] _ _ 0 [97] _ rfl rfl rfl rfl⟩

end MapReduce
